import Mathlib

/-!
# TreeMap.h: a parent-linked AVL map

Shallow embedding of `src/TreeMap.h`.  The C code works on a graph of
heap-allocated `TreeNode`s linked by raw pointers, so the embedding keeps an
explicit heap: a pointer is `Option Nat` (`none` is `NULL`, `some a` is the
address `a`), the heap is the list of all nodes ever allocated and `malloc`
returns the next free index.  Every C statement that reads or writes through a
pointer becomes a `load` / `store` on that heap, in the order of the source, so
that aliasing between pointers behaves as it does in C.

Dereferencing `NULL` is undefined behaviour in C; here it is the fault
`Fault.nullDeref`.  Every `while` loop takes a fuel argument and reports
`Fault.outOfFuel` when it is exhausted.

`height` and `size` are C `long`s and the height temporaries are `int`s; they
are modelled as unbounded `Int`: a height is at most the number of nodes, so
the machine ranges are out of reach of any tree that fits in memory.  The list
links `next`, `prev` and `end` are kept in the node (the last one under the
name `endl`); they are only ever set to `NULL`.  The destructors
`destroyElement` / `destroyInfo` are never called by any of the operations
modelled here (`delete` does not free the node it unlinks), and are left out of
`TTree`.
-/

namespace TreeMap

/-- Pointers: `none` is `NULL`. -/
abbrev Ptr := Option Nat

/-- Ways in which a run of the C code can fail to return. -/
inductive Fault where
  | nullDeref
  | wildPtr
  | outOfFuel
  deriving DecidableEq, Repr

/-- The C `struct node`. -/
structure TreeNode (K V : Type) where
  elem : K
  info : V
  pt : Ptr
  lt : Ptr
  rt : Ptr
  next : Ptr
  prev : Ptr
  endl : Ptr
  height : Int
  deriving DecidableEq, Repr

/-- The heap: address `a` holds the node `h[a]`. -/
abbrev Heap (K V : Type) := List (TreeNode K V)

/-- The C `struct TTree` (without the two destructors). -/
structure TTree (K V : Type) where
  root : Ptr
  createElement : K → K
  createInfo : V → V
  compare : K → K → Int
  size : Int

/-- A tree handle together with the heap its nodes live in. -/
structure Mem (K V : Type) where
  heap : Heap K V
  tree : TTree K V

/-- The macro `MAX(a, b)`. -/
def MAX (a b : Int) : Int := if a ≥ b then a else b

variable {K V : Type}

/-- Reading `*p`. -/
def load (h : Heap K V) : Ptr → Except Fault (TreeNode K V)
  | none => .error .nullDeref
  | some a =>
    match h[a]? with
    | some n => .ok n
    | none => .error .wildPtr

/-- Writing one field of `*p`: the node at `p` is replaced by `f` of it. -/
def store (h : Heap K V) (p : Ptr) (f : TreeNode K V → TreeNode K V) :
    Except Fault (Heap K V) :=
  match p with
  | none => .error .nullDeref
  | some a =>
    match h[a]? with
    | some n => .ok (h.set a (f n))
    | none => .error .wildPtr

/-- The function `createTree`: `calloc` zeroes the root, `size = 0`. -/
def createTree (createElement : K → K) (createInfo : V → V) (compare : K → K → Int) :
    Mem K V :=
  { heap := [],
    tree := { root := none, createElement := createElement, createInfo := createInfo,
              compare := compare, size := 0 } }

/-- The function `isEmpty`. -/
def isEmpty (m : Mem K V) : Bool := m.tree.root == none

/-- The `while (t != NULL)` loop of `search`. -/
def searchLoop (compare : K → K → Int) (h : Heap K V) (elem : K) : Nat → Ptr → Except Fault Ptr
  | _, none => .ok none
  | 0, some _ => .error .outOfFuel
  | fuel + 1, some t => do
    let tn ← load h (some t)
    if compare tn.elem elem = 0 then
      pure (some t)
    else if compare tn.elem elem = 1 then
      searchLoop compare h elem fuel tn.lt
    else
      searchLoop compare h elem fuel tn.rt

/-- The function `search` (its parameter `x` is unused in the source). -/
def search (fuel : Nat) (m : Mem K V) (elem : K) : Except Fault Ptr :=
  searchLoop m.tree.compare m.heap elem fuel m.tree.root

/-- The loop `while (x->lt != NULL) x = x->lt;` of `minimum`. -/
def minimumLoop (h : Heap K V) : Nat → Nat → Except Fault Ptr
  | 0, _ => .error .outOfFuel
  | fuel + 1, x => do
    let xn ← load h (some x)
    match xn.lt with
    | none => pure (some x)
    | some l => minimumLoop h fuel l

/-- The function `minimum`. -/
def minimum (fuel : Nat) (h : Heap K V) : Ptr → Except Fault Ptr
  | none => .ok none
  | some x => minimumLoop h fuel x

/-- The loop `while (x->rt != NULL) x = x->rt;` of `maximum`. -/
def maximumLoop (h : Heap K V) : Nat → Nat → Except Fault Ptr
  | 0, _ => .error .outOfFuel
  | fuel + 1, x => do
    let xn ← load h (some x)
    match xn.rt with
    | none => pure (some x)
    | some r => maximumLoop h fuel r

/-- The function `maximum`. -/
def maximum (fuel : Nat) (h : Heap K V) : Ptr → Except Fault Ptr
  | none => .ok none
  | some x => maximumLoop h fuel x

/-- The loop `while (aux->pt != NULL) aux = aux->pt;` opening `successor` and
`predecessor`. -/
def climbLoop (h : Heap K V) : Nat → Ptr → Except Fault Ptr
  | 0, _ => .error .outOfFuel
  | fuel + 1, aux => do
    let an ← load h aux
    match an.pt with
    | none => pure aux
    | some p => climbLoop h fuel (some p)

/-- The loop `while (p != aux && x == p->rt) { x = p; p = p->pt; }` of `successor`. -/
def successorLoop (h : Heap K V) (aux : Ptr) : Nat → Ptr → Ptr → Except Fault Ptr
  | 0, _, _ => .error .outOfFuel
  | fuel + 1, x, p =>
    if p ≠ aux then do
      let pn ← load h p
      if x = pn.rt then successorLoop h aux fuel p pn.pt else pure p
    else pure p

/-- The function `successor`. -/
def successor (fuel : Nat) (h : Heap K V) (x : Ptr) : Except Fault Ptr := do
  let aux ← climbLoop h fuel x
  let mx ← maximum fuel h aux
  if mx = x then
    pure none
  else do
    let xn ← load h x
    if xn.rt ≠ none then
      minimum fuel h aux
    else
      successorLoop h aux fuel x xn.pt

/-- The loop `while (p != NULL && x == p->lt) { x = p; p = p->pt; }` of `predecessor`. -/
def predecessorLoop (h : Heap K V) : Nat → Ptr → Ptr → Except Fault Ptr
  | _, _, none => .ok none
  | 0, _, some _ => .error .outOfFuel
  | fuel + 1, x, some p => do
    let pn ← load h (some p)
    if x = pn.lt then predecessorLoop h fuel (some p) pn.pt else pure (some p)

/-- The function `predecessor`. -/
def predecessor (fuel : Nat) (h : Heap K V) (x : Ptr) : Except Fault Ptr := do
  let aux ← climbLoop h fuel x
  let mn ← minimum fuel h aux
  if mn = x then
    pure none
  else do
    let xn ← load h x
    if xn.lt ≠ none then
      maximum fuel h xn.lt
    else
      predecessorLoop h fuel x xn.pt

/-- The idiom `v = 0; if (c != NULL) v = c->height;`. -/
def heightOr0 (h : Heap K V) : Ptr → Except Fault Int
  | none => .ok 0
  | some c => do
    let cn ← load h (some c)
    pure cn.height

/-- The function `updateHeight`. -/
def updateHeight (h : Heap K V) (x : Ptr) : Except Fault (Heap K V) :=
  match x with
  | none => .ok h
  | some _ => do
    let xn ← load h x
    let leftHeight ← heightOr0 h xn.lt
    let rightHeight ← heightOr0 h xn.rt
    store h x (fun n => { n with height := MAX leftHeight rightHeight + 1 })

/-- The function `avlRotateLeft`, statement by statement.  `x->rt` is read
before the `x == NULL` test, which can therefore never fire. -/
def avlRotateLeft (m : Mem K V) (x : Ptr) : Except Fault (Mem K V) := do
  let xn ← load m.heap x
  let k2 := xn.rt
  let (root1, h1, k1) ←
    if x = m.tree.root then do
      let h ← store m.heap k2 (fun n => { n with pt := none })
      pure (k2, h, (none : Ptr))
    else
      pure (m.tree.root, m.heap, xn.pt)
  let k2n ← load h1 k2
  let h2 ← store h1 x (fun n => { n with rt := k2n.lt })
  let h3 ← store h2 k2 (fun n => { n with lt := x })
  let k2n3 ← load h3 k2
  let h4 ← if k2n3.lt ≠ none then store h3 k2n3.lt (fun n => { n with pt := x }) else pure h3
  let h5 ← store h4 x (fun n => { n with pt := k2 })
  let xn5 ← load h5 x
  let hr ← heightOr0 h5 xn5.rt
  let hl ← heightOr0 h5 xn5.lt
  let h6 ← store h5 x (fun n => { n with height := MAX hl hr + 1 })
  let k2n6 ← load h6 k2
  let hl1 ← heightOr0 h6 k2n6.lt
  let xn6 ← load h6 x
  let h7 ← store h6 k2 (fun n => { n with height := MAX hl1 xn6.height + 1 })
  let h8 ←
    if k1 ≠ none ∧ root1 ≠ k2 then do
      let k1n ← load h7 k1
      if k1n.lt = x then store h7 k1 (fun n => { n with lt := k2 })
      else if k1n.rt = x then store h7 k1 (fun n => { n with rt := k2 })
      else pure h7
    else pure h7
  let h9 ← store h8 k2 (fun n => { n with pt := k1 })
  pure { heap := h9, tree := { m.tree with root := root1 } }

/-- The function `avlRotateRight`, statement by statement. -/
def avlRotateRight (m : Mem K V) (y : Ptr) : Except Fault (Mem K V) := do
  let yn ← load m.heap y
  let k2 := yn.lt
  let (root1, k1) :=
    if y = m.tree.root then (k2, (none : Ptr)) else (m.tree.root, yn.pt)
  let h1 := m.heap
  let k2n ← load h1 k2
  let h2 ← store h1 y (fun n => { n with lt := k2n.rt })
  let h3 ← store h2 k2 (fun n => { n with rt := y })
  let k2n3 ← load h3 k2
  let h4 ← if k2n3.rt ≠ none then store h3 k2n3.rt (fun n => { n with pt := y }) else pure h3
  let h5 ← store h4 y (fun n => { n with pt := k2 })
  let yn5 ← load h5 y
  let hr ← heightOr0 h5 yn5.lt
  let hl ← heightOr0 h5 yn5.rt
  let h6 ← store h5 y (fun n => { n with height := MAX hr hl + 1 })
  let k2n6 ← load h6 k2
  let hl1 ← heightOr0 h6 k2n6.lt
  let yn6 ← load h6 y
  let h7 ← store h6 k2 (fun n => { n with height := MAX hl1 yn6.height + 1 })
  let h8 ←
    if k1 ≠ none ∧ root1 ≠ k2 then do
      let k1n ← load h7 k1
      if k1n.lt = y then store h7 k1 (fun n => { n with lt := k2 })
      else store h7 k1 (fun n => { n with rt := k2 })
    else pure h7
  let h9 ← store h8 k2 (fun n => { n with pt := k1 })
  pure { heap := h9, tree := { m.tree with root := root1 } }

/-- The function `avlGetBalance`. -/
def avlGetBalance (h : Heap K V) (x : Ptr) : Except Fault Int :=
  match x with
  | none => .ok 0
  | some _ => do
    let xn ← load h x
    let hl ← heightOr0 h xn.lt
    let hr ← heightOr0 h xn.rt
    pure (hl - hr)

/-- The `while (t != NULL)` loop of `avlFixUp`. -/
def avlFixUpLoop (y : Ptr) : Nat → Mem K V → Ptr → Except Fault (Mem K V)
  | _, m, none => .ok m
  | 0, _, some _ => .error .outOfFuel
  | fuel + 1, m, some t => do
    let h1 ← updateHeight m.heap (some t)
    let m1 : Mem K V := { m with heap := h1 }
    let b ← avlGetBalance m1.heap (some t)
    let m2 ←
      if b = 2 then do
        let yn ← load m1.heap y
        let tn ← load m1.heap (some t)
        let ln ← load m1.heap tn.lt
        if m1.tree.compare yn.elem ln.elem = -1 then
          avlRotateRight m1 (some t)
        else do
          let m' ← avlRotateLeft m1 tn.lt
          avlRotateRight m' (some t)
      else pure m1
    let b2 ← avlGetBalance m2.heap (some t)
    let m3 ←
      if b2 = -2 then do
        let yn ← load m2.heap y
        let tn ← load m2.heap (some t)
        let rn ← load m2.heap tn.rt
        if m2.tree.compare yn.elem rn.elem = 1 then
          avlRotateLeft m2 (some t)
        else do
          let m' ← avlRotateRight m2 tn.rt
          avlRotateLeft m' (some t)
      else pure m2
    let tn3 ← load m3.heap (some t)
    avlFixUpLoop y fuel m3 tn3.pt

/-- The function `avlFixUp`. -/
def avlFixUp (fuel : Nat) (m : Mem K V) (y : Ptr) : Except Fault (Mem K V) := do
  let yn ← load m.heap y
  avlFixUpLoop y fuel m yn.pt

/-- The function `createTreeNode`: `malloc` hands out the next free address. -/
def createTreeNode (m : Mem K V) (value : K) (info : V) : Mem K V × Ptr :=
  let newNode : TreeNode K V :=
    { elem := m.tree.createElement value, info := m.tree.createInfo info,
      pt := none, lt := none, rt := none, next := none, prev := none, endl := none,
      height := 1 }
  ({ m with heap := m.heap ++ [newNode] }, some m.heap.length)

/-- The `while (aux != NULL)` loop of `insert`.  The result is `none` when the
loop executes `return` (an equal key was met) and `some h` when it is left by
`break` or by `aux` becoming `NULL`. -/
def insertLoop (compare : K → K → Int) (elem : K) (node : Ptr) :
    Nat → Heap K V → Ptr → Except Fault (Option (Heap K V))
  | _, h, none => .ok (some h)
  | 0, _, some _ => .error .outOfFuel
  | fuel + 1, h, some aux => do
    let an ← load h (some aux)
    if compare elem an.elem = 0 then
      pure none
    else if compare elem an.elem = -1 then
      if an.lt = none then do
        let h1 ← store h (some aux) (fun n => { n with lt := node })
        let h2 ← store h1 node (fun n => { n with pt := some aux })
        pure (some h2)
      else insertLoop compare elem node fuel h an.lt
    else
      if compare elem an.elem = 1 ∧ an.rt = none then do
        let h1 ← store h (some aux) (fun n => { n with rt := node })
        let h2 ← store h1 node (fun n => { n with pt := some aux })
        pure (some h2)
      else insertLoop compare elem node fuel h an.rt

/-- The function `insert`. -/
def insert (fuel : Nat) (m : Mem K V) (elem : K) (info : V) : Except Fault (Mem K V) := do
  let (m0, node) := createTreeNode m elem info
  if m0.tree.root ≠ none then do
    let r ← insertLoop m0.tree.compare elem node fuel m0.heap m0.tree.root
    match r with
    | none => pure m0
    | some h1 =>
      let m1 : Mem K V := { heap := h1, tree := { m0.tree with size := m0.tree.size + 1 } }
      avlFixUp fuel m1 node
  else do
    let h1 ← store m0.heap node (fun n => { n with pt := none })
    pure { heap := h1, tree := { m0.tree with root := node, size := m0.tree.size + 1 } }

/-- The function `delete`, statement by statement. -/
def delete (fuel : Nat) (m : Mem K V) (elem : K) : Except Fault (Mem K V) := do
  let z ← search fuel m elem
  if z = none then
    pure m
  else do
    let zn ← load m.heap z
    let y ← if zn.lt = none ∨ zn.rt = none then pure z else successor fuel m.heap z
    let yn ← load m.heap y
    let x := if yn.lt = none then yn.rt else yn.lt
    let m1 : Mem K V ←
      if yn.pt = none then
        pure { m with tree := { m.tree with root := x } }
      else do
        let ypn ← load m.heap yn.pt
        if y = ypn.lt then do
          let h ← store m.heap yn.pt (fun n => { n with lt := x })
          pure { m with heap := h }
        else do
          let h ← store m.heap yn.pt (fun n => { n with rt := x })
          pure { m with heap := h }
    let m2 : Mem K V ←
      if y ≠ z then do
        let zn1 ← load m1.heap z
        let h1 ← store m1.heap y (fun n => { n with lt := zn1.lt })
        let zn2 ← load h1 z
        let h2 ← store h1 y (fun n => { n with rt := zn2.rt })
        let zn3 ← load h2 z
        let h3 ← store h2 y (fun n => { n with pt := zn3.pt })
        let zn4 ← load h3 z
        let zl ← load h3 zn4.lt
        let h4 ← if zl.pt ≠ none then store h3 zn4.lt (fun n => { n with pt := y }) else pure h3
        let zn5 ← load h4 z
        let zr ← load h4 zn5.rt
        let h5 ← if zr.pt ≠ none then store h4 zn5.rt (fun n => { n with pt := y }) else pure h4
        let zn6 ← load h5 z
        if zn6.pt ≠ none then do
          let zpn ← load h5 zn6.pt
          if z = zpn.lt then do
            let h6 ← store h5 zn6.pt (fun n => { n with lt := y })
            pure { m1 with heap := h6 }
          else do
            let h6 ← store h5 zn6.pt (fun n => { n with rt := y })
            pure { m1 with heap := h6 }
        else
          pure { heap := h5, tree := { m1.tree with root := y } }
      else pure m1
    let m3 : Mem K V := { m2 with tree := { m2.tree with size := m2.tree.size - 1 } }
    let min ← minimum fuel m3.heap m3.tree.root
    let max ← maximum fuel m3.heap m3.tree.root
    let m4 ← avlFixUp fuel m3 min
    avlFixUp fuel m4 max

/-! ## Histories of operations -/

/-- One public mutation of the map. -/
inductive Op (K V : Type) where
  | insert (k : K) (v : V)
  | delete (k : K)

/-- Run one operation. -/
def step (fuel : Nat) (m : Mem K V) : Op K V → Except Fault (Mem K V)
  | .insert k v => insert fuel m k v
  | .delete k => delete fuel m k

/-- Run a finite sequence of operations, left to right; a fault stops the run. -/
def runOps (fuel : Nat) : Mem K V → List (Op K V) → Except Fault (Mem K V)
  | m, [] => .ok m
  | m, op :: ops => do
    let m1 ← step fuel m op
    runOps fuel m1 ops

/-- Three-way comparison of integers, returning exactly `-1`, `0` or `1`. -/
def cmpInt (a b : Int) : Int := if a < b then -1 else if a = b then 0 else 1

/-- A freshly created map with integer keys, no payload, and copying constructors. -/
def fresh : Mem Int Unit := createTree id id cmpInt

/-- Insertion of an integer key. -/
def ins (k : Int) : Op Int Unit := .insert k ()

/-- Deletion of an integer key. -/
def del (k : Int) : Op Int Unit := .delete k

/-- What is observable of a memory: the root, the size, and for every address
the key, parent, left, right and cached height of the node stored there. -/
def snapshot (m : Mem K V) : Ptr × Int × List (K × Ptr × Ptr × Ptr × Int) :=
  (m.tree.root, m.tree.size, m.heap.map fun n => (n.elem, n.pt, n.lt, n.rt, n.height))

/-- The fault a run ended with, if any. -/
def faultOf {α : Type} : Except Fault α → Option Fault
  | .error e => some e
  | .ok _ => none

/-- Keys met by an in-order walk along the child links from `p`; `none` when
the walk is deeper than the fuel or leaves the heap. -/
def inorderKeys (h : Heap K V) : Nat → Ptr → Option (List K)
  | _, none => some []
  | 0, some _ => none
  | fuel + 1, some a =>
    match h[a]? with
    | none => none
    | some n => do
      let l ← inorderKeys h fuel n.lt
      let r ← inorderKeys h fuel n.rt
      pure (l ++ [n.elem] ++ r)

/-- Height of the subtree at `p` computed from the child links alone (an
absent subtree has height 0); `none` when deeper than the fuel. -/
def trueHeight (h : Heap K V) : Nat → Ptr → Option Nat
  | _, none => some 0
  | 0, some _ => none
  | fuel + 1, some a =>
    match h[a]? with
    | none => none
    | some n => do
      let l ← trueHeight h fuel n.lt
      let r ← trueHeight h fuel n.rt
      pure (1 + max l r)

/-- Number of nodes reachable from `p` along the child links. -/
def countNodes (h : Heap K V) (fuel : Nat) (p : Ptr) : Option Nat :=
  (inorderKeys h fuel p).map List.length

/-! ## Well-formed linked trees -/

/-- The comparator is a strict total order, reported as exactly `-1`, `0`, `1`. -/
structure StrictTotal (cmp : K → K → Int) : Prop where
  range : ∀ a b, cmp a b = -1 ∨ cmp a b = 0 ∨ cmp a b = 1
  eq_iff : ∀ a b, cmp a b = 0 ↔ a = b
  swap : ∀ a b, cmp a b = 1 ↔ cmp b a = -1
  trans : ∀ a b c, cmp a b = -1 → cmp b c = -1 → cmp a c = -1

/-- Which address sits where in a linked tree. -/
inductive Shape where
  | nil
  | node (l : Shape) (a : Nat) (r : Shape)
  deriving DecidableEq, Repr

/-- The pointer to the top node of a shape (`NULL` for the empty one). -/
def Shape.rootPtr : Shape → Ptr
  | .nil => none
  | .node _ a _ => some a

/-- Addresses of a shape, left subtree first, then the node, then the right subtree. -/
def Shape.inorder : Shape → List Nat
  | .nil => []
  | .node l a r => l.inorder ++ a :: r.inorder

/-- Number of nodes of a shape. -/
def Shape.size : Shape → Nat
  | .nil => 0
  | .node l _ r => l.size + 1 + r.size

/-- Parent/child consistency: the heap holds a tree of shape `s` hanging under
`par`: every node of `s` is allocated, its child links are the tops of its two
subtrees, and its parent link is the node above it (`par` for the top). -/
def Linked (h : Heap K V) : Ptr → Shape → Prop
  | _, .nil => True
  | par, .node l a r =>
    ∃ n, h[a]? = some n ∧ n.pt = par ∧ n.lt = l.rootPtr ∧ n.rt = r.rootPtr ∧
      Linked h (some a) l ∧ Linked h (some a) r

/-- The key stored at `a` compares less than the key stored at `b`. -/
def KeyLt (cmp : K → K → Int) (h : Heap K V) (a b : Nat) : Prop :=
  ∃ na nb, h[a]? = some na ∧ h[b]? = some nb ∧ cmp na.elem nb.elem = -1

/-- The key stored at `a` compares greater than the key stored at `b`. -/
def KeyGt (cmp : K → K → Int) (h : Heap K V) (a b : Nat) : Prop :=
  ∃ na nb, h[a]? = some na ∧ h[b]? = some nb ∧ cmp na.elem nb.elem = 1

/-- BST ordering: at every node, all keys of the left subtree compare less
than the key of the node and all keys of the right subtree compare greater. -/
def Ordered (cmp : K → K → Int) (h : Heap K V) : Shape → Prop
  | .nil => True
  | .node l a r =>
    (∀ b ∈ l.inorder, KeyLt cmp h b a) ∧ (∀ b ∈ r.inorder, KeyGt cmp h b a) ∧
      Ordered cmp h l ∧ Ordered cmp h r

/-- The descent of `insert` for `elem`, started at `p`, meets a node whose key
compares equal to `elem`: it goes left on `-1`, right on anything else but
`0`, and never falls off the tree before. -/
inductive MeetsEqual (cmp : K → K → Int) (h : Heap K V) (elem : K) : Ptr → Prop where
  | here (a : Nat) (n : TreeNode K V) :
      h[a]? = some n → cmp elem n.elem = 0 → MeetsEqual cmp h elem (some a)
  | left (a : Nat) (n : TreeNode K V) :
      h[a]? = some n → cmp elem n.elem ≠ 0 → cmp elem n.elem = -1 →
      MeetsEqual cmp h elem n.lt → MeetsEqual cmp h elem (some a)
  | right (a : Nat) (n : TreeNode K V) :
      h[a]? = some n → cmp elem n.elem ≠ 0 → cmp elem n.elem ≠ -1 →
      MeetsEqual cmp h elem n.rt → MeetsEqual cmp h elem (some a)

/-- A node with the given key, links and height, and nothing else set. -/
def mkNode (k : Int) (pt lt rt : Ptr) (height : Int) : TreeNode Int Unit :=
  { elem := k, info := (), pt := pt, lt := lt, rt := rt,
    next := none, prev := none, endl := none, height := height }

/-- The heap reached by inserting 2, 1, 3 into a fresh map: key 2 at address 0
with children 1 (address 1) and 3 (address 2). -/
def heap213 : Heap Int Unit :=
  [mkNode 2 none (some 1) (some 2) 2, mkNode 1 (some 0) none none 1,
   mkNode 3 (some 0) none none 1]

/-- The map whose nodes are `heap213`. -/
def mem213 : Mem Int Unit :=
  { heap := heap213, tree := { fresh.tree with root := some 0, size := 3 } }

/-- The shape of `heap213`. -/
def shape213 : Shape := .node (.node .nil 1 .nil) 0 (.node .nil 2 .nil)

/-! ## Concrete trees for the rotations -/

/-- The right-leaning chain 1, 2, 3, 4 (addresses 0 to 3) with mirrored parent
links and correct cached heights 4, 3, 2, 1. -/
def chain4 : Mem Int Unit :=
  { heap := [mkNode 1 none none (some 1) 4, mkNode 2 (some 0) none (some 2) 3,
             mkNode 3 (some 1) none (some 3) 2, mkNode 4 (some 2) none none 1],
    tree := { fresh.tree with root := some 0, size := 4 } }

/-- The shape of `chain4`. -/
def shapeChain4 : Shape :=
  .node .nil 0 (.node .nil 1 (.node .nil 2 (.node .nil 3 .nil)))

/-- The balanced tree with root 2 (address 0), left child 1 (address 1) and
right child 4 (address 2), whose children are 3 (address 3) and 5 (address 4). -/
def tree21435 : Mem Int Unit :=
  { heap := [mkNode 2 none (some 1) (some 2) 3, mkNode 1 (some 0) none none 1,
             mkNode 4 (some 0) (some 3) (some 4) 2, mkNode 3 (some 2) none none 1,
             mkNode 5 (some 2) none none 1],
    tree := { fresh.tree with root := some 0, size := 5 } }

/-- The shape of `tree21435`. -/
def shape21435 : Shape :=
  .node (.node .nil 1 .nil) 0 (.node (.node .nil 3 .nil) 2 (.node .nil 4 .nil))

/-- The balanced tree with root 4 (address 0), right child 5 (address 1) and
left child 2 (address 2), whose children are 1 (address 3) and 3 (address 4). -/
def tree42513 : Mem Int Unit :=
  { heap := [mkNode 4 none (some 2) (some 1) 3, mkNode 5 (some 0) none none 1,
             mkNode 2 (some 0) (some 3) (some 4) 2, mkNode 1 (some 2) none none 1,
             mkNode 3 (some 2) none none 1],
    tree := { fresh.tree with root := some 0, size := 5 } }

/-- The shape of `tree42513`. -/
def shape42513 : Shape :=
  .node (.node (.node .nil 3 .nil) 2 (.node .nil 4 .nil)) 0 (.node .nil 1 .nil)

/-- The map holding the single key `k`, at address 0. -/
def single (k : Int) : Mem Int Unit :=
  { heap := [mkNode k none none none 1],
    tree := { fresh.tree with root := some 0, size := 1 } }

/-- The left-left chain 3, 2, 1: key 3 at the root (address 0), its left child
2 (address 1) and the left child 1 of that (address 2); heights 3, 2, 1. -/
def chainLL : Mem Int Unit :=
  { heap := [mkNode 3 none (some 1) none 3, mkNode 2 (some 0) (some 2) none 2,
             mkNode 1 (some 1) none none 1],
    tree := { fresh.tree with root := some 0, size := 3 } }

/-- Reading the cached height behind `c` gives `v`, and `c` is neither `x` nor `k`. -/
def Reads (h : Heap K V) (x k : Nat) (c : Ptr) (v : Int) : Prop :=
  c ≠ some x ∧ c ≠ some k ∧ heightOr0 h c = .ok v

/-- A node with the given key, value, links and height, and no list links. -/
def nodeOf (k : K) (v : V) (pt lt rt : Ptr) (height : Int) : TreeNode K V :=
  { elem := k, info := v, pt := pt, lt := lt, rt := rt,
    next := none, prev := none, endl := none, height := height }

/-! ## Heights, balance, and trees seen through their child links -/

/-- The cached height behind a pointer: 0 for `NULL` (and for a wild pointer). -/
def hgt (h : Heap K V) : Ptr → Int
  | none => 0
  | some b =>
    match h[b]? with
    | some n => n.height
    | none => 0

/-- The true height of a shape: 0 when empty, 1 for a leaf. -/
def Shape.height : Shape → Nat
  | .nil => 0
  | .node l _ r => 1 + max l.height r.height

/-- AVL balance: at every node the true heights of the two subtrees differ by at most 1. -/
def Shape.Balanced : Shape → Prop
  | .nil => True
  | .node l _ r => l.height ≤ r.height + 1 ∧ r.height ≤ l.height + 1 ∧ l.Balanced ∧ r.Balanced

/-- The heap holds a tree of shape `s` as far as the child links go: every node
of `s` is allocated and its child links are the tops of its two subtrees.
Nothing is said of the parent links. -/
def Owned (h : Heap K V) : Shape → Prop
  | .nil => True
  | .node l a r =>
    ∃ n, h[a]? = some n ∧ n.lt = l.rootPtr ∧ n.rt = r.rootPtr ∧ Owned h l ∧ Owned h r

/-- Cached heights are correct: every node of `s` has
`height = 1 + max(height(left), height(right))`, where the height of a child is
its cached height and an absent child counts 0. -/
def Cached (h : Heap K V) : Shape → Prop
  | .nil => True
  | .node l a r =>
    ∃ n, h[a]? = some n ∧ n.height = 1 + max (hgt h l.rootPtr) (hgt h r.rootPtr) ∧
      Cached h l ∧ Cached h r

/-- Every node of `s` caches the true height of its subtree. -/
def Heights (h : Heap K V) : Shape → Prop
  | .nil => True
  | .node l a r =>
    ∃ n, h[a]? = some n ∧ n.height = ((Shape.node l a r).height : Int) ∧
      Heights h l ∧ Heights h r

/-- The keys stored at a list of addresses. -/
def keysOf (h : Heap K V) (L : List Nat) : List K :=
  L.filterMap fun a => (h[a]?).map (·.elem)

/-! ## Trees with a hole -/

/-- The path from a position in a tree up to the root: at each step the node
above and its other subtree. -/
inductive Ctx where
  | top
  | left (a : Nat) (r : Shape) (up : Ctx)
  | right (l : Shape) (a : Nat) (up : Ctx)

/-- Fill the hole. -/
def Ctx.plug : Ctx → Shape → Shape
  | .top, s => s
  | .left a r up, s => up.plug (.node s a r)
  | .right l a up, s => up.plug (.node l a s)

/-- The address of the node just above the hole (`NULL` at the top). -/
def Ctx.addr : Ctx → Ptr
  | .top => none
  | .left a _ _ => some a
  | .right _ a _ => some a

/-- Addresses that come before the hole in order. -/
def Ctx.before : Ctx → List Nat
  | .top => []
  | .left _ _ up => up.before
  | .right l a up => up.before ++ (l.inorder ++ [a])

/-- Addresses that come after the hole in order. -/
def Ctx.after : Ctx → List Nat
  | .top => []
  | .left a r up => (a :: r.inorder) ++ up.after
  | .right _ _ up => up.after

/-- Number of nodes on the path. -/
def Ctx.depth : Ctx → Nat
  | .top => 0
  | .left _ _ up => up.depth + 1
  | .right _ _ up => up.depth + 1

/-- The path is laid out in the heap around a hole filled by the pointer `p`:
child links on both sides, parent links along the path, and the subtrees
hanging off the path satisfy `P`. -/
def CtxLinked (P : Shape → Prop) (h : Heap K V) : Ctx → Ptr → Prop
  | .top, _ => True
  | .left a r up, p =>
    ∃ n, h[a]? = some n ∧ n.lt = p ∧ n.rt = r.rootPtr ∧ n.pt = up.addr ∧ P r ∧
      CtxLinked P h up (some a)
  | .right l a up, p =>
    ∃ n, h[a]? = some n ∧ n.lt = l.rootPtr ∧ n.rt = p ∧ n.pt = up.addr ∧ P l ∧
      CtxLinked P h up (some a)

/-- The old balance along the path: with `hold` the height of what filled the
hole, every node of the path had subtrees whose heights differ by at most 1. -/
def CtxBal : Ctx → Nat → Prop
  | .top, _ => True
  | .left _ r up, hold =>
    hold ≤ r.height + 1 ∧ r.height ≤ hold + 1 ∧ CtxBal up (1 + max hold r.height)
  | .right l _ up, hold =>
    hold ≤ l.height + 1 ∧ l.height ≤ hold + 1 ∧ CtxBal up (1 + max l.height hold)

/-- The subtree `s` has just grown by one level on the side of `y`: it is the
leaf `y`, or the subtree holding `y` is one level taller than the other. -/
def Grown (y : Nat) : Shape → Prop
  | .nil => False
  | .node l _ r =>
    (l = .nil ∧ r = .nil) ∨ (y ∈ l.inorder ∧ l.height = r.height + 1) ∨
      (y ∈ r.inorder ∧ r.height = l.height + 1)

/-! ## The invariant of the fix-up walk -/

/-- A subtree in good standing: laid out along the child links, with true
cached heights, and balanced. -/
def Good (h : Heap K V) (s : Shape) : Prop :=
  Owned h s ∧ Heights h s ∧ s.Balanced

/-- The state of the walk of `avlFixUp` started at the new node `y`: the
subtree `f` that holds `y` has been repaired, the path `c` above it is as it
was before the insertion (`hold` being the old height of what hung there). -/
structure FixInv (cmp : K → K → Int) (m : Mem K V) (c : Ctx) (f : Shape) (y : Nat)
    (hold : Nat) : Prop where
  ctx : CtxLinked (Good m.heap) m.heap c f.rootPtr
  good : Good m.heap f
  fpt : ∃ fa fn, f.rootPtr = some fa ∧ m.heap[fa]? = some fn ∧ fn.pt = c.addr
  root : m.tree.root = (c.plug f).rootPtr
  order : (c.plug f).inorder.Pairwise (KeyLt cmp m.heap)
  ymem : y ∈ f.inorder
  bal : CtxBal c hold
  grow : f.height = hold ∨ (f.height = hold + 1 ∧ Grown y f)
  cmpeq : m.tree.compare = cmp

/-- One round of the walk of `avlFixUp`, from the node above the hole of `c`
to the node above the hole of `up`: at most two turns of the loop lead to a
state in which the subtree below `up` is repaired, with the same addresses in
the same order, the same keys and values in every node, and the same `size`. -/
def FixStep (cmp : K → K → Int) (y : Nat) (m : Mem K V) (c : Ctx) (f : Shape) (up : Ctx)
    (hold1 : Nat) : Prop :=
  ∃ (m1 : Mem K V) (f1 : Shape) (k : Nat), k ≤ 2 ∧
    (∀ fuel, avlFixUpLoop (some y) (fuel + k) m c.addr
      = avlFixUpLoop (some y) fuel m1 up.addr) ∧
    FixInv cmp m1 up f1 y hold1 ∧ (up.plug f1).inorder = (c.plug f).inorder ∧
    (∀ b : Nat, (m1.heap[b]?).map (fun n => (n.elem, n.info))
      = (m.heap[b]?).map (fun n => (n.elem, n.info))) ∧
    m1.tree.size = m.tree.size

/-! ## Lemmas on the heap and on linked trees -/

theorem ok_bind {ε α β : Type} (a : α) (f : α → Except ε β) : (Except.ok a >>= f) = f a := rfl

theorem load_of_get {h : Heap K V} {a : Nat} {n : TreeNode K V} (hn : h[a]? = some n) :
    load h (some a) = .ok n := by
  simp [load, hn]

theorem get_append {h : Heap K V} {a : Nat} {n : TreeNode K V} (hn : h[a]? = some n)
    (l : Heap K V) : (h ++ l)[a]? = some n := by
  have hlt : a < h.length := by
    rcases Nat.lt_or_ge a h.length with hlt | hge
    · exact hlt
    · rw [List.getElem?_eq_none hge] at hn; cases hn
  rw [List.getElem?_append_left hlt]; exact hn

theorem MeetsEqual.ne_none {cmp : K → K → Int} {h : Heap K V} {elem : K} {p : Ptr}
    (hm : MeetsEqual cmp h elem p) : p ≠ none := by
  cases hm <;> simp

theorem insertLoop_meets {cmp : K → K → Int} {h : Heap K V} {elem : K} {p : Ptr}
    (hm : MeetsEqual cmp h elem p) (l : Heap K V) (node : Ptr) :
    ∃ N, ∀ fuel, N ≤ fuel → insertLoop cmp elem node fuel (h ++ l) p = .ok none := by
  induction hm with
  | here a n hn heq =>
    refine ⟨1, fun fuel hf => ?_⟩
    obtain ⟨f, rfl⟩ : ∃ f, fuel = f + 1 := ⟨fuel - 1, by omega⟩
    simp [insertLoop, load_of_get (get_append hn l), ok_bind, heq]
    rfl
  | left a n hn hne hlt hrec ih =>
    obtain ⟨N, hN⟩ := ih
    refine ⟨N + 1, fun fuel hf => ?_⟩
    obtain ⟨f, rfl⟩ : ∃ f, fuel = f + 1 := ⟨fuel - 1, by omega⟩
    have hnn := hrec.ne_none
    simp [insertLoop, load_of_get (get_append hn l), ok_bind, hne, hlt, hnn]
    exact hN f (by omega)
  | right a n hn hne hnlt hrec ih =>
    obtain ⟨N, hN⟩ := ih
    refine ⟨N + 1, fun fuel hf => ?_⟩
    obtain ⟨f, rfl⟩ : ∃ f, fuel = f + 1 := ⟨fuel - 1, by omega⟩
    have hnn := hrec.ne_none
    simp [insertLoop, load_of_get (get_append hn l), ok_bind, hne, hnlt, hnn]
    exact hN f (by omega)


theorem Linked.top {h : Heap K V} {par : Ptr} {s : Shape} {b : Nat}
    (hl : Linked h par s) (hb : s.rootPtr = some b) :
    ∃ n, h[b]? = some n ∧ n.pt = par ∧ b ∈ s.inorder := by
  cases s with
  | nil => cases hb
  | node l a r =>
    obtain ⟨n, hn, hpt, -, -, -, -⟩ := hl
    simp only [Shape.rootPtr, Option.some.injEq] at hb
    subst hb
    exact ⟨n, hn, hpt, by simp [Shape.inorder]⟩

theorem Shape.rootPtr_eq_none {s : Shape} : s.rootPtr = none ↔ s.inorder = [] := by
  cases s <;> simp [Shape.rootPtr, Shape.inorder]

theorem getLast?_cons_of_ne (a : Nat) (B : List Nat) (hne : B ≠ []) :
    (a :: B).getLast? = B.getLast? := by
  cases B with
  | nil => exact absurd rfl hne
  | cons b B1 => exact List.getLast?_cons_cons

theorem getLast?_mid (A : List Nat) (a : Nat) (B : List Nat) (hne : B ≠ []) :
    (A ++ a :: B).getLast? = B.getLast? := by
  induction A with
  | nil => exact getLast?_cons_of_ne a B hne
  | cons c A1 ih =>
    rw [List.cons_append, getLast?_cons_of_ne c _ (by simp), ih]

theorem minimumLoop_spec {h : Heap K V} (s : Shape) :
    ∀ (par : Ptr) (a : Nat), Linked h par s → s.rootPtr = some a →
      ∀ fuel, s.size ≤ fuel → minimumLoop h fuel a = .ok s.inorder.head? := by
  induction s with
  | nil => intro par a _ ha; cases ha
  | node l b r ihl _ =>
    intro par a hl ha fuel hf
    obtain ⟨n, hn, -, hlt, -, hll, -⟩ := hl
    simp only [Shape.rootPtr, Option.some.injEq] at ha
    subst ha
    simp only [Shape.size] at hf
    obtain ⟨f, rfl⟩ : ∃ f, fuel = f + 1 := ⟨fuel - 1, by omega⟩
    cases hlr : l.rootPtr with
    | none =>
      have hnil := Shape.rootPtr_eq_none.mp hlr
      simp [minimumLoop, load_of_get hn, ok_bind, hlt, hlr, Shape.inorder, hnil]
      rfl
    | some c =>
      have hne : l.inorder ≠ [] := fun e => by
        rw [← Shape.rootPtr_eq_none, hlr] at e; cases e
      simp only [minimumLoop, load_of_get hn, ok_bind, hlt, hlr]
      rw [ihl (some b) c hll hlr f (by omega)]
      simp [Shape.inorder, List.head?_append_of_ne_nil _ hne]

theorem maximumLoop_spec {h : Heap K V} (s : Shape) :
    ∀ (par : Ptr) (a : Nat), Linked h par s → s.rootPtr = some a →
      ∀ fuel, s.size ≤ fuel → maximumLoop h fuel a = .ok s.inorder.getLast? := by
  induction s with
  | nil => intro par a _ ha; cases ha
  | node l b r _ ihr =>
    intro par a hl ha fuel hf
    obtain ⟨n, hn, -, -, hrt, -, hlr⟩ := hl
    simp only [Shape.rootPtr, Option.some.injEq] at ha
    subst ha
    simp only [Shape.size] at hf
    obtain ⟨f, rfl⟩ : ∃ f, fuel = f + 1 := ⟨fuel - 1, by omega⟩
    cases hrr : r.rootPtr with
    | none =>
      have hnil := Shape.rootPtr_eq_none.mp hrr
      simp [maximumLoop, load_of_get hn, ok_bind, hrt, hrr, Shape.inorder, hnil]
      rfl
    | some c =>
      have hne : r.inorder ≠ [] := fun e => by
        rw [← Shape.rootPtr_eq_none, hrr] at e; cases e
      simp only [maximumLoop, load_of_get hn, ok_bind, hrt, hrr]
      rw [ihr (some b) c hlr hrr f (by omega)]
      simp only [Shape.inorder, getLast?_mid _ _ _ hne]

theorem climbLoop_step {h : Heap K V} {b : Nat} {n : TreeNode K V} {a : Nat}
    (hn : h[b]? = some n) (hpt : n.pt = some a) (fuel : Nat) :
    climbLoop h (fuel + 1) (some b) = climbLoop h fuel (some a) := by
  simp [climbLoop, load_of_get hn, ok_bind, hpt]

theorem climbLoop_top {h : Heap K V} {b : Nat} {n : TreeNode K V}
    (hn : h[b]? = some n) (hpt : n.pt = none) (fuel : Nat) :
    climbLoop h (fuel + 1) (some b) = .ok (some b) := by
  simp [climbLoop, load_of_get hn, ok_bind, hpt]
  rfl

theorem climbLoop_to_top {h : Heap K V} (s : Shape) :
    ∀ (par : Ptr) (x : Nat), Linked h par s → x ∈ s.inorder →
      ∃ d, d < s.size ∧ ∀ fuel, climbLoop h (fuel + d) (some x) = climbLoop h fuel s.rootPtr := by
  induction s with
  | nil => intro par x _ hx; simp [Shape.inorder] at hx
  | node l a r ihl ihr =>
    intro par x hl hx
    obtain ⟨n, hn, -, hlt, hrt, hll, hlr⟩ := hl
    simp only [Shape.inorder, List.mem_append, List.mem_cons] at hx
    rcases hx with hx | rfl | hx
    · obtain ⟨d, hd, hclimb⟩ := ihl (some a) x hll hx
      refine ⟨d + 1, by simp only [Shape.size]; omega, fun fuel => ?_⟩
      cases hlr2 : l.rootPtr with
      | none =>
        rw [Shape.rootPtr_eq_none.mp hlr2] at hx; cases hx
      | some b =>
        obtain ⟨nb, hnb, hpb, -⟩ := hll.top hlr2
        rw [show fuel + (d + 1) = (fuel + 1) + d by omega, hclimb, hlr2,
          climbLoop_step hnb hpb]
        rfl
    · exact ⟨0, by simp only [Shape.size]; omega, fun fuel => rfl⟩
    · obtain ⟨d, hd, hclimb⟩ := ihr (some a) x hlr hx
      refine ⟨d + 1, by simp only [Shape.size]; omega, fun fuel => ?_⟩
      cases hrr2 : r.rootPtr with
      | none =>
        rw [Shape.rootPtr_eq_none.mp hrr2] at hx; cases hx
      | some b =>
        obtain ⟨nb, hnb, hpb, -⟩ := hlr.top hrr2
        rw [show fuel + (d + 1) = (fuel + 1) + d by omega, hclimb, hrr2,
          climbLoop_step hnb hpb]
        rfl

theorem climbLoop_spec {h : Heap K V} {s : Shape} {x : Nat}
    (hl : Linked h none s) (hx : x ∈ s.inorder) (fuel : Nat) (hf : s.size ≤ fuel) :
    climbLoop h fuel (some x) = .ok s.rootPtr := by
  obtain ⟨d, hd, hclimb⟩ := climbLoop_to_top s none x hl hx
  obtain ⟨f, rfl⟩ : ∃ f, fuel = (f + 1) + d := ⟨fuel - d - 1, by omega⟩
  rw [hclimb]
  cases hr : s.rootPtr with
  | none => rw [Shape.rootPtr_eq_none.mp hr] at hx; cases hx
  | some b =>
    obtain ⟨nb, hnb, hpb, -⟩ := hl.top hr
    exact climbLoop_top hnb hpb f

theorem predecessorLoop_leftmost {h : Heap K V} (s : Shape) :
    ∀ (par : Ptr) (x : Nat) (L2 : List Nat), Linked h par s → s.inorder = x :: L2 →
      ∃ xn, h[x]? = some xn ∧ xn.lt = none ∧ ∃ d, d < s.size ∧
        ∀ fuel, predecessorLoop h (fuel + d) (some x) xn.pt
          = predecessorLoop h fuel s.rootPtr par := by
  induction s with
  | nil => intro par x L2 _ hx; simp [Shape.inorder] at hx
  | node l a r ihl _ =>
    intro par x L2 hl hx
    obtain ⟨n, hn, hpt, hlt, -, hll, -⟩ := hl
    cases hli : l.inorder with
    | nil =>
      simp only [Shape.inorder, hli, List.nil_append, List.cons.injEq] at hx
      obtain ⟨rfl, -⟩ := hx
      refine ⟨n, hn, ?_, 0, by simp only [Shape.size]; omega, fun fuel => ?_⟩
      · rw [hlt, Shape.rootPtr_eq_none]; exact hli
      · rw [hpt]; rfl
    | cons y ys =>
      simp only [Shape.inorder, hli, List.cons_append, List.cons.injEq] at hx
      obtain ⟨rfl, -⟩ := hx
      obtain ⟨xn, hxn, hxl, d, hd, hloop⟩ := ihl (some a) y ys hll hli
      refine ⟨xn, hxn, hxl, d + 1, by simp only [Shape.size]; omega, fun fuel => ?_⟩
      rw [show fuel + (d + 1) = (fuel + 1) + d by omega, hloop]
      simp [predecessorLoop, load_of_get hn, ok_bind, hlt, hpt, Shape.rootPtr]

theorem split_adjacent {A B L1 L2 : List Nat} {a p x : Nat}
    (hsplit : A ++ a :: B = L1 ++ p :: x :: L2) :
    (∃ M, A = L1 ++ p :: x :: M ∧ L2 = M ++ a :: B) ∨
    (A = L1 ++ [p] ∧ x = a ∧ L2 = B) ∨
    (A = L1 ∧ p = a ∧ B = x :: L2) ∨
    (∃ M, L1 = A ++ a :: M ∧ B = M ++ p :: x :: L2) := by
  induction A generalizing L1 with
  | nil =>
    cases L1 with
    | nil =>
      simp only [List.nil_append, List.cons.injEq] at hsplit
      exact Or.inr (Or.inr (Or.inl ⟨rfl, hsplit.1.symm, hsplit.2⟩))
    | cons c L1t =>
      simp only [List.nil_append, List.cons_append, List.cons.injEq] at hsplit
      obtain ⟨rfl, rfl⟩ := hsplit
      exact Or.inr (Or.inr (Or.inr ⟨L1t, rfl, rfl⟩))
  | cons c At ih =>
    cases L1 with
    | nil =>
      simp only [List.nil_append, List.cons_append, List.cons.injEq] at hsplit
      obtain ⟨rfl, hrest⟩ := hsplit
      cases At with
      | nil =>
        simp only [List.nil_append, List.cons.injEq] at hrest
        obtain ⟨rfl, rfl⟩ := hrest
        exact Or.inr (Or.inl ⟨rfl, rfl, rfl⟩)
      | cons e Att =>
        simp only [List.cons_append, List.cons.injEq] at hrest
        obtain ⟨rfl, rfl⟩ := hrest
        exact Or.inl ⟨Att, rfl, rfl⟩
    | cons e L1t =>
      simp only [List.cons_append, List.cons.injEq] at hsplit
      obtain ⟨rfl, hrest⟩ := hsplit
      rcases ih hrest with ⟨M, rfl, rfl⟩ | ⟨rfl, rfl, rfl⟩ | ⟨rfl, rfl, rfl⟩ | ⟨M, rfl, rfl⟩
      · exact Or.inl ⟨M, rfl, rfl⟩
      · exact Or.inr (Or.inl ⟨rfl, rfl, rfl⟩)
      · exact Or.inr (Or.inr (Or.inl ⟨rfl, rfl, rfl⟩))
      · exact Or.inr (Or.inr (Or.inr ⟨M, rfl, rfl⟩))

theorem predecessor_inner {h : Heap K V} (s : Shape) :
    ∀ (par : Ptr) (L1 L2 : List Nat) (p x : Nat), Linked h par s → s.inorder.Nodup →
      s.inorder = L1 ++ p :: x :: L2 → ∀ fuel, s.size ≤ fuel →
      ∃ xn, h[x]? = some xn ∧
        (if xn.lt ≠ none then maximum fuel h xn.lt
          else predecessorLoop h fuel (some x) xn.pt) = .ok (some p) := by
  induction s with
  | nil => intro par L1 L2 p x _ _ hx; simp [Shape.inorder] at hx
  | node l a r ihl ihr =>
    intro par L1 L2 p x hl hnd hx fuel hf
    have hl0 := hl
    obtain ⟨n, hn, hpt, hlt, hrt, hll, hlr⟩ := hl
    simp only [Shape.size] at hf
    simp only [Shape.inorder] at hx hnd
    have hndl : l.inorder.Nodup := (List.nodup_append.mp hnd).1
    have hndr : r.inorder.Nodup := ((List.nodup_append.mp hnd).2.1).of_cons
    rcases split_adjacent hx with ⟨M, hA, -⟩ | ⟨hA, rfl, -⟩ | ⟨-, rfl, hB⟩ | ⟨M, -, hB⟩
    · exact ihl (some a) L1 M p x hll hndl hA fuel (by omega)
    · -- `x` is the top node and `p` the last node of its left subtree
      refine ⟨n, hn, ?_⟩
      cases hlr2 : l.rootPtr with
      | none =>
        rw [Shape.rootPtr_eq_none.mp hlr2] at hA
        simp at hA
      | some b =>
        have hmax := maximumLoop_spec l (some x) b hll hlr2 fuel (by omega)
        simp only [hlt, hlr2, ne_eq, not_false_eq_true, if_true, maximum, hmax, hA,
          reduceCtorEq]
        simp
    · -- `x` is the first node of the right subtree of `p`
      obtain ⟨xn, hxn, hxl, d, hd, hloop⟩ := predecessorLoop_leftmost r (some p) x L2 hlr hB
      refine ⟨xn, hxn, ?_⟩
      obtain ⟨f, rfl⟩ : ∃ f, fuel = (f + 1) + d := ⟨fuel - d - 1, by omega⟩
      simp only [hxl, ne_eq, not_true_eq_false, if_false, hloop]
      cases hrr2 : r.rootPtr with
      | none => rw [Shape.rootPtr_eq_none.mp hrr2] at hB; cases hB
      | some b =>
        obtain ⟨-, -, -, hbr⟩ := hlr.top hrr2
        have hne : ¬ (some b = n.lt) := by
          intro e
          rw [hlt] at e
          obtain ⟨-, -, -, hbl⟩ := hll.top e.symm
          exact (List.nodup_append.mp hnd).2.2 hbl (List.mem_cons_of_mem _ hbr)
        simp [predecessorLoop, load_of_get hn, ok_bind, hne]
        rfl
    · exact ihr (some a) M L2 p x hlr hndr hB fuel (by omega)

theorem KeyLt.irrefl {cmp : K → K → Int} (hc : StrictTotal cmp) {h : Heap K V} {a : Nat} :
    ¬ KeyLt cmp h a a := by
  rintro ⟨na, nb, ha, hb, hlt⟩
  rw [ha] at hb
  cases hb
  rw [(hc.eq_iff na.elem na.elem).mpr rfl] at hlt
  cases hlt

theorem KeyLt.trans {cmp : K → K → Int} (hc : StrictTotal cmp) {h : Heap K V} {a b c : Nat}
    (hab : KeyLt cmp h a b) (hbc : KeyLt cmp h b c) : KeyLt cmp h a c := by
  obtain ⟨na, nb, ha, hb, h1⟩ := hab
  obtain ⟨nb2, nc, hb2, hc2, h2⟩ := hbc
  rw [hb] at hb2
  cases hb2
  exact ⟨na, nc, ha, hc2, hc.trans _ _ _ h1 h2⟩

theorem KeyGt.lt {cmp : K → K → Int} (hc : StrictTotal cmp) {h : Heap K V} {a b : Nat}
    (hab : KeyGt cmp h a b) : KeyLt cmp h b a := by
  obtain ⟨na, nb, ha, hb, h1⟩ := hab
  exact ⟨nb, na, hb, ha, (hc.swap _ _).mp h1⟩

theorem Ordered.pairwise {cmp : K → K → Int} (hc : StrictTotal cmp) {h : Heap K V}
    (s : Shape) (ho : Ordered cmp h s) : s.inorder.Pairwise (KeyLt cmp h) := by
  induction s with
  | nil => exact List.Pairwise.nil
  | node l a r ihl ihr =>
    obtain ⟨hlt, hgt, hol, hor⟩ := ho
    simp only [Shape.inorder]
    rw [List.pairwise_append]
    refine ⟨ihl hol, ?_, ?_⟩
    · rw [List.pairwise_cons]
      exact ⟨fun b hb => (hgt b hb).lt hc, ihr hor⟩
    · intro b hb c hcm
      rcases List.mem_cons.mp hcm with rfl | hcr
      · exact hlt b hb
      · exact (hlt b hb).trans hc ((hgt c hcr).lt hc)

theorem pairwise_nodup {cmp : K → K → Int} (hc : StrictTotal cmp) {h : Heap K V}
    {L : List Nat} (hp : L.Pairwise (KeyLt cmp h)) : L.Nodup := by
  refine List.Pairwise.imp ?_ hp
  intro a b hab e
  subst e
  exact KeyLt.irrefl hc hab

theorem cmpInt_strictTotal : StrictTotal cmpInt where
  range a b := by unfold cmpInt; split_ifs <;> simp
  eq_iff a b := by unfold cmpInt; split_ifs <;> simp <;> omega
  swap a b := by unfold cmpInt; split_ifs <;> simp <;> omega
  trans a b c := by unfold cmpInt; split_ifs <;> simp <;> omega

theorem linked213 : Linked heap213 none shape213 :=
  ⟨_, rfl, rfl, rfl, rfl, ⟨_, rfl, rfl, rfl, rfl, trivial, trivial⟩,
    ⟨_, rfl, rfl, rfl, rfl, trivial, trivial⟩⟩

theorem ordered213 : Ordered cmpInt heap213 shape213 := by
  refine ⟨?_, ?_, ⟨?_, ?_, trivial, trivial⟩, ⟨?_, ?_, trivial, trivial⟩⟩
  · intro b hb
    simp only [Shape.inorder, List.nil_append, List.mem_singleton] at hb
    subst hb
    exact ⟨_, _, rfl, rfl, rfl⟩
  · intro b hb
    simp only [Shape.inorder, List.nil_append, List.mem_singleton] at hb
    subst hb
    exact ⟨_, _, rfl, rfl, rfl⟩
  all_goals intro b hb; simp [Shape.inorder] at hb

theorem meets213 : MeetsEqual mem213.tree.compare mem213.heap 3 mem213.tree.root :=
  MeetsEqual.right 0 (mkNode 2 none (some 1) (some 2) 2) rfl (by decide) (by decide)
    (MeetsEqual.here 2 (mkNode 3 (some 0) none none 1) rfl (by decide))


/-! ## The claims

A statement that evaluates the embedded code on a concrete history applied to a
fresh map shows its result as a snapshot: per address, the key, parent, left,
right and cached height. -/

/-- C1 (search over histories) does not hold of the code.  After inserting
3, 1, 4, 2 and deleting 3 the key 2 was inserted and never deleted, yet
`search` returns `NULL` for it; after inserting 1, 2 and deleting 1 and then 2,
`search` still returns the node of the deleted key 2. -/
theorem search_wrong_after_delete :
    ((runOps 8 fresh [ins 3, ins 1, ins 4, ins 2, del 3]).bind fun m => search 8 m 2)
      = .ok none ∧
    ((runOps 8 fresh [ins 1, ins 2, del 1, del 2]).bind fun m => search 8 m 2)
      = .ok (some 1) :=
  ⟨rfl, rfl⟩

/-- C2 (BST ordering is preserved) does not hold of the code.  After inserting
3, 1, 4, 2 and deleting 3 the root is the node of key 1 (address 1) and its
left child is the node of key 2 (address 3): the in-order walk reads 2, 1, 4. -/
theorem bst_order_broken_by_delete :
    (runOps 8 fresh [ins 3, ins 1, ins 4, ins 2, del 3]).toOption.map snapshot
      = some (some 1, 3,
          [(3, none, some 3, some 2, 3), (1, none, some 3, some 2, 2),
           (4, some 1, none, none, 1), (2, some 1, none, none, 1)]) ∧
    (runOps 8 fresh [ins 3, ins 1, ins 4, ins 2, del 3]).toOption.map
        (fun m => inorderKeys m.heap 8 m.tree.root)
      = some (some [2, 1, 4]) :=
  ⟨rfl, rfl⟩

/-- C3 (AVL balance is preserved) does not hold of the code.  After inserting
1, 2, deleting 1 and inserting 1 again, the root (address 2) has no left child
while its right subtree has true height 2.  After inserting 1, 2, 3, 5, 6, 4, 7
and deleting 1, the root (address 2, key 3) has a left subtree of true height 1
and a right subtree of true height 3. -/
theorem balance_broken_by_delete :
    (runOps 8 fresh [ins 1, ins 2, del 1, ins 1]).toOption.map snapshot
      = some (some 2, 2,
          [(1, some 1, none, none, 1), (2, none, some 0, none, 2),
           (1, none, none, some 1, 2)]) ∧
    (runOps 8 fresh [ins 1, ins 2, del 1, ins 1]).toOption.map
        (fun m => (trueHeight m.heap 8 none, trueHeight m.heap 8 (some 1)))
      = some (some 0, some 2) ∧
    (runOps 8 fresh [ins 1, ins 2, ins 3, ins 5, ins 6, ins 4, ins 7, del 1]).toOption.map
        snapshot
      = some (some 2, 6,
          [(1, some 1, none, none, 1), (2, some 2, none, none, 2),
           (3, none, some 1, some 3, 4), (5, some 2, some 5, some 4, 3),
           (6, some 3, none, some 6, 2), (4, some 2, none, none, 1),
           (7, some 4, none, none, 1)]) ∧
    (runOps 8 fresh [ins 1, ins 2, ins 3, ins 5, ins 6, ins 4, ins 7, del 1]).toOption.map
        (fun m => (trueHeight m.heap 8 (some 1), trueHeight m.heap 8 (some 3)))
      = some (some 1, some 3) :=
  ⟨rfl, rfl, rfl, rfl⟩

/-- C4 (parent/child consistency is preserved) does not hold of the code.
After inserting 1, 2 and deleting 1 the root (address 1) still has the deleted
node (address 0) as parent.  After inserting 1, 2, 3, 4, 5, 6 the node of key 2
(address 1) has the node of key 3 (address 2) as right child, whose parent
link is the node of key 4 (address 3). -/
theorem parent_links_broken :
    (runOps 8 fresh [ins 1, ins 2, del 1]).toOption.map snapshot
      = some (some 1, 1, [(1, none, none, some 1, 2), (2, some 0, none, none, 1)]) ∧
    (runOps 8 fresh [ins 1, ins 2, ins 3, ins 4, ins 5, ins 6]).toOption.map snapshot
      = some (some 3, 6,
          [(1, some 1, none, none, 1), (2, some 3, some 0, some 2, 2),
           (3, some 3, none, none, 1), (4, none, some 1, some 4, 3),
           (5, some 3, none, some 5, 2), (6, some 4, none, none, 1)]) :=
  ⟨rfl, rfl⟩

/-- C5 (cached heights are correct after every operation) does not hold of the
code.  After inserting 1, 2 and deleting 2 the only node left (address 0, the
root) has no children and cached height 2. -/
theorem cached_height_stale_after_delete :
    (runOps 8 fresh [ins 1, ins 2, del 2]).toOption.map snapshot
      = some (some 0, 1, [(1, none, none, none, 2), (2, some 0, none, none, 1)]) :=
  rfl

/-- C6 (size equals the number of reachable nodes and of live keys) does not
hold of the code.  After inserting 1, 2 and deleting 1 and then 2 no key is
live and `size` is 0, but the root is still the node of key 2: one node is
reachable. -/
theorem size_differs_from_reachable :
    (runOps 8 fresh [ins 1, ins 2, del 1, del 2]).toOption.map snapshot
      = some (some 1, 0, [(1, none, none, none, 1), (2, some 0, none, none, 1)]) ∧
    (runOps 8 fresh [ins 1, ins 2, del 1, del 2]).toOption.map
        (fun m => (m.tree.size, countNodes m.heap 8 m.tree.root, isEmpty m))
      = some (0, some 1, false) :=
  ⟨rfl, rfl⟩

/-- C7: a duplicate insert is a no-op.  Whenever the descent of `insert` for
`elem` meets a node whose key compares equal to `elem`, then, given enough
fuel, `insert` returns, and it leaves the root, the size and the node stored at
every address of the old heap (key, value, links, height) as they were; the
only trace is the node that `createTreeNode` allocated, which stays unlinked. -/
theorem insert_duplicate_noop (m : Mem K V) (elem : K) (info : V)
    (hmeet : MeetsEqual m.tree.compare m.heap elem m.tree.root) :
    ∃ N, ∀ fuel, N ≤ fuel → ∃ m1, insert fuel m elem info = .ok m1 ∧
      m1.tree.root = m.tree.root ∧ m1.tree.size = m.tree.size ∧
      ∀ (a : Nat) (n : TreeNode K V), m.heap[a]? = some n → m1.heap[a]? = some n := by
  obtain ⟨N, hN⟩ := insertLoop_meets hmeet
    [{ elem := m.tree.createElement elem, info := m.tree.createInfo info,
       pt := none, lt := none, rt := none, next := none, prev := none, endl := none,
       height := 1 }] (some m.heap.length)
  refine ⟨N, fun fuel hf => ?_⟩
  have hroot := hmeet.ne_none
  refine ⟨(createTreeNode m elem info).1, ?_, rfl, rfl, fun a n hn => get_append hn _⟩
  simp [insert, createTreeNode, hroot, hN fuel hf, ok_bind]
  rfl

/-- C7 on a concrete map: inserting key 3 again into the map built from 2, 1, 3. -/
theorem insert_duplicate_noop_witness :
    MeetsEqual mem213.tree.compare mem213.heap 3 mem213.tree.root ∧
    ∃ N, ∀ fuel, N ≤ fuel → ∃ m1, insert fuel mem213 3 () = .ok m1 ∧
      m1.tree.root = mem213.tree.root ∧ m1.tree.size = mem213.tree.size ∧
      ∀ (a : Nat) (n : TreeNode Int Unit), mem213.heap[a]? = some n → m1.heap[a]? = some n :=
  ⟨meets213, insert_duplicate_noop mem213 3 () meets213⟩


/-- C8 (order navigation by successor) does not hold of the code.  In the tree
obtained by inserting 2, 1, 3 (`heap213`: key 2 at address 0, key 1 at address
1, key 3 at address 2) the root has a right child whose minimum is address 2,
but `successor` of the root returns address 1, the minimum of the whole tree;
since `successor` of address 1 is the root again, the walk from the minimum
never reaches key 3 and never returns `NULL`.  The tree has mirrored parent
links and ordered keys. -/
theorem successor_returns_tree_minimum :
    (runOps 8 fresh [ins 2, ins 1, ins 3]).toOption.map snapshot = some (snapshot mem213) ∧
    Linked heap213 none shape213 ∧ Ordered cmpInt heap213 shape213 ∧
    minimum 8 heap213 (some 2) = .ok (some 2) ∧
    successor 8 heap213 (some 0) = .ok (some 1) ∧
    successor 8 heap213 (some 1) = .ok (some 0) :=
  ⟨rfl, linked213, ordered213, rfl, rfl, rfl⟩

/-- C9: `predecessor` is correct.  In a heap holding a tree `s` whose parent
links mirror its child links (`Linked`) and whose keys obey the BST ordering
under a strict total comparator (`Ordered`), for every node `x` of the tree and
any fuel of at least the number of nodes, `predecessor x` returns; it returns
`NULL` when the key of `x` is less than every other key of the tree, and
otherwise a node `p` of the tree whose key is less than the key of `x` and
greater than every other key that is less than the key of `x`. -/
theorem predecessor_correct {cmp : K → K → Int} (hc : StrictTotal cmp) (h : Heap K V)
    (s : Shape) (x : Nat) (hlink : Linked h none s) (hord : Ordered cmp h s)
    (hx : x ∈ s.inorder) (fuel : Nat) (hfuel : s.size ≤ fuel) :
    ∃ r, predecessor fuel h (some x) = .ok r ∧
      ((∀ q ∈ s.inorder, q ≠ x → KeyLt cmp h x q) → r = none) ∧
      (¬ (∀ q ∈ s.inorder, q ≠ x → KeyLt cmp h x q) →
        ∃ p, r = some p ∧ p ∈ s.inorder ∧ KeyLt cmp h p x ∧
          ∀ q ∈ s.inorder, KeyLt cmp h q x → q = p ∨ KeyLt cmp h q p) := by
  have hp := Ordered.pairwise hc s hord
  have hnd := pairwise_nodup hc hp
  obtain ⟨L1, L2, hL⟩ := List.append_of_mem hx
  have hclimb := climbLoop_spec hlink hx fuel hfuel
  obtain ⟨b, hb⟩ : ∃ b, s.rootPtr = some b := by
    cases hr : s.rootPtr with
    | none => rw [Shape.rootPtr_eq_none.mp hr] at hx; cases hx
    | some b => exact ⟨b, rfl⟩
  have hmin := minimumLoop_spec s none b hlink hb fuel hfuel
  rcases List.eq_nil_or_concat L1 with rfl | ⟨L0, p, rfl⟩
  · -- `x` is the first node in order
    rw [List.nil_append] at hL
    rw [hL] at hp
    have hfirst : ∀ q ∈ s.inorder, q ≠ x → KeyLt cmp h x q := by
      intro q hq hne
      rw [hL] at hq
      rcases List.mem_cons.mp hq with rfl | hq2
      · exact absurd rfl hne
      · exact (List.pairwise_cons.mp hp).1 q hq2
    refine ⟨none, ?_, fun _ => rfl, fun hnot => absurd hfirst hnot⟩
    simp [predecessor, hclimb, ok_bind, hb, minimum, hmin, hL]
    rfl
  · -- `p` is the node just before `x` in order
    rw [List.concat_eq_append, List.append_assoc, List.singleton_append] at hL
    obtain ⟨xn, hxn, hinner⟩ := predecessor_inner s none L0 L2 p x hlink hnd hL fuel hfuel
    have hpair := hp
    rw [hL, List.pairwise_append, List.pairwise_cons, List.pairwise_cons] at hpair
    obtain ⟨-, ⟨hpafter, hxafter, -⟩, hcross⟩ := hpair
    have hpx : KeyLt cmp h p x := hpafter x (List.mem_cons_self _ _)
    have hpmem : p ∈ s.inorder := by rw [hL]; simp
    have hhead : s.inorder.head? ≠ some x := by
      intro e
      have hxin : x ∈ L0 ++ [p] := by
        rw [hL] at e
        cases L0 with
        | nil =>
          simp only [List.nil_append, List.head?_cons, Option.some.injEq] at e
          simp [e]
        | cons c L0t =>
          simp only [List.cons_append, List.head?_cons, Option.some.injEq] at e
          simp [e]
      rcases List.mem_append.mp hxin with h0 | h1
      · exact KeyLt.irrefl hc (hcross x h0 x (by simp))
      · rw [List.mem_singleton] at h1
        subst h1
        exact KeyLt.irrefl hc hpx
    refine ⟨some p, ?_, ?_, fun _ => ⟨p, rfl, hpmem, hpx, ?_⟩⟩
    · simp only [predecessor, hclimb, ok_bind, hb, minimum, hmin]
      rw [if_neg hhead]
      simp only [load_of_get hxn, ok_bind]
      exact hinner
    · intro hall
      have hne : p ≠ x := fun e => KeyLt.irrefl hc (e ▸ hpx)
      exact absurd ((hall p hpmem hne).trans hc hpx) (KeyLt.irrefl hc)
    · intro q hq hqx
      rw [hL] at hq
      rcases List.mem_append.mp hq with h0 | h1
      · exact Or.inr (hcross q h0 p (List.mem_cons_self _ _))
      · rcases List.mem_cons.mp h1 with rfl | h2
        · exact Or.inl rfl
        · rcases List.mem_cons.mp h2 with rfl | h3
          · exact absurd hqx (KeyLt.irrefl hc)
          · exact absurd (hqx.trans hc (hxafter q h3)) (KeyLt.irrefl hc)

/-- C9 on a concrete tree: the predecessor of key 3 in the tree built from 2, 1, 3. -/
theorem predecessor_correct_witness :
    StrictTotal cmpInt ∧ Linked heap213 none shape213 ∧ Ordered cmpInt heap213 shape213 ∧
    2 ∈ shape213.inorder ∧ shape213.size ≤ 3 ∧
    ∃ r, predecessor 3 heap213 (some 2) = .ok r ∧
      ((∀ q ∈ shape213.inorder, q ≠ 2 → KeyLt cmpInt heap213 2 q) → r = none) ∧
      (¬ (∀ q ∈ shape213.inorder, q ≠ 2 → KeyLt cmpInt heap213 2 q) →
        ∃ p, r = some p ∧ p ∈ shape213.inorder ∧ KeyLt cmpInt heap213 p 2 ∧
          ∀ q ∈ shape213.inorder, KeyLt cmpInt heap213 q 2 → q = p ∨ KeyLt cmpInt heap213 q p) :=
  ⟨cmpInt_strictTotal, linked213, ordered213, by decide, by decide,
    predecessor_correct cmpInt_strictTotal heap213 shape213 2 linked213 ordered213
      (by decide) 3 (by decide)⟩


/-- C10 (delete of a present key) does not hold of the code.  On the scenario
of the specification, the seven insertions 50, 30, 70, 20, 40, 60, 80 build the
perfect tree, and deleting 30 then dereferences `NULL`; so does deleting the
root of the tree built by inserting 2, 1, 3 (`mem213`, which has mirrored
parent links, ordered keys, balanced subtrees and correct cached heights). -/
theorem delete_two_children_null_deref :
    (runOps 16 fresh [ins 50, ins 30, ins 70, ins 20, ins 40, ins 60, ins 80]).toOption.map
        snapshot
      = some (some 0, 7,
          [(50, none, some 1, some 2, 3), (30, some 0, some 3, some 4, 2),
           (70, some 0, some 5, some 6, 2), (20, some 1, none, none, 1),
           (40, some 1, none, none, 1), (60, some 2, none, none, 1),
           (80, some 2, none, none, 1)]) ∧
    faultOf (runOps 16 fresh
        [ins 50, ins 30, ins 70, ins 20, ins 40, ins 60, ins 80, del 30])
      = some Fault.nullDeref ∧
    Linked mem213.heap none shape213 ∧ Ordered mem213.tree.compare mem213.heap shape213 ∧
    faultOf (delete 8 mem213 2) = some Fault.nullDeref :=
  ⟨rfl, rfl, linked213, ordered213, rfl⟩

theorem linkedChain4 : Linked chain4.heap none shapeChain4 :=
  ⟨_, rfl, rfl, rfl, rfl, trivial, ⟨_, rfl, rfl, rfl, rfl, trivial,
    ⟨_, rfl, rfl, rfl, rfl, trivial, ⟨_, rfl, rfl, rfl, rfl, trivial, trivial⟩⟩⟩⟩

theorem linked21435 : Linked tree21435.heap none shape21435 :=
  ⟨_, rfl, rfl, rfl, rfl, ⟨_, rfl, rfl, rfl, rfl, trivial, trivial⟩,
    ⟨_, rfl, rfl, rfl, rfl, ⟨_, rfl, rfl, rfl, rfl, trivial, trivial⟩,
      ⟨_, rfl, rfl, rfl, rfl, trivial, trivial⟩⟩⟩

theorem linked42513 : Linked tree42513.heap none shape42513 :=
  ⟨_, rfl, rfl, rfl, rfl,
    ⟨_, rfl, rfl, rfl, rfl, ⟨_, rfl, rfl, rfl, rfl, trivial, trivial⟩,
      ⟨_, rfl, rfl, rfl, rfl, trivial, trivial⟩⟩,
    ⟨_, rfl, rfl, rfl, rfl, trivial, trivial⟩⟩

/-- C14: deleting an absent key is a no-op.  Whenever `search` returns `NULL`
for the key, `delete` returns the memory it was given: root, size and every
node are untouched. -/
theorem delete_absent_noop (fuel : Nat) (m : Mem K V) (elem : K)
    (habsent : search fuel m elem = .ok none) : delete fuel m elem = .ok m := by
  simp [delete, habsent, ok_bind]
  rfl

/-- C14 on a concrete map: deleting key 5 from the map built from 2, 1, 3. -/
theorem delete_absent_noop_witness :
    search 3 mem213 5 = .ok none ∧ delete 3 mem213 5 = .ok mem213 :=
  ⟨rfl, delete_absent_noop 3 mem213 5 rfl⟩

/-- C15: the empty map reports absence.  On a freshly created map, whatever
the callbacks and the fuel, `minimum` and `maximum` of the root are `NULL`,
`search` returns `NULL` for every key, `size` is 0 and `isEmpty` is true. -/
theorem empty_map_reports_absence (createElement : K → K) (createInfo : V → V)
    (compare : K → K → Int) (fuel : Nat) (k : K) :
    minimum fuel (createTree createElement createInfo compare).heap
        (createTree createElement createInfo compare).tree.root = .ok none ∧
    maximum fuel (createTree createElement createInfo compare).heap
        (createTree createElement createInfo compare).tree.root = .ok none ∧
    search fuel (createTree createElement createInfo compare) k = .ok none ∧
    (createTree createElement createInfo compare).tree.size = 0 ∧
    isEmpty (createTree createElement createInfo compare) = true := by
  refine ⟨rfl, rfl, ?_, rfl, rfl⟩
  cases fuel <;> rfl

theorem error_bind {ε α β : Type} (e : ε) (f : α → Except ε β) :
    (Except.error e >>= f) = Except.error e := rfl

theorem ok_bind_fn {ε α β : Type} (a : α) (f : α → Except ε β) :
    (Except.ok a).bind f = f a := rfl

/-- C20 (deleting the only key empties the map safely) does not hold of the
code.  For every integer key `k` and any positive fuel, inserting `k` into a
fresh map gives the one-node map `single k`, and `delete k` on it dereferences
`NULL`: after the unlinking the tree is empty, `minimum(root)` is `NULL` and
`avlFixUp` reads `y->pt` of it. -/
theorem delete_only_key_null_deref (fuel : Nat) (k : Int) :
    (insert (fuel + 1) fresh k ()).toOption.map snapshot = some (snapshot (single k)) ∧
    snapshot (single k) = (some 0, 1, [(k, none, none, none, 1)]) ∧
    faultOf ((insert (fuel + 1) fresh k ()).bind fun m => delete (fuel + 1) m k)
      = some Fault.nullDeref := by
  have hk : cmpInt k k = 0 := by simp [cmpInt]
  have hins : insert (fuel + 1) fresh k () = .ok (single k) := rfl
  refine ⟨by rw [hins]; rfl, rfl, ?_⟩
  rw [hins, ok_bind_fn]
  have hs : search (fuel + 1) (single k) k = .ok (some 0) := by
    simp [search, searchLoop, load, single, mkNode, fresh, createTree, hk, ok_bind]
    rfl
  simp only [delete, hs, ok_bind]
  simp [load, single, mkNode, ok_bind, error_bind, minimum, maximum, avlFixUp, faultOf]

theorem lt_length_of_get {h : Heap K V} {a : Nat} {n : TreeNode K V} (hn : h[a]? = some n) :
    a < h.length := by
  rcases Nat.lt_or_ge a h.length with hlt | hge
  · exact hlt
  · rw [List.getElem?_eq_none hge] at hn; cases hn

theorem heightOr0_set_ne {h : Heap K V} {a : Nat} {c : Ptr} (hc : c ≠ some a)
    (n1 : TreeNode K V) : heightOr0 (h.set a n1) c = heightOr0 h c := by
  cases c with
  | none => rfl
  | some b =>
    have hne : a ≠ b := fun e => hc (by rw [e])
    simp [heightOr0, load, List.getElem?_set_ne hne]

theorem heightOr0_some (h : Heap K V) (a : Nat) :
    heightOr0 h (some a)
      = match h[a]? with
        | some n => .ok n.height
        | none => .error .wildPtr := by
  simp only [heightOr0, load]
  cases h[a]? <;> rfl

theorem getElem_of_get {h : Heap K V} {a : Nat} {n : TreeNode K V} (hn : h[a]? = some n)
    (hlt : a < h.length) : h[a] = n := by
  have := List.getElem?_eq_getElem hlt
  rw [hn] at this
  exact (Option.some.inj this).symm

theorem avlRotateRight_root {m : Mem K V} {y k : Nat} {yn kn : TreeNode K V} {v1 v2 v3 : Int}
    (hy : m.heap[y]? = some yn) (hk : m.heap[k]? = some kn) (hyk : y ≠ k)
    (hlt : yn.lt = some k) (hroot : m.tree.root = some y)
    (h1 : Reads m.heap y k kn.rt v1) (h2 : Reads m.heap y k yn.rt v2)
    (h3 : Reads m.heap y k kn.lt v3) :
    ∃ h', avlRotateRight m (some y) = .ok ⟨h', { m.tree with root := some k }⟩ ∧
      ∀ b, h'[b]? =
        if b = y then
          some { yn with lt := kn.rt, pt := some k, height := MAX v1 v2 + 1 }
        else if b = k then
          some { kn with rt := some y, pt := none, height := MAX v3 (MAX v1 v2 + 1) + 1 }
        else m.heap[b]? := by
  have hky : k ≠ y := fun e => hyk e.symm
  have hyl := lt_length_of_get hy
  have hkl := lt_length_of_get hk
  obtain ⟨h1a, h1b, h1c⟩ := h1
  obtain ⟨h2a, h2b, h2c⟩ := h2
  obtain ⟨h3a, h3b, h3c⟩ := h3
  simp [avlRotateRight, load, store, ok_bind, hy, hk, hlt, hroot, List.getElem?_set, hyk, hky,
    hyl, hkl, heightOr0_set_ne, h1a, h1b, h1c, h2a, h2b, h2c, h3a, h3b, h3c]
  intro b
  by_cases e1 : k = b
  · subst e1; simp [hky]
  · by_cases e2 : y = b
    · subst e2; simp [e1]
    · simp [e1, e2, Ne.symm e1, Ne.symm e2, eq_comm]

theorem avlRotateRight_inner {m : Mem K V} {y k p : Nat} {yn kn pn : TreeNode K V}
    {v1 v2 v3 : Int}
    (hy : m.heap[y]? = some yn) (hk : m.heap[k]? = some kn) (hp : m.heap[p]? = some pn)
    (hyk : y ≠ k) (hpy : p ≠ y) (hpk : p ≠ k)
    (hlt : yn.lt = some k) (hpt : yn.pt = some p)
    (hrooty : m.tree.root ≠ some y) (hrootk : m.tree.root ≠ some k)
    (h1 : Reads m.heap y k kn.rt v1) (h2 : Reads m.heap y k yn.rt v2)
    (h3 : Reads m.heap y k kn.lt v3) :
    ∃ h', avlRotateRight m (some y) = .ok ⟨h', m.tree⟩ ∧
      ∀ b, h'[b]? =
        if b = y then
          some { yn with lt := kn.rt, pt := some k, height := MAX v1 v2 + 1 }
        else if b = k then
          some { kn with rt := some y, pt := some p, height := MAX v3 (MAX v1 v2 + 1) + 1 }
        else if b = p then
          some (if pn.lt = some y then { pn with lt := some k } else { pn with rt := some k })
        else m.heap[b]? := by
  have hky : k ≠ y := fun e => hyk e.symm
  have hyp : y ≠ p := fun e => hpy e.symm
  have hkp : k ≠ p := fun e => hpk e.symm
  have hry : ¬ (some y = m.tree.root) := fun e => hrooty e.symm
  have hrk : ¬ (m.tree.root = some k) := hrootk
  have hyl := lt_length_of_get hy
  have hkl := lt_length_of_get hk
  have hpl := lt_length_of_get hp
  obtain ⟨h1a, h1b, h1c⟩ := h1
  obtain ⟨h2a, h2b, h2c⟩ := h2
  obtain ⟨h3a, h3b, h3c⟩ := h3
  have hp' : m.heap[p] = pn := by
    have := List.getElem?_eq_getElem hpl
    rw [hp] at this
    exact (Option.some.inj this).symm
  by_cases hside : pn.lt = some y
  · simp [avlRotateRight, load, store, ok_bind, hy, hk, hp, hp', hlt, hpt, hry, hrk,
      List.getElem?_set, hyk, hky, hpy, hpk, hyp, hkp, hyl, hkl, hpl, heightOr0_set_ne,
      h1a, h1b, h1c, h2a, h2b, h2c, h3a, h3b, h3c, hside]
    intro b
    by_cases e1 : k = b
    · subst e1; simp [hky, hkp]
    · by_cases e2 : y = b
      · subst e2; simp [e1, hyp, hyk, hpy]
      · by_cases e3 : p = b
        · subst e3; simp [e1, e2, hpy, hpk]
        · simp [e1, e2, e3, Ne.symm e1, Ne.symm e2, Ne.symm e3, eq_comm]
  · simp [avlRotateRight, load, store, ok_bind, hy, hk, hp, hp', hlt, hpt, hry, hrk,
      List.getElem?_set, hyk, hky, hpy, hpk, hyp, hkp, hyl, hkl, hpl, heightOr0_set_ne,
      h1a, h1b, h1c, h2a, h2b, h2c, h3a, h3b, h3c, hside]
    intro b
    by_cases e1 : k = b
    · subst e1; simp [hky, hkp]
    · by_cases e2 : y = b
      · subst e2; simp [e1, hyp, hyk, hpy]
      · by_cases e3 : p = b
        · subst e3; simp [e1, e2, hpy, hpk]
        · simp [e1, e2, e3, Ne.symm e1, Ne.symm e2, Ne.symm e3, eq_comm]

theorem avlRotateLeft_root {m : Mem K V} {x k : Nat} {xn kn : TreeNode K V} {v1 v2 : Int}
    (hx : m.heap[x]? = some xn) (hk : m.heap[k]? = some kn) (hxk : x ≠ k)
    (hrt : xn.rt = some k) (hroot : m.tree.root = some x)
    (h1 : Reads m.heap x k kn.lt v1) (h2 : Reads m.heap x k xn.lt v2) :
    ∃ h', avlRotateLeft m (some x) = .ok ⟨h', { m.tree with root := some k }⟩ ∧
      ∀ b, h'[b]? =
        if b = x then
          some { xn with rt := kn.lt, pt := some k, height := MAX v2 v1 + 1 }
        else if b = k then
          some { kn with
                 lt := some x, pt := none,
                 height := MAX (MAX v2 v1 + 1) (MAX v2 v1 + 1) + 1 }
        else m.heap[b]? := by
  have hkx : k ≠ x := fun e => hxk e.symm
  have hxl := lt_length_of_get hx
  have hkl := lt_length_of_get hk
  have hx' := getElem_of_get hx hxl
  have hk' := getElem_of_get hk hkl
  obtain ⟨h1a, h1b, h1c⟩ := h1
  obtain ⟨h2a, h2b, h2c⟩ := h2
  simp [avlRotateLeft, load, store, ok_bind, hx, hk, hrt, hroot, List.getElem?_set, hxk, hkx,
    hxl, hkl, heightOr0_set_ne, heightOr0_some, hx', hk', h1a, h1b, h1c, h2a, h2b, h2c]
  intro b
  by_cases e1 : k = b
  · subst e1; simp [hkx]
  · by_cases e2 : x = b
    · subst e2; simp [e1]
    · simp [e1, e2, Ne.symm e1, Ne.symm e2, eq_comm]

theorem avlRotateLeft_inner {m : Mem K V} {x k p : Nat} {xn kn pn : TreeNode K V}
    {v1 v2 : Int}
    (hx : m.heap[x]? = some xn) (hk : m.heap[k]? = some kn) (hp : m.heap[p]? = some pn)
    (hxk : x ≠ k) (hpx : p ≠ x) (hpk : p ≠ k)
    (hrt : xn.rt = some k) (hpt : xn.pt = some p)
    (hrootx : m.tree.root ≠ some x) (hrootk : m.tree.root ≠ some k)
    (h1 : Reads m.heap x k kn.lt v1) (h2 : Reads m.heap x k xn.lt v2) :
    ∃ h', avlRotateLeft m (some x) = .ok ⟨h', m.tree⟩ ∧
      ∀ b, h'[b]? =
        if b = x then
          some { xn with rt := kn.lt, pt := some k, height := MAX v2 v1 + 1 }
        else if b = k then
          some { kn with
                 lt := some x, pt := some p,
                 height := MAX (MAX v2 v1 + 1) (MAX v2 v1 + 1) + 1 }
        else if b = p then
          some (if pn.lt = some x then { pn with lt := some k }
                else if pn.rt = some x then { pn with rt := some k } else pn)
        else m.heap[b]? := by
  have hkx : k ≠ x := fun e => hxk e.symm
  have hxp : x ≠ p := fun e => hpx e.symm
  have hkp : k ≠ p := fun e => hpk e.symm
  have hrx : ¬ (some x = m.tree.root) := fun e => hrootx e.symm
  have hrk : ¬ (m.tree.root = some k) := hrootk
  have hxl := lt_length_of_get hx
  have hkl := lt_length_of_get hk
  have hx' := getElem_of_get hx hxl
  have hk' := getElem_of_get hk hkl
  have hpl := lt_length_of_get hp
  obtain ⟨h1a, h1b, h1c⟩ := h1
  obtain ⟨h2a, h2b, h2c⟩ := h2
  have hp' : m.heap[p] = pn := by
    have := List.getElem?_eq_getElem hpl
    rw [hp] at this
    exact (Option.some.inj this).symm
  by_cases hside : pn.lt = some x
  · simp [avlRotateLeft, load, store, ok_bind, hx, hk, hp, hp', hrt, hpt, hrx, hrk,
      List.getElem?_set, hxk, hkx, hpx, hpk, hxp, hkp, hxl, hkl, hpl, heightOr0_set_ne,
      heightOr0_some, hx', hk', h1a, h1b, h1c, h2a, h2b, h2c, hside]
    intro b
    by_cases e1 : k = b
    · subst e1; simp [hkx, hkp]
    · by_cases e2 : x = b
      · subst e2; simp [e1, hxp, hxk, hpx]
      · by_cases e3 : p = b
        · subst e3; simp [e1, e2, hpx, hpk]
        · simp [e1, e2, e3, Ne.symm e1, Ne.symm e2, Ne.symm e3, eq_comm]
  · by_cases hside2 : pn.rt = some x
    · simp [avlRotateLeft, load, store, ok_bind, hx, hk, hp, hp', hrt, hpt, hrx, hrk,
        List.getElem?_set, hxk, hkx, hpx, hpk, hxp, hkp, hxl, hkl, hpl, heightOr0_set_ne,
        heightOr0_some, hx', hk', h1a, h1b, h1c, h2a, h2b, h2c, hside, hside2]
      intro b
      by_cases e1 : k = b
      · subst e1; simp [hkx, hkp]
      · by_cases e2 : x = b
        · subst e2; simp [e1, hxp, hxk, hpx]
        · by_cases e3 : p = b
          · subst e3; simp [e1, e2, hpx, hpk]
          · simp [e1, e2, e3, Ne.symm e1, Ne.symm e2, Ne.symm e3, eq_comm]
    · simp [avlRotateLeft, load, store, ok_bind, hx, hk, hp, hp', hrt, hpt, hrx, hrk,
        List.getElem?_set, hxk, hkx, hpx, hpk, hxp, hkp, hxl, hkl, hpl, heightOr0_set_ne,
        heightOr0_some, hx', hk', h1a, h1b, h1c, h2a, h2b, h2c, hside, hside2]
      intro b
      by_cases e1 : k = b
      · subst e1; simp [hkx, hkp]
      · by_cases e2 : x = b
        · subst e2; simp [e1, hxp, hxk, hpx]
        · by_cases e3 : p = b
          · subst e3; simp [e1, e2, hpx, hpk, hp]
          · simp [e1, e2, e3, Ne.symm e1, Ne.symm e2, Ne.symm e3, eq_comm]

/-- C13: right rotation on a left-left chain.  If the heap holds exactly the
chain `A` (root, at `a`), `B = A.left` (at `b`), `C = B.left` (at `c`) with
mirrored parent links and cached heights 3, 2, 1, then `avlRotateRight` at `A`
returns; afterwards `B` is the root with empty parent, left child `C` and right
child `A`, `A` has no children, `C` and `A` have parent `B`, the heights are 2
for `B` and 1 for `C` and `A`, and the keys have not moved. -/
theorem rotateRight_left_chain (m : Mem K V) (a b c : Nat) (na nb nc : TreeNode K V)
    (hlink : Linked m.heap none (.node (.node (.node .nil c .nil) b .nil) a .nil))
    (hroot : m.tree.root = some a)
    (ha : m.heap[a]? = some na) (hb : m.heap[b]? = some nb) (hc : m.heap[c]? = some nc)
    (_hha : na.height = 3) (_hhb : nb.height = 2) (hhc : nc.height = 1) :
    ∃ m1 na1 nb1 nc1, avlRotateRight m (some a) = .ok m1 ∧
      m1.heap[a]? = some na1 ∧ m1.heap[b]? = some nb1 ∧ m1.heap[c]? = some nc1 ∧
      m1.tree.root = some b ∧ nb1.pt = none ∧ nb1.lt = some c ∧ nb1.rt = some a ∧
      na1.lt = none ∧ na1.rt = none ∧ nc1.pt = some b ∧ na1.pt = some b ∧
      nb1.height = 2 ∧ nc1.height = 1 ∧ na1.height = 1 ∧
      na1.elem = na.elem ∧ nb1.elem = nb.elem ∧ nc1.elem = nc.elem := by
  obtain ⟨na0, ha0, hapt, halt, hart, ⟨nb0, hb0, hbpt, hblt, hbrt, ⟨nc0, hc0, hcpt, hclt, hcrt, -, -⟩, -⟩,
    -⟩ := hlink
  rw [ha] at ha0; cases ha0
  rw [hb] at hb0; cases hb0
  rw [hc] at hc0; cases hc0
  simp only [Shape.rootPtr] at halt hart hblt hbrt hclt hcrt
  have hab : a ≠ b := by
    rintro rfl
    rw [ha] at hb; cases hb
    rw [hapt] at hbpt; cases hbpt
  have hac : a ≠ c := by
    rintro rfl
    rw [ha] at hc; cases hc
    rw [hapt] at hcpt; cases hcpt
  have hbc : b ≠ c := by
    rintro rfl
    rw [hb] at hc; cases hc
    rw [hblt] at hclt; cases hclt
  have r1 : Reads m.heap a b nb.rt 0 := by rw [hbrt]; exact ⟨by simp, by simp, rfl⟩
  have r2 : Reads m.heap a b na.rt 0 := by rw [hart]; exact ⟨by simp, by simp, rfl⟩
  have r3 : Reads m.heap a b nb.lt 1 := by
    rw [hblt]
    refine ⟨by simpa using Ne.symm hac, by simpa using Ne.symm hbc, ?_⟩
    simp [heightOr0_some, hc, hhc]
  obtain ⟨h1, hrot, hpts⟩ := avlRotateRight_root ha hb hab halt hroot r1 r2 r3
  refine ⟨_, { na with lt := nb.rt, pt := some b, height := MAX 0 0 + 1 },
    { nb with rt := some a, pt := none, height := MAX 1 (MAX 0 0 + 1) + 1 }, nc, hrot,
    ?_, ?_, ?_, rfl, ?_⟩
  · rw [hpts]; simp
  · rw [hpts]; simp [Ne.symm hab]
  · rw [hpts]; simp [Ne.symm hac, Ne.symm hbc, hc]
  · simp [hblt, hbrt, hart, hcpt, hhc, MAX]

/-- C13 on the concrete chain 3, 2, 1 (`chainLL`). -/
theorem rotateRight_left_chain_witness :
    Linked chainLL.heap none (.node (.node (.node .nil 2 .nil) 1 .nil) 0 .nil) ∧
    ∃ m1 na1 nb1 nc1, avlRotateRight chainLL (some 0) = .ok m1 ∧
      m1.heap[0]? = some na1 ∧ m1.heap[1]? = some nb1 ∧ m1.heap[2]? = some nc1 ∧
      m1.tree.root = some 1 ∧ nb1.pt = none ∧ nb1.lt = some 2 ∧ nb1.rt = some 0 ∧
      na1.lt = none ∧ na1.rt = none ∧ nc1.pt = some 1 ∧ na1.pt = some 1 ∧
      nb1.height = 2 ∧ nc1.height = 1 ∧ na1.height = 1 ∧
      na1.elem = 3 ∧ nb1.elem = 2 ∧ nc1.elem = 1 :=
  ⟨⟨_, rfl, rfl, rfl, rfl, ⟨_, rfl, rfl, rfl, rfl, ⟨_, rfl, rfl, rfl, rfl, trivial, trivial⟩,
      trivial⟩, trivial⟩,
   rotateRight_left_chain chainLL 0 1 2 _ _ _
    ⟨_, rfl, rfl, rfl, rfl, ⟨_, rfl, rfl, rfl, rfl, ⟨_, rfl, rfl, rfl, rfl, trivial, trivial⟩,
      trivial⟩, trivial⟩ rfl rfl rfl rfl rfl rfl rfl⟩

/-- C17 (rotations leave correct heights) does not hold of `avlRotateLeft`.
On the right-leaning chain 1, 2, 3, 4 (`chain4`, mirrored parent links, correct
cached heights 4, 3, 2, 1) the rotation at the root makes key 2 (address 1) the
pivot with children 1 (address 0, height 1) and 3 (address 2, height 2), and
leaves it with cached height 2 instead of 3. -/
theorem rotateLeft_pivot_height_wrong :
    Linked chain4.heap none shapeChain4 ∧
    snapshot chain4 = (some 0, 4,
      [(1, none, none, some 1, 4), (2, some 0, none, some 2, 3),
       (3, some 1, none, some 3, 2), (4, some 2, none, none, 1)]) ∧
    (avlRotateLeft chain4 (some 0)).toOption.map snapshot = some (some 1, 4,
      [(1, some 1, none, none, 1), (2, none, some 0, some 2, 2),
       (3, some 1, none, some 3, 2), (4, some 2, none, none, 1)]) :=
  ⟨linkedChain4, rfl, rfl⟩

/-- C18 (rotations re-establish parent links) does not hold of the code.  In
the balanced tree 2(1, 4(3, 5)) the left rotation at the root moves the inner
child 3 (address 3) under the rotated node 2 (address 0) but leaves its parent
link on the pivot 4 (address 2).  The mirrored tree 4(2(1, 3), 5) shows the
same for `avlRotateRight`: 3 (address 4) becomes the left child of 4 (address
0) and keeps 2 (address 2) as parent. -/
theorem rotation_inner_child_parent_stale :
    Linked tree21435.heap none shape21435 ∧
    (avlRotateLeft tree21435 (some 0)).toOption.map snapshot = some (some 2, 5,
      [(2, some 2, some 1, some 3, 2), (1, some 0, none, none, 1),
       (4, none, some 0, some 4, 3), (3, some 2, none, none, 1),
       (5, some 2, none, none, 1)]) ∧
    Linked tree42513.heap none shape42513 ∧
    (avlRotateRight tree42513 (some 0)).toOption.map snapshot = some (some 2, 5,
      [(4, some 2, some 4, some 1, 2), (5, some 0, none, none, 1),
       (2, none, some 3, some 0, 3), (1, some 2, none, none, 1),
       (3, some 2, none, none, 1)]) :=
  ⟨linked21435, rfl, linked42513, rfl⟩

theorem fixUp_step_plain {y : Ptr} {m : Mem K V} {t : Nat} {h1 : Heap K V} {bal : Int}
    {tn : TreeNode K V} (fuel : Nat)
    (hu : updateHeight m.heap (some t) = .ok h1)
    (hbal : avlGetBalance h1 (some t) = .ok bal) (hb2 : bal ≠ 2) (hb3 : bal ≠ -2)
    (ht : load h1 (some t) = .ok tn) :
    avlFixUpLoop y (fuel + 1) m (some t) = avlFixUpLoop y fuel ⟨h1, m.tree⟩ tn.pt := by
  rw [avlFixUpLoop]
  simp only [hu, ok_bind, pure_bind, hbal, hb2, hb3, if_false, ht]

theorem fixUp_step_RR {y : Ptr} {m m3 : Mem K V} {t : Nat} {h1 : Heap K V}
    {yn tn rn tn3 : TreeNode K V} (fuel : Nat)
    (hu : updateHeight m.heap (some t) = .ok h1)
    (hbal : avlGetBalance h1 (some t) = .ok (-2))
    (hy : load h1 y = .ok yn) (ht : load h1 (some t) = .ok tn) (hr : load h1 tn.rt = .ok rn)
    (hcmp : m.tree.compare yn.elem rn.elem = 1)
    (hrot : avlRotateLeft ⟨h1, m.tree⟩ (some t) = .ok m3)
    (ht3 : load m3.heap (some t) = .ok tn3) :
    avlFixUpLoop y (fuel + 1) m (some t) = avlFixUpLoop y fuel m3 tn3.pt := by
  rw [avlFixUpLoop]
  simp only [hu, ok_bind, pure_bind, hbal, hy, ht, hr, hcmp, hrot, ht3, if_true,
    show ((-2 : Int) = 2) = False by decide, if_false]

theorem fixUp_step_RL {y : Ptr} {m m2 m3 : Mem K V} {t : Nat} {h1 : Heap K V}
    {yn tn rn tn3 : TreeNode K V} (fuel : Nat)
    (hu : updateHeight m.heap (some t) = .ok h1)
    (hbal : avlGetBalance h1 (some t) = .ok (-2))
    (hy : load h1 y = .ok yn) (ht : load h1 (some t) = .ok tn) (hr : load h1 tn.rt = .ok rn)
    (hcmp : m.tree.compare yn.elem rn.elem ≠ 1)
    (hrot1 : avlRotateRight ⟨h1, m.tree⟩ tn.rt = .ok m2)
    (hrot2 : avlRotateLeft m2 (some t) = .ok m3)
    (ht3 : load m3.heap (some t) = .ok tn3) :
    avlFixUpLoop y (fuel + 1) m (some t) = avlFixUpLoop y fuel m3 tn3.pt := by
  rw [avlFixUpLoop]
  simp only [hu, ok_bind, pure_bind, hbal, hy, ht, hr, hcmp, hrot1, hrot2, ht3, if_true,
    show ((-2 : Int) = 2) = False by decide, if_false]

theorem fixUp_step_LL {y : Ptr} {m m3 : Mem K V} {t : Nat} {h1 : Heap K V} {bal3 : Int}
    {yn tn ln tn3 : TreeNode K V} (fuel : Nat)
    (hu : updateHeight m.heap (some t) = .ok h1)
    (hbal : avlGetBalance h1 (some t) = .ok 2)
    (hy : load h1 y = .ok yn) (ht : load h1 (some t) = .ok tn) (hl : load h1 tn.lt = .ok ln)
    (hcmp : m.tree.compare yn.elem ln.elem = -1)
    (hrot : avlRotateRight ⟨h1, m.tree⟩ (some t) = .ok m3)
    (hbal3 : avlGetBalance m3.heap (some t) = .ok bal3) (hb3 : bal3 ≠ -2)
    (ht3 : load m3.heap (some t) = .ok tn3) :
    avlFixUpLoop y (fuel + 1) m (some t) = avlFixUpLoop y fuel m3 tn3.pt := by
  rw [avlFixUpLoop]
  simp only [hu, ok_bind, pure_bind, hbal, hy, ht, hl, hcmp, hrot, hbal3, hb3, ht3, if_true, if_false]

theorem fixUp_step_LR {y : Ptr} {m m2 m3 : Mem K V} {t : Nat} {h1 : Heap K V} {bal3 : Int}
    {yn tn ln tn3 : TreeNode K V} (fuel : Nat)
    (hu : updateHeight m.heap (some t) = .ok h1)
    (hbal : avlGetBalance h1 (some t) = .ok 2)
    (hy : load h1 y = .ok yn) (ht : load h1 (some t) = .ok tn) (hl : load h1 tn.lt = .ok ln)
    (hcmp : m.tree.compare yn.elem ln.elem ≠ -1)
    (hrot1 : avlRotateLeft ⟨h1, m.tree⟩ tn.lt = .ok m2)
    (hrot2 : avlRotateRight m2 (some t) = .ok m3)
    (hbal3 : avlGetBalance m3.heap (some t) = .ok bal3) (hb3 : bal3 ≠ -2)
    (ht3 : load m3.heap (some t) = .ok tn3) :
    avlFixUpLoop y (fuel + 1) m (some t) = avlFixUpLoop y fuel m3 tn3.pt := by
  rw [avlFixUpLoop]
  simp only [hu, ok_bind, pure_bind, hbal, hy, ht, hl, hcmp, hrot1, hrot2, hbal3, hb3, ht3, if_true,
    if_false]

theorem insert_first {ci : V → V} {cmp : K → K → Int} (fuel : Nat) (a : K) (va : V) :
    insert fuel (createTree id ci cmp) a va
      = .ok ⟨[nodeOf a (ci va) none none none 1],
             { root := some 0, createElement := id, createInfo := ci, compare := cmp, size := 1 }⟩ :=
  rfl

theorem insert_second {ci : V → V} {cmp : K → K → Int} (hc : StrictTotal cmp) (fuel : Nat)
    (a b : K) (va vb : V) (hab : cmp a b = -1) :
    insert (fuel + 1) ⟨[nodeOf a (ci va) none none none 1],
        { root := some 0, createElement := id, createInfo := ci, compare := cmp, size := 1 }⟩ b vb
      = .ok ⟨[nodeOf a (ci va) none none (some 1) 2, nodeOf b (ci vb) (some 0) none none 1],
             { root := some 0, createElement := id, createInfo := ci, compare := cmp, size := 2 }⟩ := by
  have hba : cmp b a = 1 := (hc.swap b a).mpr hab
  simp [insert, createTreeNode, insertLoop, load, store, ok_bind, nodeOf, hba, avlFixUp,
    avlFixUpLoop, updateHeight, heightOr0, avlGetBalance, MAX]

theorem insert_third {ci : V → V} {cmp : K → K → Int} (hc : StrictTotal cmp) (fuel : Nat)
    (a b c : K) (va vb vc : V) (hab : cmp a b = -1) (hbc : cmp b c = -1) :
    insert (fuel + 3)
        ⟨[nodeOf a (ci va) none none (some 1) 2, nodeOf b (ci vb) (some 0) none none 1],
         { root := some 0, createElement := id, createInfo := ci, compare := cmp, size := 2 }⟩
        c vc
      = .ok ⟨[nodeOf a (ci va) (some 1) none none 1, nodeOf b (ci vb) none (some 0) (some 2) 2,
              nodeOf c (ci vc) (some 1) none none 1],
             { root := some 1, createElement := id, createInfo := ci, compare := cmp, size := 3 }⟩ := by
  have hcb : cmp c b = 1 := (hc.swap c b).mpr hbc
  have hca : cmp c a = 1 := (hc.swap c a).mpr (hc.trans a b c hab hbc)
  have hdescent : insertLoop cmp c (some 2) (fuel + 1 + 1 + 1)
      [nodeOf a (ci va) none none (some 1) 2, nodeOf b (ci vb) (some 0) none none 1,
       nodeOf c (ci vc) none none none 1] (some 0)
      = .ok (some [nodeOf a (ci va) none none (some 1) 2,
          nodeOf b (ci vb) (some 0) none (some 2) 1, nodeOf c (ci vc) (some 1) none none 1]) := by
    simp [insertLoop, load, store, ok_bind, nodeOf, hcb, hca]
  have e1 : updateHeight
      [nodeOf a (ci va) none none (some 1) 2, nodeOf b (ci vb) (some 0) none (some 2) 1,
        nodeOf c (ci vc) (some 1) none none 1] (some 1)
      = .ok [nodeOf a (ci va) none none (some 1) 2, nodeOf b (ci vb) (some 0) none (some 2) 2,
        nodeOf c (ci vc) (some 1) none none 1] := rfl
  have e2 : avlGetBalance
      [nodeOf a (ci va) none none (some 1) 2, nodeOf b (ci vb) (some 0) none (some 2) 2,
        nodeOf c (ci vc) (some 1) none none 1] (some 1) = .ok (-1) := rfl
  have e3 : load
      [nodeOf a (ci va) none none (some 1) 2, nodeOf b (ci vb) (some 0) none (some 2) 2,
        nodeOf c (ci vc) (some 1) none none 1] (some 1)
      = .ok (nodeOf b (ci vb) (some 0) none (some 2) 2) := rfl
  have hup1 : avlFixUpLoop (some 2) (fuel + 1 + 1 + 1)
      ⟨[nodeOf a (ci va) none none (some 1) 2, nodeOf b (ci vb) (some 0) none (some 2) 1,
        nodeOf c (ci vc) (some 1) none none 1],
       { root := some 0, createElement := id, createInfo := ci, compare := cmp, size := 3 }⟩ (some 1)
      = avlFixUpLoop (some 2) (fuel + 1 + 1)
      ⟨[nodeOf a (ci va) none none (some 1) 2, nodeOf b (ci vb) (some 0) none (some 2) 2,
        nodeOf c (ci vc) (some 1) none none 1],
       { root := some 0, createElement := id, createInfo := ci, compare := cmp, size := 3 }⟩ (some 0) :=
    fixUp_step_plain _ e1 e2 (by decide) (by decide) e3
  have e4 : updateHeight
      [nodeOf a (ci va) none none (some 1) 2, nodeOf b (ci vb) (some 0) none (some 2) 2,
        nodeOf c (ci vc) (some 1) none none 1] (some 0)
      = .ok [nodeOf a (ci va) none none (some 1) 3, nodeOf b (ci vb) (some 0) none (some 2) 2,
        nodeOf c (ci vc) (some 1) none none 1] := rfl
  have e5 : avlGetBalance
      [nodeOf a (ci va) none none (some 1) 3, nodeOf b (ci vb) (some 0) none (some 2) 2,
        nodeOf c (ci vc) (some 1) none none 1] (some 0) = .ok (-2) := rfl
  have e6 : load
      [nodeOf a (ci va) none none (some 1) 3, nodeOf b (ci vb) (some 0) none (some 2) 2,
        nodeOf c (ci vc) (some 1) none none 1] (some 2)
      = .ok (nodeOf c (ci vc) (some 1) none none 1) := rfl
  have e7 : load
      [nodeOf a (ci va) none none (some 1) 3, nodeOf b (ci vb) (some 0) none (some 2) 2,
        nodeOf c (ci vc) (some 1) none none 1] (some 0)
      = .ok (nodeOf a (ci va) none none (some 1) 3) := rfl
  have e8 : load
      [nodeOf a (ci va) none none (some 1) 3, nodeOf b (ci vb) (some 0) none (some 2) 2,
        nodeOf c (ci vc) (some 1) none none 1] (some 1)
      = .ok (nodeOf b (ci vb) (some 0) none (some 2) 2) := rfl
  have e9 : avlRotateLeft
      ⟨[nodeOf a (ci va) none none (some 1) 3, nodeOf b (ci vb) (some 0) none (some 2) 2,
        nodeOf c (ci vc) (some 1) none none 1],
       { root := some 0, createElement := id, createInfo := ci, compare := cmp, size := 3 }⟩ (some 0)
      = .ok ⟨[nodeOf a (ci va) (some 1) none none 1, nodeOf b (ci vb) none (some 0) (some 2) 2,
        nodeOf c (ci vc) (some 1) none none 1],
       { root := some 1, createElement := id, createInfo := ci, compare := cmp, size := 3 }⟩ := rfl
  have e10 : load
      [nodeOf a (ci va) (some 1) none none 1, nodeOf b (ci vb) none (some 0) (some 2) 2,
        nodeOf c (ci vc) (some 1) none none 1] (some 0)
      = .ok (nodeOf a (ci va) (some 1) none none 1) := rfl
  have hup2 : avlFixUpLoop (some 2) (fuel + 1 + 1)
      ⟨[nodeOf a (ci va) none none (some 1) 2, nodeOf b (ci vb) (some 0) none (some 2) 2,
        nodeOf c (ci vc) (some 1) none none 1],
       { root := some 0, createElement := id, createInfo := ci, compare := cmp, size := 3 }⟩ (some 0)
      = avlFixUpLoop (some 2) (fuel + 1)
      ⟨[nodeOf a (ci va) (some 1) none none 1, nodeOf b (ci vb) none (some 0) (some 2) 2,
        nodeOf c (ci vc) (some 1) none none 1],
       { root := some 1, createElement := id, createInfo := ci, compare := cmp, size := 3 }⟩ (some 1) :=
    fixUp_step_RR _ e4 e5 e6 e7 e8 hcb e9 e10
  have e11 : updateHeight
      [nodeOf a (ci va) (some 1) none none 1, nodeOf b (ci vb) none (some 0) (some 2) 2,
        nodeOf c (ci vc) (some 1) none none 1] (some 1)
      = .ok [nodeOf a (ci va) (some 1) none none 1, nodeOf b (ci vb) none (some 0) (some 2) 2,
        nodeOf c (ci vc) (some 1) none none 1] := rfl
  have e12 : avlGetBalance
      [nodeOf a (ci va) (some 1) none none 1, nodeOf b (ci vb) none (some 0) (some 2) 2,
        nodeOf c (ci vc) (some 1) none none 1] (some 1) = .ok 0 := rfl
  have e13 : load
      [nodeOf a (ci va) (some 1) none none 1, nodeOf b (ci vb) none (some 0) (some 2) 2,
        nodeOf c (ci vc) (some 1) none none 1] (some 1)
      = .ok (nodeOf b (ci vb) none (some 0) (some 2) 2) := rfl
  have hup3 : avlFixUpLoop (some 2) (fuel + 1)
      ⟨[nodeOf a (ci va) (some 1) none none 1, nodeOf b (ci vb) none (some 0) (some 2) 2,
        nodeOf c (ci vc) (some 1) none none 1],
       { root := some 1, createElement := id, createInfo := ci, compare := cmp, size := 3 }⟩ (some 1)
      = avlFixUpLoop (some 2) fuel
      ⟨[nodeOf a (ci va) (some 1) none none 1, nodeOf b (ci vb) none (some 0) (some 2) 2,
        nodeOf c (ci vc) (some 1) none none 1],
       { root := some 1, createElement := id, createInfo := ci, compare := cmp, size := 3 }⟩ none :=
    fixUp_step_plain _ e11 e12 (by decide) (by decide) e13
  have hup4 : avlFixUpLoop (some 2) fuel
      ⟨[nodeOf a (ci va) (some 1) none none 1, nodeOf b (ci vb) none (some 0) (some 2) 2,
        nodeOf c (ci vc) (some 1) none none 1],
       { root := some 1, createElement := id, createInfo := ci, compare := cmp, size := 3 }⟩ none
      = .ok ⟨[nodeOf a (ci va) (some 1) none none 1, nodeOf b (ci vb) none (some 0) (some 2) 2,
        nodeOf c (ci vc) (some 1) none none 1],
       { root := some 1, createElement := id, createInfo := ci, compare := cmp, size := 3 }⟩ := by
    cases fuel <;> rfl
  show insert (fuel + 1 + 1 + 1) _ c vc = _
  simp only [insert, createTreeNode, ne_eq, reduceCtorEq, not_false_eq_true, if_true]
  erw [hdescent]
  simp only [ok_bind, avlFixUp]
  exact (hup1.trans (hup2.trans (hup3.trans hup4)))

/-- C12: increasing three-key insertion is rebalanced.  For keys `a < b < c`
under a strict total comparator, inserted in that order into a freshly created
map (whose key constructor copies the key), any fuel of at least 3 makes the
three insertions return; the result has size 3 and root `b` (address 1, empty
parent, cached height 2) with left child `a` (address 0) and right child `c`
(address 2), both childless with parent `b` and cached height 1. -/
theorem three_increasing_inserts {cmp : K → K → Int} (hc : StrictTotal cmp) (ci : V → V)
    (a b c : K) (va vb vc : V) (hab : cmp a b = -1) (hbc : cmp b c = -1) (fuel : Nat)
    (hfuel : 3 ≤ fuel) :
    ∃ m, runOps fuel (createTree id ci cmp) [.insert a va, .insert b vb, .insert c vc] = .ok m ∧
      m.tree.root = some 1 ∧ m.tree.size = 3 ∧
      m.heap = [nodeOf a (ci va) (some 1) none none 1, nodeOf b (ci vb) none (some 0) (some 2) 2,
                nodeOf c (ci vc) (some 1) none none 1] := by
  obtain ⟨f, rfl⟩ : ∃ f, fuel = f + 3 := ⟨fuel - 3, by omega⟩
  refine ⟨⟨[nodeOf a (ci va) (some 1) none none 1, nodeOf b (ci vb) none (some 0) (some 2) 2,
      nodeOf c (ci vc) (some 1) none none 1],
    { root := some 1, createElement := id, createInfo := ci, compare := cmp, size := 3 }⟩,
    ?_, rfl, rfl, rfl⟩
  simp only [runOps, step, insert_first, ok_bind]
  rw [insert_second hc (f + 2) a b va vb hab]
  simp only [ok_bind]
  rw [insert_third hc f a b c va vb vc hab hbc]
  rfl

/-- C12 on the keys 10, 20, 30 of the specification. -/
theorem three_increasing_inserts_witness :
    StrictTotal cmpInt ∧ cmpInt 10 20 = -1 ∧ cmpInt 20 30 = -1 ∧ 3 ≤ 3 ∧
    ∃ m, runOps 3 (createTree id id cmpInt) [.insert 10 (), .insert 20 (), .insert 30 ()] = .ok m ∧
      m.tree.root = some 1 ∧ m.tree.size = 3 ∧
      m.heap = [nodeOf 10 () (some 1) none none 1, nodeOf 20 () none (some 0) (some 2) 2,
                nodeOf 30 () (some 1) none none 1] :=
  ⟨cmpInt_strictTotal, rfl, rfl, le_refl 3,
    three_increasing_inserts cmpInt_strictTotal id 10 20 30 () () () rfl rfl 3 (le_refl 3)⟩

theorem Ctx.plug_inorder (c : Ctx) :
    ∀ t : Shape, (c.plug t).inorder = c.before ++ t.inorder ++ c.after := by
  induction c with
  | top => intro t; simp [Ctx.plug, Ctx.before, Ctx.after]
  | left a r up ih => intro t; simp [Ctx.plug, Ctx.before, Ctx.after, ih, Shape.inorder]
  | right l a up ih => intro t; simp [Ctx.plug, Ctx.before, Ctx.after, ih, Shape.inorder]

theorem Shape.inorder_length (s : Shape) : s.inorder.length = s.size := by
  induction s with
  | nil => rfl
  | node l a r ihl ihr => simp [Shape.inorder, Shape.size, ihl, ihr]; omega

theorem Ctx.plug_size (c : Ctx) (t : Shape) :
    (c.plug t).size = c.before.length + t.size + c.after.length := by
  rw [← Shape.inorder_length, Ctx.plug_inorder]
  simp only [List.length_append, Shape.inorder_length]

theorem Ctx.depth_le_frames (c : Ctx) : c.depth ≤ c.before.length + c.after.length := by
  induction c with
  | top => simp [Ctx.depth]
  | left a r up ih =>
    simp only [Ctx.before, Ctx.after, Ctx.depth, List.length_append, List.length_cons]
    omega
  | right l a up ih =>
    simp only [Ctx.before, Ctx.after, Ctx.depth, List.length_append, List.length_cons,
      List.length_nil]
    omega

theorem Ctx.depth_le (c : Ctx) (t : Shape) : c.depth + t.size ≤ (c.plug t).size := by
  have h1 := c.plug_size t
  have h2 := c.depth_le_frames
  omega

theorem Shape.height_le_size (s : Shape) : s.height ≤ s.size := by
  induction s with
  | nil => simp [Shape.height, Shape.size]
  | node l a r ihl ihr => simp only [Shape.height, Shape.size]; omega

theorem Shape.split_of_mem {s : Shape} {x : Nat} (hx : x ∈ s.inorder) :
    ∃ c l r, s = Ctx.plug c (.node l x r) := by
  induction s with
  | nil => simp [Shape.inorder] at hx
  | node l a r ihl ihr =>
    simp only [Shape.inorder, List.mem_append, List.mem_cons] at hx
    rcases hx with hx | rfl | hx
    · obtain ⟨c, l1, r1, rfl⟩ := ihl hx
      -- the path is extended at its upper end
      have key : ∀ (c : Ctx) (t : Shape), ∃ c1 : Ctx, ∀ u : Shape,
          Shape.node (c.plug u) a r = c1.plug u := by
        intro c
        induction c with
        | top => intro _; exact ⟨.left a r .top, fun u => rfl⟩
        | left b rb up ih =>
          intro t
          obtain ⟨c1, hc1⟩ := ih t
          exact ⟨.left b rb c1, fun u => by simp only [Ctx.plug]; exact hc1 _⟩
        | right lb b up ih =>
          intro t
          obtain ⟨c1, hc1⟩ := ih t
          exact ⟨.right lb b c1, fun u => by simp only [Ctx.plug]; exact hc1 _⟩
      obtain ⟨c1, hc1⟩ := key c .nil
      exact ⟨c1, l1, r1, hc1 _⟩
    · exact ⟨.top, l, r, rfl⟩
    · obtain ⟨c, l1, r1, rfl⟩ := ihr hx
      have key : ∀ (c : Ctx) (t : Shape), ∃ c1 : Ctx, ∀ u : Shape,
          Shape.node l a (c.plug u) = c1.plug u := by
        intro c
        induction c with
        | top => intro _; exact ⟨.right l a .top, fun u => rfl⟩
        | left b rb up ih =>
          intro t
          obtain ⟨c1, hc1⟩ := ih t
          exact ⟨.left b rb c1, fun u => by simp only [Ctx.plug]; exact hc1 _⟩
        | right lb b up ih =>
          intro t
          obtain ⟨c1, hc1⟩ := ih t
          exact ⟨.right lb b c1, fun u => by simp only [Ctx.plug]; exact hc1 _⟩
      obtain ⟨c1, hc1⟩ := key c .nil
      exact ⟨c1, l1, r1, hc1 _⟩

theorem Linked.owned {h : Heap K V} (s : Shape) : ∀ par, Linked h par s → Owned h s := by
  induction s with
  | nil => intro _ _; trivial
  | node l a r ihl ihr =>
    rintro par ⟨n, hn, -, hlt, hrt, hl, hr⟩
    exact ⟨n, hn, hlt, hrt, ihl _ hl, ihr _ hr⟩

theorem Owned.congr {h h1 : Heap K V} (s : Shape) (ho : Owned h s)
    (hsame : ∀ b ∈ s.inorder, h1[b]? = h[b]?) : Owned h1 s := by
  induction s with
  | nil => trivial
  | node l a r ihl ihr =>
    obtain ⟨n, hn, hlt, hrt, hl, hr⟩ := ho
    refine ⟨n, ?_, hlt, hrt, ihl hl ?_, ihr hr ?_⟩
    · rw [hsame a (by simp [Shape.inorder])]; exact hn
    · intro b hb; exact hsame b (by simp [Shape.inorder, hb])
    · intro b hb; exact hsame b (by simp [Shape.inorder, hb])

theorem Heights.congrH {h h1 : Heap K V} (s : Shape) (ho : Heights h s)
    (hsame : ∀ b ∈ s.inorder, h1[b]? = h[b]?) : Heights h1 s := by
  induction s with
  | nil => trivial
  | node l a r ihl ihr =>
    obtain ⟨n, hn, hh, hl, hr⟩ := ho
    refine ⟨n, ?_, hh, ihl hl ?_, ihr hr ?_⟩
    · rw [hsame a (by simp [Shape.inorder])]; exact hn
    · intro b hb; exact hsame b (by simp [Shape.inorder, hb])
    · intro b hb; exact hsame b (by simp [Shape.inorder, hb])

theorem CtxLinked.congrC {P P1 : Shape → Prop} {h h1 : Heap K V} (c : Ctx) :
    ∀ p, CtxLinked P h c p → (∀ b ∈ c.before ++ c.after, h1[b]? = h[b]?) →
      (∀ r, (∀ b ∈ r.inorder, b ∈ c.before ++ c.after) → P r → P1 r) →
      CtxLinked P1 h1 c p := by
  induction c with
  | top => intro _ _ _ _; trivial
  | left a r up ih =>
    rintro p ⟨n, hn, hlt, hrt, hpt, hP, hup⟩ hsame hPP
    refine ⟨n, ?_, hlt, hrt, hpt, hPP r ?_ hP, ih _ hup ?_ ?_⟩
    · rw [hsame a (by simp [Ctx.before, Ctx.after])]; exact hn
    · intro b hb; simp [Ctx.before, Ctx.after, hb]
    · intro b hb
      refine hsame b ?_
      simp only [Ctx.before, Ctx.after, List.mem_append, List.mem_cons] at hb ⊢
      tauto
    · intro r1 hr1 hP1
      refine hPP r1 (fun b hb => ?_) hP1
      have := hr1 b hb
      simp only [Ctx.before, Ctx.after, List.mem_append, List.mem_cons] at this ⊢
      tauto
  | right l a up ih =>
    rintro p ⟨n, hn, hlt, hrt, hpt, hP, hup⟩ hsame hPP
    refine ⟨n, ?_, hlt, hrt, hpt, hPP l ?_ hP, ih _ hup ?_ ?_⟩
    · rw [hsame a (by simp [Ctx.before, Ctx.after])]; exact hn
    · intro b hb; simp [Ctx.before, Ctx.after, hb]
    · intro b hb
      refine hsame b ?_
      simp only [Ctx.before, Ctx.after, List.mem_append, List.mem_cons,
        List.mem_singleton] at hb ⊢
      tauto
    · intro r1 hr1 hP1
      refine hPP r1 (fun b hb => ?_) hP1
      have := hr1 b hb
      simp only [Ctx.before, Ctx.after, List.mem_append, List.mem_cons,
        List.mem_singleton] at this ⊢
      tauto

theorem Linked.unplug {h : Heap K V} (c : Ctx) :
    ∀ t : Shape, Linked h none (c.plug t) →
      CtxLinked (fun r => Owned h r) h c t.rootPtr ∧ Linked h c.addr t := by
  induction c with
  | top => intro t ht; exact ⟨trivial, ht⟩
  | left a r up ih =>
    intro t ht
    obtain ⟨hup, n, hn, hpt, hlt, hrt, hl, hr⟩ := ih (.node t a r) ht
    exact ⟨⟨n, hn, hlt, hrt, hpt, hr.owned _ _, hup⟩, hl⟩
  | right l a up ih =>
    intro t ht
    obtain ⟨hup, n, hn, hpt, hlt, hrt, hl, hr⟩ := ih (.node l a t) ht
    exact ⟨⟨n, hn, hlt, hrt, hpt, hl.owned _ _, hup⟩, hr⟩

theorem Owned.plug {P : Shape → Prop} {h : Heap K V} (hP : ∀ r, P r → Owned h r) (c : Ctx) :
    ∀ t : Shape, CtxLinked P h c t.rootPtr → Owned h t → Owned h (c.plug t) := by
  induction c with
  | top => intro t _ ht; exact ht
  | left a r up ih =>
    rintro t ⟨n, hn, hlt, hrt, -, hr, hup⟩ ht
    exact ih (.node t a r) hup ⟨n, hn, hlt, hrt, ht, hP r hr⟩
  | right l a up ih =>
    rintro t ⟨n, hn, hlt, hrt, -, hl, hup⟩ ht
    exact ih (.node l a t) hup ⟨n, hn, hlt, hrt, hP l hl, ht⟩

theorem Ctx.plug_rootPtr (c : Ctx) : ∀ t : Shape,
    (c = .top ∧ (c.plug t).rootPtr = t.rootPtr) ∨
      ∃ a, (c.plug t).rootPtr = some a ∧ a ∈ c.before ++ c.after := by
  induction c with
  | top => intro t; exact Or.inl ⟨rfl, rfl⟩
  | left a r up ih =>
    intro t
    right
    rcases ih (.node t a r) with ⟨-, h2⟩ | ⟨b, hb, hmem⟩
    · exact ⟨a, by rw [Ctx.plug, h2]; rfl, by simp [Ctx.before, Ctx.after]⟩
    · refine ⟨b, hb, ?_⟩
      simp only [Ctx.before, Ctx.after, List.mem_append, List.mem_cons] at hmem ⊢
      tauto
  | right l a up ih =>
    intro t
    right
    rcases ih (.node l a t) with ⟨-, h2⟩ | ⟨b, hb, hmem⟩
    · exact ⟨a, by rw [Ctx.plug, h2]; rfl, by simp [Ctx.before, Ctx.after]⟩
    · refine ⟨b, hb, ?_⟩
      simp only [Ctx.before, Ctx.after, List.mem_append, List.mem_cons,
        List.mem_singleton] at hmem ⊢
      tauto
theorem Shape.rootPtr_mem {s : Shape} {b : Nat} (hb : s.rootPtr = some b) : b ∈ s.inorder := by
  cases s with
  | nil => cases hb
  | node l a r =>
    simp only [Shape.rootPtr, Option.some.injEq] at hb
    subst hb
    simp [Shape.inorder]

theorem Shape.rootPtr_ne {s : Shape} {x : Nat} (hx : x ∉ s.inorder) : s.rootPtr ≠ some x :=
  fun e => hx (Shape.rootPtr_mem e)

theorem Owned.topNode {h : Heap K V} {s : Shape} {b : Nat} (ho : Owned h s)
    (hb : s.rootPtr = some b) : ∃ n, h[b]? = some n := by
  cases s with
  | nil => cases hb
  | node l a r =>
    obtain ⟨n, hn, -⟩ := ho
    simp only [Shape.rootPtr, Option.some.injEq] at hb
    subst hb
    exact ⟨n, hn⟩

theorem Owned.heightOr0 {h : Heap K V} {s : Shape} (ho : Owned h s) :
    heightOr0 h s.rootPtr = .ok (hgt h s.rootPtr) := by
  cases hs : s.rootPtr with
  | none => rfl
  | some b =>
    obtain ⟨n, hn⟩ := ho.topNode hs
    simp [heightOr0_some, hn, hgt]

theorem Owned.reads {h : Heap K V} {s : Shape} (ho : Owned h s) {x k : Nat}
    (hx : x ∉ s.inorder) (hk : k ∉ s.inorder) : Reads h x k s.rootPtr (hgt h s.rootPtr) :=
  ⟨Shape.rootPtr_ne hx, Shape.rootPtr_ne hk, ho.heightOr0⟩

theorem Ctx.plug_rootPtr_indep (c : Ctx) : ∀ t t1 : Shape, c ≠ .top →
    (c.plug t).rootPtr = (c.plug t1).rootPtr := by
  induction c with
  | top => intro _ _ h; exact absurd rfl h
  | left a r up ih =>
    intro t t1 _
    cases up with
    | top => rfl
    | left b rb up2 => exact ih _ _ (by simp)
    | right lb b up2 => exact ih _ _ (by simp)
  | right l a up ih =>
    intro t t1 _
    cases up with
    | top => rfl
    | left b rb up2 => exact ih _ _ (by simp)
    | right lb b up2 => exact ih _ _ (by simp)

theorem Ctx.addr_mem {c : Ctx} {p : Nat} (hp : c.addr = some p) : p ∈ c.before ++ c.after := by
  cases c with
  | top => cases hp
  | left a r up =>
    simp only [Ctx.addr, Option.some.injEq] at hp
    subst hp
    simp [Ctx.before, Ctx.after]
  | right l a up =>
    simp only [Ctx.addr, Option.some.injEq] at hp
    subst hp
    simp [Ctx.before, Ctx.after]

theorem keysOf_congr {h h1 : Heap K V} (L : List Nat)
    (hsame : ∀ b : Nat, (h1[b]?).map (fun n => n.elem) = (h[b]?).map (fun n => n.elem)) :
    keysOf h1 L = keysOf h L := by
  simp only [keysOf]
  congr 1
  funext a
  exact hsame a

theorem inorderKeys_owned {h : Heap K V} (s : Shape) (ho : Owned h s) :
    ∀ fuel, s.height ≤ fuel → inorderKeys h fuel s.rootPtr = some (keysOf h s.inorder) := by
  induction s with
  | nil => intro fuel _; cases fuel <;> rfl
  | node l a r ihl ihr =>
    intro fuel hf
    obtain ⟨n, hn, hlt, hrt, hl, hr⟩ := ho
    simp only [Shape.height] at hf
    obtain ⟨f, rfl⟩ : ∃ f, fuel = f + 1 := ⟨fuel - 1, by omega⟩
    show inorderKeys h (f + 1) (some a) = _
    simp only [inorderKeys, hn, hlt, hrt]
    rw [ihl hl f (by omega), ihr hr f (by omega)]
    simp [keysOf, Shape.inorder, List.filterMap_append, hn]
theorem Ctx.addr_eq_none {c : Ctx} (h : c.addr = none) : c = .top := by
  cases c <;> simp_all [Ctx.addr]

theorem CtxLinked.frame {P : Shape → Prop} {h : Heap K V} {c : Ctx} {q : Ptr} {p : Nat}
    (hc : CtxLinked P h c q) (hp : c.addr = some p) : ∃ pn, h[p]? = some pn := by
  cases c with
  | top => cases hp
  | left a r up =>
    obtain ⟨n, hn, -⟩ := hc
    simp only [Ctx.addr, Option.some.injEq] at hp
    subst hp
    exact ⟨n, hn⟩
  | right l a up =>
    obtain ⟨n, hn, -⟩ := hc
    simp only [Ctx.addr, Option.some.injEq] at hp
    subst hp
    exact ⟨n, hn⟩

theorem not_mem_of_nodup_split {L A B : List Nat} {p : Nat} (hnd : L.Nodup)
    (hL : L = A ++ p :: B) : p ∉ A ∧ p ∉ B := by
  subst hL
  have h1 := (List.nodup_cons.mp (List.nodup_middle.mp hnd)).1
  simp only [List.mem_append, not_or] at h1
  exact h1

theorem CtxLinked.relink {Q : Heap K V → Shape → Prop}
    (hQ : ∀ (h h1 : Heap K V) (r : Shape), (∀ b ∈ r.inorder, h1[b]? = h[b]?) → Q h r → Q h1 r)
    {h h1 : Heap K V} {up : Ctx} {a k : Nat}
    (hup : CtxLinked (Q h) h up (some a))
    (hnd : (up.before ++ up.after).Nodup) (ha : a ∉ up.before ++ up.after)
    (hsame : ∀ b ∈ up.before ++ up.after, up.addr ≠ some b → h1[b]? = h[b]?)
    (hp : ∀ p pn, up.addr = some p → h[p]? = some pn →
      ∃ pn1, h1[p]? = some pn1 ∧ pn1.pt = pn.pt ∧
        (pn.lt = some a → pn1.lt = some k ∧ pn1.rt = pn.rt) ∧
        (pn.lt ≠ some a → pn1.lt = pn.lt ∧ pn1.rt = some k)) :
    CtxLinked (Q h1) h1 up (some k) := by
  cases up with
  | top => trivial
  | left p pr up2 =>
    obtain ⟨pn, hpn, hplt, hprt, hppt, hQpr, hup2⟩ := hup
    obtain ⟨pn1, hpn1, hpt1, hcase1, -⟩ := hp p pn rfl hpn
    obtain ⟨hlt1, hrt1⟩ := hcase1 hplt
    obtain ⟨hpB, hpA⟩ := not_mem_of_nodup_split (A := up2.before)
      (B := pr.inorder ++ up2.after) (p := p) hnd (by simp [Ctx.before, Ctx.after])
    simp only [List.mem_append, not_or] at hpA
    have hother : ∀ b, b ∈ pr.inorder ∨ b ∈ up2.before ++ up2.after → h1[b]? = h[b]? := by
      intro b hb
      refine hsame b ?_ ?_
      · simp only [Ctx.before, Ctx.after, List.mem_append, List.mem_cons] at hb ⊢
        tauto
      · simp only [Ctx.addr, ne_eq, Option.some.injEq]
        rintro rfl
        simp only [List.mem_append] at hb
        tauto
    refine ⟨pn1, hpn1, hlt1, hrt1.trans hprt, hpt1.trans hppt,
      hQ h h1 pr (fun b hb => hother b (Or.inl hb)) hQpr, ?_⟩
    exact CtxLinked.congrC up2 _ hup2 (fun b hb => hother b (Or.inr hb))
      (fun r hr hQr => hQ h h1 r (fun b hb => hother b (Or.inr (hr b hb))) hQr)
  | right pl p up2 =>
    obtain ⟨pn, hpn, hplt, hprt, hppt, hQpl, hup2⟩ := hup
    obtain ⟨pn1, hpn1, hpt1, -, hcase2⟩ := hp p pn rfl hpn
    have hne : pn.lt ≠ some a := by
      rw [hplt]
      refine Shape.rootPtr_ne (fun hmem => ha ?_)
      simp [Ctx.before, Ctx.after, hmem]
    obtain ⟨hlt1, hrt1⟩ := hcase2 hne
    obtain ⟨hpB, hpA⟩ := not_mem_of_nodup_split (A := up2.before ++ pl.inorder)
      (B := up2.after) (p := p) hnd (by simp [Ctx.before, Ctx.after])
    simp only [List.mem_append, not_or] at hpB
    have hother : ∀ b, b ∈ pl.inorder ∨ b ∈ up2.before ++ up2.after → h1[b]? = h[b]? := by
      intro b hb
      refine hsame b ?_ ?_
      · simp only [Ctx.before, Ctx.after, List.mem_append, List.mem_cons,
          List.mem_singleton] at hb ⊢
        tauto
      · simp only [Ctx.addr, ne_eq, Option.some.injEq]
        rintro rfl
        simp only [List.mem_append] at hb
        tauto
    refine ⟨pn1, hpn1, hlt1.trans hplt, hrt1, hpt1.trans hppt,
      hQ h h1 pl (fun b hb => hother b (Or.inl hb)) hQpl, ?_⟩
    exact CtxLinked.congrC up2 _ hup2 (fun b hb => hother b (Or.inr hb))
      (fun r hr hQr => hQ h h1 r (fun b hb => hother b (Or.inr (hr b hb))) hQr)
theorem rotR_zip {Q : Heap K V → Shape → Prop}
    (hQ : ∀ (h h1 : Heap K V) (r : Shape), (∀ b ∈ r.inorder, h1[b]? = h[b]?) → Q h r → Q h1 r)
    {m : Mem K V} {up : Ctx} {a k : Nat} {l1 r1 r : Shape} {an kn : TreeNode K V}
    (hup : CtxLinked (Q m.heap) m.heap up (some a))
    (ha : m.heap[a]? = some an) (halt : an.lt = some k) (hart : an.rt = r.rootPtr)
    (hapt : an.pt = up.addr)
    (hk : m.heap[k]? = some kn) (hklt : kn.lt = l1.rootPtr) (hkrt : kn.rt = r1.rootPtr)
    (hl1 : Owned m.heap l1) (hr1 : Owned m.heap r1) (hr : Owned m.heap r)
    (hnd : (up.plug (.node (.node l1 k r1) a r)).inorder.Nodup)
    (hroot : m.tree.root = (up.plug (.node (.node l1 k r1) a r)).rootPtr) :
    ∃ h1, avlRotateRight m (some a)
        = .ok ⟨h1, { m.tree with root := (up.plug (.node l1 k (.node r1 a r))).rootPtr }⟩ ∧
      h1[a]? = some { an with
                      lt := r1.rootPtr, pt := some k,
                      height := MAX (hgt m.heap r1.rootPtr) (hgt m.heap r.rootPtr) + 1 } ∧
      h1[k]? = some { kn with
                      rt := some a, pt := up.addr,
                      height := MAX (hgt m.heap l1.rootPtr)
                        (MAX (hgt m.heap r1.rootPtr) (hgt m.heap r.rootPtr) + 1) + 1 } ∧
      (∀ b, b ∈ l1.inorder ++ r1.inorder ++ r.inorder → h1[b]? = m.heap[b]?) ∧
      (∀ b : Nat, (h1[b]?).map (fun n => (n.elem, n.info))
        = (m.heap[b]?).map (fun n => (n.elem, n.info))) ∧
      CtxLinked (Q h1) h1 up (some k) := by
  rw [Ctx.plug_inorder] at hnd
  simp only [Shape.inorder] at hnd
  simp only [List.nodup_append, List.nodup_cons, List.mem_append, List.mem_cons,
    List.disjoint_append_left, List.disjoint_append_right, List.disjoint_cons_left,
    List.disjoint_cons_right, not_or] at hnd
  obtain ⟨⟨hBnd, ⟨⟨-, ⟨hkr1, -⟩, hkl1, -⟩, ⟨har, -⟩, ⟨hal1, hak, har1⟩, -, hkr, -⟩,
      ⟨hBl1, hkB, hBr1⟩, haB, hBr⟩, hAnd, hBA, ⟨hl1A, hkA, hr1A⟩, haA, hrA⟩ := hnd
  have hfnd : (up.before ++ up.after).Nodup := List.nodup_append.mpr ⟨hBnd, hAnd, hBA⟩
  have rd1 : Reads m.heap a k kn.rt (hgt m.heap r1.rootPtr) := hkrt ▸ hr1.reads har1 hkr1
  have rd2 : Reads m.heap a k an.rt (hgt m.heap r.rootPtr) := hart ▸ hr.reads har hkr
  have rd3 : Reads m.heap a k kn.lt (hgt m.heap l1.rootPtr) := hklt ▸ hl1.reads hal1 hkl1
  have hsub : ∀ b, b ∈ l1.inorder ++ r1.inorder ++ r.inorder → b ≠ a ∧ b ≠ k := by
    intro b hb
    simp only [List.mem_append] at hb
    constructor
    · rintro rfl; rcases hb with (hb | hb) | hb
      · exact hal1 hb
      · exact har1 hb
      · exact har hb
    · rintro rfl; rcases hb with (hb | hb) | hb
      · exact hkl1 hb
      · exact hkr1 hb
      · exact hkr hb
  have hframes : ∀ b, b ∈ up.before ++ up.after → b ≠ a ∧ b ≠ k := by
    intro b hb
    simp only [List.mem_append] at hb
    constructor
    · rintro rfl; rcases hb with hb | hb
      · exact haB hb
      · exact haA hb
    · rintro rfl; rcases hb with hb | hb
      · exact hkB hb
      · exact hkA hb
  have hsubframes : ∀ b, b ∈ l1.inorder ++ r1.inorder ++ r.inorder →
      b ∉ up.before ++ up.after := by
    intro b hb hb2
    simp only [List.mem_append] at hb hb2
    rcases hb with (hb | hb) | hb <;> rcases hb2 with hb2 | hb2
    · exact hBl1 hb2 hb
    · exact hl1A hb hb2
    · exact hBr1 hb2 hb
    · exact hr1A hb hb2
    · exact hBr hb2 hb
    · exact hrA hb hb2
  have haF : a ∉ up.before ++ up.after := fun hmem => (hframes a hmem).1 rfl
  cases hpa : up.addr with
  | none =>
    have hupt := Ctx.addr_eq_none hpa
    subst hupt
    have hroot1 : m.tree.root = some a := hroot
    obtain ⟨h1, hrot, hpts⟩ := avlRotateRight_root ha hk hak halt hroot1 rd1 rd2 rd3
    refine ⟨h1, hrot, ?_, ?_, ?_, ?_, trivial⟩
    · rw [hpts]; simp [hkrt]
    · rw [hpts]; simp [Ne.symm hak, Ctx.addr]
    · intro b hb
      obtain ⟨h1b, h2b⟩ := hsub b hb
      rw [hpts]; simp [h1b, h2b]
    · intro b
      rw [hpts]
      by_cases e1 : b = a
      · subst e1; simp [ha]
      · by_cases e2 : b = k
        · subst e2; simp [e1, hk]
        · simp [e1, e2]
  | some p =>
    obtain ⟨pn, hp⟩ := hup.frame hpa
    have hpmem : p ∈ up.before ++ up.after := Ctx.addr_mem hpa
    obtain ⟨hpa1, hpk⟩ := hframes p hpmem
    have hupne : up ≠ .top := by rintro rfl; cases hpa
    have hrootmem : ∃ b, m.tree.root = some b ∧ b ∈ up.before ++ up.after := by
      rcases Ctx.plug_rootPtr up (.node (.node l1 k r1) a r) with ⟨e, -⟩ | h
      · exact absurd e hupne
      · rw [hroot]; exact h
    obtain ⟨rb, hrb, hrbmem⟩ := hrootmem
    obtain ⟨hrba, hrbk⟩ := hframes rb hrbmem
    have hrooty : m.tree.root ≠ some a := by rw [hrb]; simpa using hrba
    have hrootk : m.tree.root ≠ some k := by rw [hrb]; simpa using hrbk
    obtain ⟨h1, hrot, hpts⟩ := avlRotateRight_inner ha hk hp hak hpa1 hpk halt
      (hapt.trans hpa) hrooty hrootk rd1 rd2 rd3
    have hrooteq : (Ctx.plug up (.node l1 k (.node r1 a r))).rootPtr = m.tree.root := by
      rw [hroot]; exact Ctx.plug_rootPtr_indep _ _ _ hupne
    refine ⟨h1, ?_, ?_, ?_, ?_, ?_, ?_⟩
    · rw [hrot, hrooteq]
    · rw [hpts]; simp [hkrt]
    · rw [hpts]; simp [Ne.symm hak, hpa]
    · intro b hb
      obtain ⟨h1b, h2b⟩ := hsub b hb
      have h3b : b ≠ p := fun e => hsubframes b hb (e ▸ hpmem)
      rw [hpts]; simp [h1b, h2b, h3b]
    · intro b
      rw [hpts]
      by_cases e1 : b = a
      · subst e1; simp [ha]
      · by_cases e2 : b = k
        · subst e2; simp [e1, hk]
        · by_cases e3 : b = p
          · subst e3; simp [e1, e2, hp]; split_ifs <;> simp
          · simp [e1, e2, e3]
    · refine CtxLinked.relink hQ hup hfnd haF ?_ ?_
      · intro b hb hbp
        obtain ⟨h1b, h2b⟩ := hframes b hb
        have h3b : b ≠ p := fun e => hbp (by rw [hpa, e])
        rw [hpts]; simp [h1b, h2b, h3b]
      · intro p1 pn1 hp1 hpn1
        rw [hpa] at hp1
        cases hp1
        have e : pn1 = pn := by rw [hp] at hpn1; exact (Option.some.inj hpn1).symm
        rw [e]
        refine ⟨if pn.lt = some a then { pn with lt := some k } else { pn with rt := some k },
          by rw [hpts]; simp [hpa1, hpk], ?_, ?_, ?_⟩
        · split_ifs <;> rfl
        · intro hl; simp [hl]
        · intro hl; simp [hl]
theorem rotL_zip {Q : Heap K V → Shape → Prop}
    (hQ : ∀ (h h1 : Heap K V) (r : Shape), (∀ b ∈ r.inorder, h1[b]? = h[b]?) → Q h r → Q h1 r)
    {m : Mem K V} {up : Ctx} {x k : Nat} {l rl rr : Shape} {xn kn : TreeNode K V}
    (hup : CtxLinked (Q m.heap) m.heap up (some x))
    (hx : m.heap[x]? = some xn) (hxrt : xn.rt = some k) (hxlt : xn.lt = l.rootPtr)
    (hxpt : xn.pt = up.addr)
    (hk : m.heap[k]? = some kn) (hklt : kn.lt = rl.rootPtr)
    (hl : Owned m.heap l) (hrl : Owned m.heap rl)
    (hnd : (up.plug (.node l x (.node rl k rr))).inorder.Nodup)
    (hroot : m.tree.root = (up.plug (.node l x (.node rl k rr))).rootPtr) :
    ∃ h1, avlRotateLeft m (some x)
        = .ok ⟨h1, { m.tree with root := (up.plug (.node (.node l x rl) k rr)).rootPtr }⟩ ∧
      h1[x]? = some { xn with
                      rt := rl.rootPtr, pt := some k,
                      height := MAX (hgt m.heap l.rootPtr) (hgt m.heap rl.rootPtr) + 1 } ∧
      h1[k]? = some { kn with
                      lt := some x, pt := up.addr,
                      height := MAX (MAX (hgt m.heap l.rootPtr) (hgt m.heap rl.rootPtr) + 1)
                        (MAX (hgt m.heap l.rootPtr) (hgt m.heap rl.rootPtr) + 1) + 1 } ∧
      (∀ b, b ∈ l.inorder ++ rl.inorder ++ rr.inorder → h1[b]? = m.heap[b]?) ∧
      (∀ b : Nat, (h1[b]?).map (fun n => (n.elem, n.info))
        = (m.heap[b]?).map (fun n => (n.elem, n.info))) ∧
      CtxLinked (Q h1) h1 up (some k) := by
  rw [Ctx.plug_inorder] at hnd
  simp only [Shape.inorder] at hnd
  simp only [List.nodup_append, List.nodup_cons, List.mem_append, List.mem_cons,
    List.disjoint_append_left, List.disjoint_append_right, List.disjoint_cons_left,
    List.disjoint_cons_right, not_or] at hnd
  obtain ⟨⟨hBnd, ⟨-, ⟨⟨hxrl, hxk, hxrr⟩, -, ⟨hkrr, -⟩, hkrl, -⟩, hxl, -, hkl, -⟩,
      hBl, hxB, hBrl, hkB, hBrr⟩, hAnd, hBA, hlA, hxA, hrlA, hkA, hrrA⟩ := hnd
  have hfnd : (up.before ++ up.after).Nodup := List.nodup_append.mpr ⟨hBnd, hAnd, hBA⟩
  have rd1 : Reads m.heap x k kn.lt (hgt m.heap rl.rootPtr) := hklt ▸ hrl.reads hxrl hkrl
  have rd2 : Reads m.heap x k xn.lt (hgt m.heap l.rootPtr) := hxlt ▸ hl.reads hxl hkl
  have hsub : ∀ b, b ∈ l.inorder ++ rl.inorder ++ rr.inorder → b ≠ x ∧ b ≠ k := by
    intro b hb
    simp only [List.mem_append] at hb
    constructor
    · rintro rfl; rcases hb with (hb | hb) | hb
      · exact hxl hb
      · exact hxrl hb
      · exact hxrr hb
    · rintro rfl; rcases hb with (hb | hb) | hb
      · exact hkl hb
      · exact hkrl hb
      · exact hkrr hb
  have hframes : ∀ b, b ∈ up.before ++ up.after → b ≠ x ∧ b ≠ k := by
    intro b hb
    simp only [List.mem_append] at hb
    constructor
    · rintro rfl; rcases hb with hb | hb
      · exact hxB hb
      · exact hxA hb
    · rintro rfl; rcases hb with hb | hb
      · exact hkB hb
      · exact hkA hb
  have hsubframes : ∀ b, b ∈ l.inorder ++ rl.inorder ++ rr.inorder →
      b ∉ up.before ++ up.after := by
    intro b hb hb2
    simp only [List.mem_append] at hb hb2
    rcases hb with (hb | hb) | hb <;> rcases hb2 with hb2 | hb2
    · exact hBl hb2 hb
    · exact hlA hb hb2
    · exact hBrl hb2 hb
    · exact hrlA hb hb2
    · exact hBrr hb2 hb
    · exact hrrA hb hb2
  have hxF : x ∉ up.before ++ up.after := fun hmem => (hframes x hmem).1 rfl
  cases hpa : up.addr with
  | none =>
    have hupt := Ctx.addr_eq_none hpa
    subst hupt
    have hroot1 : m.tree.root = some x := hroot
    obtain ⟨h1, hrot, hpts⟩ := avlRotateLeft_root hx hk hxk hxrt hroot1 rd1 rd2
    refine ⟨h1, hrot, ?_, ?_, ?_, ?_, trivial⟩
    · rw [hpts]; simp [hklt]
    · rw [hpts]; simp [Ne.symm hxk, Ctx.addr]
    · intro b hb
      obtain ⟨h1b, h2b⟩ := hsub b hb
      rw [hpts]; simp [h1b, h2b]
    · intro b
      rw [hpts]
      by_cases e1 : b = x
      · subst e1; simp [hx]
      · by_cases e2 : b = k
        · subst e2; simp [e1, hk]
        · simp [e1, e2]
  | some p =>
    obtain ⟨pn, hp⟩ := hup.frame hpa
    have hpmem : p ∈ up.before ++ up.after := Ctx.addr_mem hpa
    obtain ⟨hpx, hpk⟩ := hframes p hpmem
    have hupne : up ≠ .top := by rintro rfl; cases hpa
    have hrootmem : ∃ b, m.tree.root = some b ∧ b ∈ up.before ++ up.after := by
      rcases Ctx.plug_rootPtr up (.node l x (.node rl k rr)) with ⟨e, -⟩ | h
      · exact absurd e hupne
      · rw [hroot]; exact h
    obtain ⟨rb, hrb, hrbmem⟩ := hrootmem
    obtain ⟨hrbx, hrbk⟩ := hframes rb hrbmem
    have hrootx : m.tree.root ≠ some x := by rw [hrb]; simpa using hrbx
    have hrootk : m.tree.root ≠ some k := by rw [hrb]; simpa using hrbk
    obtain ⟨h1, hrot, hpts⟩ := avlRotateLeft_inner hx hk hp hxk hpx hpk hxrt
      (hxpt.trans hpa) hrootx hrootk rd1 rd2
    have hrooteq : (Ctx.plug up (.node (.node l x rl) k rr)).rootPtr = m.tree.root := by
      rw [hroot]; exact Ctx.plug_rootPtr_indep _ _ _ hupne
    -- the node above links to `x` on one side or the other
    have hlinkx : pn.lt = some x ∨ pn.rt = some x := by
      cases up with
      | top => cases hpa
      | left p1 pr up2 =>
        obtain ⟨n1, hn1, hlt1, -⟩ := hup
        simp only [Ctx.addr, Option.some.injEq] at hpa
        subst hpa
        rw [hp] at hn1; cases hn1
        exact Or.inl hlt1
      | right pl p1 up2 =>
        obtain ⟨n1, hn1, -, hrt1, -⟩ := hup
        simp only [Ctx.addr, Option.some.injEq] at hpa
        subst hpa
        rw [hp] at hn1; cases hn1
        exact Or.inr hrt1
    refine ⟨h1, ?_, ?_, ?_, ?_, ?_, ?_⟩
    · rw [hrot, hrooteq]
    · rw [hpts]; simp [hklt]
    · rw [hpts]; simp [Ne.symm hxk, hpa]
    · intro b hb
      obtain ⟨h1b, h2b⟩ := hsub b hb
      have h3b : b ≠ p := fun e => hsubframes b hb (e ▸ hpmem)
      rw [hpts]; simp [h1b, h2b, h3b]
    · intro b
      rw [hpts]
      by_cases e1 : b = x
      · subst e1; simp [hx]
      · by_cases e2 : b = k
        · subst e2; simp [e1, hk]
        · by_cases e3 : b = p
          · subst e3; simp [e1, e2, hp]; split_ifs <;> simp
          · simp [e1, e2, e3]
    · refine CtxLinked.relink hQ hup hfnd hxF ?_ ?_
      · intro b hb hbp
        obtain ⟨h1b, h2b⟩ := hframes b hb
        have h3b : b ≠ p := fun e => hbp (by rw [hpa, e])
        rw [hpts]; simp [h1b, h2b, h3b]
      · intro p1 pn1 hp1 hpn1
        rw [hpa] at hp1
        cases hp1
        have e : pn1 = pn := by rw [hp] at hpn1; exact (Option.some.inj hpn1).symm
        rw [e]
        refine ⟨if pn.lt = some x then { pn with lt := some k }
          else if pn.rt = some x then { pn with rt := some k } else pn,
          by rw [hpts]; simp [hpx, hpk], ?_, ?_, ?_⟩
        · split_ifs <;> rfl
        · intro hl; simp [hl]
        · intro hl
          rcases hlinkx with h | h
          · exact absurd h hl
          · simp [hl, h]
theorem Owned.congr_fam (h h1 : Heap K V) (r : Shape)
    (hsame : ∀ b ∈ r.inorder, h1[b]? = h[b]?) (ho : Owned h r) : Owned h1 r :=
  ho.congr r hsame

theorem elem_of_pair {h h1 : Heap K V}
    (hp : ∀ b : Nat, (h1[b]?).map (fun n => (n.elem, n.info))
      = (h[b]?).map (fun n => (n.elem, n.info))) (b : Nat) :
    (h1[b]?).map (fun n => n.elem) = (h[b]?).map (fun n => n.elem) := by
  have := congrArg (Option.map Prod.fst) (hp b)
  simpa [Option.map_map, Function.comp] using this

theorem rotateLeft_inorder {m : Mem K V} {s : Shape} {x : Nat} {xn : TreeNode K V}
    (hlink : Linked m.heap none s) (hnd : s.inorder.Nodup) (hroot : m.tree.root = s.rootPtr)
    (hx : x ∈ s.inorder) (hxn : m.heap[x]? = some xn) (hrt : xn.rt ≠ none) :
    ∃ m1, avlRotateLeft m (some x) = .ok m1 ∧ ∀ fuel, s.size ≤ fuel →
      inorderKeys m1.heap fuel m1.tree.root = some (keysOf m.heap s.inorder) := by
  obtain ⟨c, l, r, rfl⟩ := Shape.split_of_mem hx
  obtain ⟨hup, xn1, hxn1, hxpt, hxlt, hxrt, hl, hr⟩ := Linked.unplug c _ hlink
  rw [hxn] at hxn1; cases hxn1
  cases r with
  | nil => exact absurd hxrt hrt
  | node rl k rr =>
    obtain ⟨kn, hk, -, hklt, hkrt, hrl, hrr⟩ := hr
    obtain ⟨h1, hrot, hx1, hk1, hsame, hkeys, hup1⟩ := rotL_zip Owned.congr_fam hup hxn hxrt hxlt
      hxpt hk hklt (hl.owned _ _) (hrl.owned _ _) hnd hroot
    refine ⟨_, hrot, fun fuel hf => ?_⟩
    have hown : Owned h1 (c.plug (.node (.node l x rl) k rr)) := by
      refine Owned.plug (fun r hr => hr) c _ hup1 ?_
      refine ⟨_, hk1, rfl, hkrt, ⟨_, hx1, hxlt, rfl, ?_, ?_⟩, ?_⟩
      · exact (hl.owned _ _).congr _ (fun b hb => hsame b (by simp [hb]))
      · exact (hrl.owned _ _).congr _ (fun b hb => hsame b (by simp [hb]))
      · exact (hrr.owned _ _).congr _ (fun b hb => hsame b (by simp [hb]))
    have hsz : (c.plug (.node (.node l x rl) k rr)).height ≤ fuel := by
      refine le_trans (Shape.height_le_size _) ?_
      rw [Ctx.plug_size] at hf ⊢
      simp only [Shape.size] at hf ⊢
      omega
    have := inorderKeys_owned _ hown fuel hsz
    simp only [] at this ⊢
    rw [this, keysOf_congr _ (elem_of_pair hkeys), Ctx.plug_inorder, Ctx.plug_inorder]
    simp [Shape.inorder]

theorem rotateRight_inorder {m : Mem K V} {s : Shape} {y : Nat} {yn : TreeNode K V}
    (hlink : Linked m.heap none s) (hnd : s.inorder.Nodup) (hroot : m.tree.root = s.rootPtr)
    (hy : y ∈ s.inorder) (hyn : m.heap[y]? = some yn) (hlt : yn.lt ≠ none) :
    ∃ m1, avlRotateRight m (some y) = .ok m1 ∧ ∀ fuel, s.size ≤ fuel →
      inorderKeys m1.heap fuel m1.tree.root = some (keysOf m.heap s.inorder) := by
  obtain ⟨c, l, r, rfl⟩ := Shape.split_of_mem hy
  obtain ⟨hup, yn1, hyn1, hypt, hylt, hyrt, hl, hr⟩ := Linked.unplug c _ hlink
  rw [hyn] at hyn1; cases hyn1
  cases l with
  | nil => exact absurd hylt hlt
  | node ll k lr =>
    obtain ⟨kn, hk, -, hklt, hkrt, hll, hlr⟩ := hl
    obtain ⟨h1, hrot, hy1, hk1, hsame, hkeys, hup1⟩ := rotR_zip Owned.congr_fam hup hyn hylt hyrt
      hypt hk hklt hkrt (hll.owned _ _) (hlr.owned _ _) (hr.owned _ _) hnd hroot
    refine ⟨_, hrot, fun fuel hf => ?_⟩
    have hown : Owned h1 (c.plug (.node ll k (.node lr y r))) := by
      refine Owned.plug (fun r hr => hr) c _ hup1 ?_
      refine ⟨_, hk1, hklt, rfl, ?_, ⟨_, hy1, rfl, hyrt, ?_, ?_⟩⟩
      · exact (hll.owned _ _).congr _ (fun b hb => hsame b (by simp [hb]))
      · exact (hlr.owned _ _).congr _ (fun b hb => hsame b (by simp [hb]))
      · exact (hr.owned _ _).congr _ (fun b hb => hsame b (by simp [hb]))
    have hsz : (c.plug (.node ll k (.node lr y r))).height ≤ fuel := by
      refine le_trans (Shape.height_le_size _) ?_
      rw [Ctx.plug_size] at hf ⊢
      simp only [Shape.size] at hf ⊢
      omega
    have := inorderKeys_owned _ hown fuel hsz
    simp only [] at this ⊢
    rw [this, keysOf_congr _ (elem_of_pair hkeys), Ctx.plug_inorder, Ctx.plug_inorder]
    simp [Shape.inorder]

/-- C19: rotations preserve the in-order key sequence.  In a heap holding a
tree `s` (all addresses distinct) whose parent links mirror its child links
and whose top is the root of the map, for every node `x` of the tree: if `x`
has a right child then `avlRotateLeft` at `x` returns, if `x` has a left child
then `avlRotateRight` at `x` returns, and in both cases the in-order walk along
the child links from the new root reads, for any fuel of at least the number
of nodes, the same key sequence as the walk from the old root before the
rotation. -/
theorem rotations_preserve_inorder (m : Mem K V) (s : Shape) (x : Nat) (xn : TreeNode K V)
    (hlink : Linked m.heap none s) (hnd : s.inorder.Nodup) (hroot : m.tree.root = s.rootPtr)
    (hx : x ∈ s.inorder) (hxn : m.heap[x]? = some xn) :
    (∀ fuel, s.size ≤ fuel →
      inorderKeys m.heap fuel m.tree.root = some (keysOf m.heap s.inorder)) ∧
    (xn.rt ≠ none → ∃ m1, avlRotateLeft m (some x) = .ok m1 ∧ ∀ fuel, s.size ≤ fuel →
      inorderKeys m1.heap fuel m1.tree.root = inorderKeys m.heap fuel m.tree.root) ∧
    (xn.lt ≠ none → ∃ m1, avlRotateRight m (some x) = .ok m1 ∧ ∀ fuel, s.size ≤ fuel →
      inorderKeys m1.heap fuel m1.tree.root = inorderKeys m.heap fuel m.tree.root) := by
  have hbefore : ∀ fuel, s.size ≤ fuel →
      inorderKeys m.heap fuel m.tree.root = some (keysOf m.heap s.inorder) := by
    intro fuel hf
    rw [hroot]
    exact inorderKeys_owned s (hlink.owned _ _) fuel (le_trans s.height_le_size hf)
  refine ⟨hbefore, fun hrt => ?_, fun hlt => ?_⟩
  · obtain ⟨m1, hrot, hk⟩ := rotateLeft_inorder hlink hnd hroot hx hxn hrt
    exact ⟨m1, hrot, fun fuel hf => (hk fuel hf).trans (hbefore fuel hf).symm⟩
  · obtain ⟨m1, hrot, hk⟩ := rotateRight_inorder hlink hnd hroot hx hxn hlt
    exact ⟨m1, hrot, fun fuel hf => (hk fuel hf).trans (hbefore fuel hf).symm⟩
/-- C19 on the balanced tree 2(1, 4(3, 5)), at its root. -/
theorem rotations_preserve_inorder_witness :
    Linked tree21435.heap none shape21435 ∧ shape21435.inorder.Nodup ∧
    tree21435.tree.root = shape21435.rootPtr ∧ 0 ∈ shape21435.inorder ∧
    tree21435.heap[0]? = some (mkNode 2 none (some 1) (some 2) 3) ∧
    (∀ fuel, shape21435.size ≤ fuel →
      inorderKeys tree21435.heap fuel tree21435.tree.root
        = some (keysOf tree21435.heap shape21435.inorder)) ∧
    ((mkNode 2 none (some 1) (some 2) 3).rt ≠ none →
      ∃ m1, avlRotateLeft tree21435 (some 0) = .ok m1 ∧ ∀ fuel, shape21435.size ≤ fuel →
        inorderKeys m1.heap fuel m1.tree.root
          = inorderKeys tree21435.heap fuel tree21435.tree.root) ∧
    ((mkNode 2 none (some 1) (some 2) 3).lt ≠ none →
      ∃ m1, avlRotateRight tree21435 (some 0) = .ok m1 ∧ ∀ fuel, shape21435.size ≤ fuel →
        inorderKeys m1.heap fuel m1.tree.root
          = inorderKeys tree21435.heap fuel tree21435.tree.root) :=
  ⟨linked21435, by decide, rfl, by decide, rfl,
    rotations_preserve_inorder tree21435 shape21435 0 _ linked21435 (by decide) rfl
      (by decide) rfl⟩

/-! ## Insertion of a new key

The descent of `insert` attaches the new node below a leaf position; the walk
of `avlFixUp` then climbs the path to the root, and at every node of the path
it either only recomputes the cached height or restores the balance by one or
two rotations.  The climb is followed on a tree with a hole (`Ctx`), with the
invariant `FixInv`. -/

theorem store_of_get {h : Heap K V} {a : Nat} {n : TreeNode K V} (hn : h[a]? = some n)
    (f : TreeNode K V → TreeNode K V) : store h (some a) f = .ok (h.set a (f n)) := by
  simp [store, hn]

theorem get_set_same {h : Heap K V} {a : Nat} {n : TreeNode K V} (hn : h[a]? = some n)
    (n1 : TreeNode K V) : (h.set a n1)[a]? = some n1 :=
  List.getElem?_set_self (lt_length_of_get hn)

theorem get_set_diff {h : Heap K V} {a b : Nat} (hab : a ≠ b) (n1 : TreeNode K V) :
    (h.set a n1)[b]? = h[b]? :=
  List.getElem?_set_ne hab

theorem Good.congrG (h h1 : Heap K V) (r : Shape)
    (hsame : ∀ b ∈ r.inorder, h1[b]? = h[b]?) (hg : Good h r) : Good h1 r :=
  ⟨hg.1.congr r hsame, hg.2.1.congrH r hsame, hg.2.2⟩

theorem Heights.hgt_eq {h : Heap K V} {s : Shape} (hh : Heights h s) :
    hgt h s.rootPtr = (s.height : Int) := by
  cases s with
  | nil => rfl
  | node l a r =>
    obtain ⟨n, hn, hhn, -, -⟩ := hh
    simp [Shape.rootPtr, hgt, hn, hhn]

theorem MAX_cast (a b : Nat) : MAX (a : Int) (b : Int) + 1 = ((1 + max a b : Nat) : Int) := by
  unfold MAX
  split_ifs with h
  · have : b ≤ a := by exact_mod_cast h
    simp [max_eq_left this]; omega
  · have : a ≤ b := by
      have : (a : Int) < b := lt_of_not_ge h
      exact_mod_cast this.le
    simp [max_eq_right this]; omega

theorem Good.readHeight {h : Heap K V} {s : Shape} (hg : Good h s) :
    heightOr0 h s.rootPtr = .ok (s.height : Int) := by
  rw [hg.1.heightOr0, hg.2.1.hgt_eq]

theorem updateHeight_node {h : Heap K V} {a : Nat} {an : TreeNode K V} {v1 v2 : Int}
    (ha : h[a]? = some an) (h1 : heightOr0 h an.lt = .ok v1) (h2 : heightOr0 h an.rt = .ok v2) :
    updateHeight h (some a) = .ok (h.set a { an with height := MAX v1 v2 + 1 }) := by
  simp [updateHeight, load_of_get ha, ok_bind, h1, h2, store_of_get ha]

theorem avlGetBalance_node {h : Heap K V} {a : Nat} {an : TreeNode K V} {v1 v2 : Int}
    (ha : h[a]? = some an) (h1 : heightOr0 h an.lt = .ok v1) (h2 : heightOr0 h an.rt = .ok v2) :
    avlGetBalance h (some a) = .ok (v1 - v2) := by
  simp [avlGetBalance, load_of_get ha, ok_bind, h1, h2]

theorem get_set_if {h : Heap K V} {a : Nat} {an : TreeNode K V} (ha : h[a]? = some an)
    (n1 : TreeNode K V) (b : Nat) :
    (h.set a n1)[b]? = if b = a then some n1 else h[b]? := by
  by_cases e : b = a
  · subst e; simp [get_set_same ha]
  · simp [e, get_set_diff (Ne.symm e)]
theorem Owned.node_of_mem {h : Heap K V} (s : Shape) (ho : Owned h s) {b : Nat}
    (hb : b ∈ s.inorder) : ∃ n, h[b]? = some n := by
  induction s with
  | nil => simp [Shape.inorder] at hb
  | node l a r ihl ihr =>
    obtain ⟨n, hn, -, -, hl, hr⟩ := ho
    simp only [Shape.inorder, List.mem_append, List.mem_cons] at hb
    rcases hb with hb | rfl | hb
    · exact ihl hl hb
    · exact ⟨n, hn⟩
    · exact ihr hr hb

theorem KeyLt.congr_heap {cmp : K → K → Int} {h h1 : Heap K V}
    (hsame : ∀ b : Nat, (h1[b]?).map (fun n => (n.elem, n.info))
      = (h[b]?).map (fun n => (n.elem, n.info)))
    {a b : Nat} (hab : KeyLt cmp h a b) : KeyLt cmp h1 a b := by
  obtain ⟨na, nb, ha, hb, hlt⟩ := hab
  have ea := hsame a
  have eb := hsame b
  rw [ha] at ea
  rw [hb] at eb
  cases ha1 : h1[a]? with
  | none => rw [ha1] at ea; cases ea
  | some na1 =>
    cases hb1 : h1[b]? with
    | none => rw [hb1] at eb; cases eb
    | some nb1 =>
      rw [ha1] at ea
      rw [hb1] at eb
      simp only [Option.map_some', Option.some.injEq, Prod.mk.injEq] at ea eb
      exact ⟨na1, nb1, ha1, hb1, by rw [ea.1, eb.1]; exact hlt⟩

theorem pairwise_congr_heap {cmp : K → K → Int} {h h1 : Heap K V}
    (hsame : ∀ b : Nat, (h1[b]?).map (fun n => (n.elem, n.info))
      = (h[b]?).map (fun n => (n.elem, n.info)))
    {L : List Nat} (hp : L.Pairwise (KeyLt cmp h)) : L.Pairwise (KeyLt cmp h1) :=
  hp.imp (fun hab => KeyLt.congr_heap hsame hab)

theorem pair_set_same {h : Heap K V} {a : Nat} {an p : TreeNode K V} (ha : h[a]? = some an)
    (he : p.elem = an.elem) (hi : p.info = an.info) (b : Nat) :
    ((h.set a p)[b]?).map (fun n => (n.elem, n.info))
      = (h[b]?).map (fun n => (n.elem, n.info)) := by
  rw [get_set_if ha]
  by_cases e : b = a
  · subst e; simp [ha, he, hi]
  · simp [e]
theorem Good.set_root {h : Heap K V} {a : Nat} {an p : TreeNode K V} {L R : Shape}
    (ha : h[a]? = some an) (hlt : p.lt = L.rootPtr) (hrt : p.rt = R.rootPtr)
    (hh : p.height = ((Shape.node L a R).height : Int))
    (hL : Good h L) (hR : Good h R) (haL : a ∉ L.inorder) (haR : a ∉ R.inorder)
    (hb1 : L.height ≤ R.height + 1) (hb2 : R.height ≤ L.height + 1) :
    Good (h.set a p) (.node L a R) := by
  have sL : ∀ b ∈ L.inorder, (h.set a p)[b]? = h[b]? := by
    intro b hb
    exact get_set_diff (by intro e; subst e; exact haL hb) _
  have sR : ∀ b ∈ R.inorder, (h.set a p)[b]? = h[b]? := by
    intro b hb
    exact get_set_diff (by intro e; subst e; exact haR hb) _
  obtain ⟨oL, cL, bL⟩ : Good (h.set a p) L := Good.congrG _ _ _ sL hL
  obtain ⟨oR, cR, bR⟩ : Good (h.set a p) R := Good.congrG _ _ _ sR hR
  exact ⟨⟨_, get_set_same ha _, hlt, hrt, oL, oR⟩,
    ⟨_, get_set_same ha _, hh, cL, cR⟩, hb1, hb2, bL, bR⟩

/-- One turn of the loop of `avlFixUp` at a node whose two subtrees are in good
standing and differ in height by at most 1: the cached height is recomputed
and the walk moves to the parent. -/
theorem fix_settle (y : Ptr) (fuel : Nat) {m : Mem K V} {a : Nat} {an : TreeNode K V}
    {L R : Shape}
    (ha : m.heap[a]? = some an) (hlt : an.lt = L.rootPtr) (hrt : an.rt = R.rootPtr)
    (hL : Good m.heap L) (hR : Good m.heap R) (haL : a ∉ L.inorder) (haR : a ∉ R.inorder)
    (hb1 : L.height ≤ R.height + 1) (hb2 : R.height ≤ L.height + 1) :
    avlFixUpLoop y (fuel + 1) m (some a) = avlFixUpLoop y fuel
      ⟨m.heap.set a { an with height := ((Shape.node L a R).height : Int) }, m.tree⟩ an.pt := by
  have e1 : heightOr0 m.heap an.lt = .ok (L.height : Int) := by rw [hlt]; exact hL.readHeight
  have e2 : heightOr0 m.heap an.rt = .ok (R.height : Int) := by rw [hrt]; exact hR.readHeight
  have hu := updateHeight_node ha e1 e2
  rw [MAX_cast] at hu
  generalize hn1 : ({ an with height := ((1 + max L.height R.height : Nat) : Int) }
    : TreeNode K V) = n1 at hu
  have n1lt : n1.lt = an.lt := by rw [← hn1]
  have n1rt : n1.rt = an.rt := by rw [← hn1]
  have n1pt : n1.pt = an.pt := by rw [← hn1]
  have n1h : n1.height = ((Shape.node L a R).height : Int) := by rw [← hn1]; rfl
  have hg := Good.set_root ha (n1lt.trans hlt) (n1rt.trans hrt) n1h hL hR haL haR hb1 hb2
  have hget : (m.heap.set a n1)[a]? = some n1 := get_set_same ha _
  obtain ⟨⟨-, -, -, -, oL, oR⟩, ⟨-, -, -, cL, cR⟩, -, -, bL, bR⟩ := hg
  have gL : Good (m.heap.set a n1) L := ⟨oL, cL, bL⟩
  have gR : Good (m.heap.set a n1) R := ⟨oR, cR, bR⟩
  have e3 : heightOr0 (m.heap.set a n1) n1.lt = .ok (L.height : Int) := by
    rw [n1lt, hlt]; exact gL.readHeight
  have e4 : heightOr0 (m.heap.set a n1) n1.rt = .ok (R.height : Int) := by
    rw [n1rt, hrt]; exact gR.readHeight
  have hbal := avlGetBalance_node hget e3 e4
  have := fixUp_step_plain (y := y) (m := m) fuel hu hbal (by omega) (by omega) (load_of_get hget)
  rw [this, n1pt]
  show _ = avlFixUpLoop y fuel ⟨m.heap.set a
    { an with height := ((1 + max L.height R.height : Nat) : Int) }, m.tree⟩ an.pt
  rw [hn1]
theorem nodup_plug_node {c : Ctx} {L R : Shape} {a : Nat}
    (hnd : (c.plug (.node L a R)).inorder.Nodup) :
    a ∉ L.inorder ∧ a ∉ R.inorder ∧ a ∉ c.before ++ c.after ∧
      (∀ b ∈ L.inorder, b ∉ c.before ++ c.after) ∧
      (∀ b ∈ R.inorder, b ∉ c.before ++ c.after) ∧
      (∀ b ∈ L.inorder, b ∉ R.inorder) ∧
      (c.before ++ c.after).Nodup ∧ L.inorder.Nodup ∧ R.inorder.Nodup := by
  rw [Ctx.plug_inorder] at hnd
  simp only [Shape.inorder] at hnd
  have h1 := not_mem_of_nodup_split (A := c.before ++ L.inorder)
    (B := R.inorder ++ c.after) (p := a) hnd (by simp [List.append_assoc])
  simp only [List.mem_append, not_or] at h1
  have h2 : (c.before ++ (L.inorder ++ (a :: R.inorder)) ++ c.after).Nodup := by
    simpa [List.append_assoc] using hnd
  rw [List.nodup_append] at h2
  obtain ⟨h3, h4, h5⟩ := h2
  rw [List.nodup_append] at h3
  obtain ⟨h6, h7, h8⟩ := h3
  rw [List.nodup_append] at h7
  obtain ⟨h9, h10, h11⟩ := h7
  rw [List.nodup_cons] at h10
  simp only [List.mem_append, not_or]
  refine ⟨h1.1.2, h1.2.1, ⟨h1.1.1, h1.2.2⟩, ?_, ?_, ?_, ?_, h9, h10.2⟩
  · intro b hb
    exact ⟨fun hb2 => h8 hb2 (List.mem_append_left _ hb),
      fun hb2 => h5 (List.mem_append_right _ (List.mem_append_left _ hb)) hb2⟩
  · intro b hb
    exact ⟨fun hb2 => h8 hb2 (List.mem_append_right _ (List.mem_cons_of_mem _ hb)),
      fun hb2 => h5 (List.mem_append_right _
        (List.mem_append_right _ (List.mem_cons_of_mem _ hb))) hb2⟩
  · intro b hb hb2
    exact h11 hb (List.mem_cons_of_mem _ hb2)
  · rw [List.nodup_append]
    refine ⟨h6, h4, ?_⟩
    intro b hb hb2
    exact h5 (List.mem_append_left _ hb) hb2

/-- A round at a node whose left subtree holds the new node and no rotation is due. -/
theorem fix_left_plain {cmp : K → K → Int} (hc : StrictTotal cmp) {m : Mem K V} {a : Nat}
    {r : Shape} {up : Ctx} {f : Shape} {y hold : Nat}
    (inv : FixInv cmp m (.left a r up) f y hold)
    (hb1 : f.height ≤ r.height + 1) :
    FixStep cmp y m (.left a r up) f up (1 + max hold r.height) := by
  obtain ⟨an, ha, hlt, hrt, hpt, hr, hup⟩ := inv.ctx
  have hnd := pairwise_nodup hc inv.order
  obtain ⟨haf, har, hau, -, -, -, -, -, -⟩ := nodup_plug_node (c := up) hnd
  obtain ⟨hbal1, hbal2, hbal3⟩ := inv.bal
  have hb2 : r.height ≤ f.height + 1 := by
    rcases inv.grow with e | ⟨e, -⟩ <;> omega
  have hs := fun fuel => fix_settle (some y) fuel ha hlt hrt inv.good hr haf har hb1 hb2
  have hg := Good.set_root (p := { an with height := ((Shape.node f a r).height : Int) })
    ha hlt hrt rfl inv.good hr haf har hb1 hb2
  have hsame := pair_set_same (p := { an with height := ((Shape.node f a r).height : Int) })
    ha rfl rfl
  refine ⟨⟨m.heap.set a { an with height := ((Shape.node f a r).height : Int) }, m.tree⟩,
    .node f a r, 1, by omega, fun fuel => by rw [← hpt]; exact hs fuel, ?_, rfl, hsame, rfl⟩
  refine ⟨?_, hg, ⟨a, _, rfl, get_set_same ha _, hpt⟩, inv.root,
    pairwise_congr_heap hsame inv.order, ?_, hbal3, ?_, inv.cmpeq⟩
  · refine CtxLinked.congrC up _ hup ?_ ?_
    · intro b hb
      exact get_set_diff (by intro e; subst e; exact hau hb) _
    · intro s hs2 hgs
      refine Good.congrG _ _ _ ?_ hgs
      intro b hb
      exact get_set_diff (by intro e; subst e; exact hau (hs2 _ hb)) _
  · simp [Shape.inorder, inv.ymem]
  · rcases inv.grow with e | ⟨e, hgr⟩
    · left; simp [Shape.height, e]
    · by_cases h3 : r.height ≤ hold
      · right
        refine ⟨by simp [Shape.height]; omega, Or.inr (Or.inl ⟨inv.ymem, by omega⟩)⟩
      · left; simp [Shape.height]; omega
/-- A right rotation at `a` inside a tree with a hole, on subtrees in good
standing: afterwards `a` with its new subtrees is in good standing again and
the former left child `k` is linked in its place. -/
theorem rotR_good {m : Mem K V} {c : Ctx} {a k : Nat} {L r1 r : Shape}
    {an kn : TreeNode K V}
    (hup : CtxLinked (Good m.heap) m.heap c (some a))
    (ha : m.heap[a]? = some an) (halt : an.lt = some k) (hart : an.rt = r.rootPtr)
    (hapt : an.pt = c.addr)
    (hk : m.heap[k]? = some kn) (hklt : kn.lt = L.rootPtr) (hkrt : kn.rt = r1.rootPtr)
    (hl1 : Good m.heap L) (hr1 : Good m.heap r1) (hr : Good m.heap r)
    (hnd : (c.plug (.node (.node L k r1) a r)).inorder.Nodup)
    (hroot : m.tree.root = (c.plug (.node (.node L k r1) a r)).rootPtr)
    (hb1 : r1.height ≤ r.height + 1) (hb2 : r.height ≤ r1.height + 1) :
    ∃ h1 an1 kn1, avlRotateRight m (some a)
        = .ok ⟨h1, { m.tree with root := (c.plug (.node L k (.node r1 a r))).rootPtr }⟩ ∧
      h1[a]? = some an1 ∧ an1.pt = some k ∧
      h1[k]? = some kn1 ∧ kn1.lt = L.rootPtr ∧ kn1.rt = some a ∧ kn1.pt = c.addr ∧
      Good h1 L ∧ Good h1 (.node r1 a r) ∧
      (∀ b : Nat, (h1[b]?).map (fun n => (n.elem, n.info))
        = (m.heap[b]?).map (fun n => (n.elem, n.info))) ∧
      CtxLinked (Good h1) h1 c (some k) ∧
      avlGetBalance h1 (some a) = .ok ((r1.height : Int) - (r.height : Int)) := by
  obtain ⟨h1, hrot, h1a, h1k, hsame, hpair, hctx⟩ :=
    rotR_zip Good.congrG hup ha halt hart hapt hk hklt hkrt hl1.1 hr1.1 hr.1 hnd hroot
  have gl1 : Good h1 L := Good.congrG _ _ _ (fun b hb => hsame b (by simp [hb])) hl1
  have gr1 : Good h1 r1 := Good.congrG _ _ _ (fun b hb => hsame b (by simp [hb])) hr1
  have gr : Good h1 r := Good.congrG _ _ _ (fun b hb => hsame b (by simp [hb])) hr
  rw [hr1.2.1.hgt_eq, hr.2.1.hgt_eq, hl1.2.1.hgt_eq, MAX_cast] at h1k
  rw [hr1.2.1.hgt_eq, hr.2.1.hgt_eq, MAX_cast] at h1a
  refine ⟨h1, _, _, hrot, h1a, rfl, h1k, hklt, rfl, rfl, gl1, ?_, hpair, hctx, ?_⟩
  · exact ⟨⟨_, h1a, rfl, hart, gr1.1, gr.1⟩, ⟨_, h1a, rfl, gr1.2.1, gr.2.1⟩,
      hb1, hb2, gr1.2.2, gr.2.2⟩
  · exact avlGetBalance_node h1a gr1.readHeight (by show heightOr0 h1 an.rt = _; rw [hart]; exact gr.readHeight)

/-- A left rotation at `x` inside a tree with a hole, on subtrees in good
standing: afterwards `x` with its new subtrees is in good standing again and
the former right child `k` is linked in its place. -/
theorem rotL_good {m : Mem K V} {c : Ctx} {x k : Nat} {l rl R : Shape}
    {xn kn : TreeNode K V}
    (hup : CtxLinked (Good m.heap) m.heap c (some x))
    (hx : m.heap[x]? = some xn) (hxrt : xn.rt = some k) (hxlt : xn.lt = l.rootPtr)
    (hxpt : xn.pt = c.addr)
    (hk : m.heap[k]? = some kn) (hklt : kn.lt = rl.rootPtr) (hkrt : kn.rt = R.rootPtr)
    (hl : Good m.heap l) (hrl : Good m.heap rl) (hrr : Good m.heap R)
    (hnd : (c.plug (.node l x (.node rl k R))).inorder.Nodup)
    (hroot : m.tree.root = (c.plug (.node l x (.node rl k R))).rootPtr)
    (hb1 : l.height ≤ rl.height + 1) (hb2 : rl.height ≤ l.height + 1) :
    ∃ h1 xn1 kn1, avlRotateLeft m (some x)
        = .ok ⟨h1, { m.tree with root := (c.plug (.node (.node l x rl) k R)).rootPtr }⟩ ∧
      h1[x]? = some xn1 ∧ xn1.pt = some k ∧
      h1[k]? = some kn1 ∧ kn1.lt = some x ∧ kn1.rt = R.rootPtr ∧ kn1.pt = c.addr ∧
      Good h1 (.node l x rl) ∧ Good h1 R ∧
      (∀ b : Nat, (h1[b]?).map (fun n => (n.elem, n.info))
        = (m.heap[b]?).map (fun n => (n.elem, n.info))) ∧
      CtxLinked (Good h1) h1 c (some k) := by
  obtain ⟨h1, hrot, h1x, h1k, hsame, hpair, hctx⟩ :=
    rotL_zip Good.congrG hup hx hxrt hxlt hxpt hk hklt hl.1 hrl.1 hnd hroot
  have gl : Good h1 l := Good.congrG _ _ _ (fun b hb => hsame b (by simp [hb])) hl
  have grl : Good h1 rl := Good.congrG _ _ _ (fun b hb => hsame b (by simp [hb])) hrl
  have grr : Good h1 R := Good.congrG _ _ _ (fun b hb => hsame b (by simp [hb])) hrr
  rw [hl.2.1.hgt_eq, hrl.2.1.hgt_eq, MAX_cast] at h1x
  refine ⟨h1, _, _, hrot, h1x, rfl, h1k, rfl, hkrt, rfl, ?_, grr, hpair, hctx⟩
  exact ⟨⟨_, h1x, hxlt, rfl, gl.1, grl.1⟩, ⟨_, h1x, rfl, gl.2.1, grl.2.1⟩,
    hb1, hb2, gl.2.2, grl.2.2⟩
/-- The call of `updateHeight` that opens a turn of the loop, and the balance
factor read after it. -/
theorem fix_update {m : Mem K V} {up : Ctx} {a : Nat} {an : TreeNode K V} {L R : Shape}
    (ha : m.heap[a]? = some an) (hlt : an.lt = L.rootPtr) (hrt : an.rt = R.rootPtr)
    (hL : Good m.heap L) (hR : Good m.heap R) (haL : a ∉ L.inorder) (haR : a ∉ R.inorder)
    (hau : a ∉ up.before ++ up.after) (hup : CtxLinked (Good m.heap) m.heap up (some a)) :
    ∃ hU anU, updateHeight m.heap (some a) = .ok hU ∧ hU[a]? = some anU ∧
      anU.lt = an.lt ∧ anU.rt = an.rt ∧ anU.pt = an.pt ∧
      (∀ b, b ≠ a → hU[b]? = m.heap[b]?) ∧
      (∀ b : Nat, (hU[b]?).map (fun n => (n.elem, n.info))
        = (m.heap[b]?).map (fun n => (n.elem, n.info))) ∧
      Good hU L ∧ Good hU R ∧ CtxLinked (Good hU) hU up (some a) ∧
      avlGetBalance hU (some a) = .ok ((L.height : Int) - (R.height : Int)) := by
  have e1 : heightOr0 m.heap an.lt = .ok (L.height : Int) := by rw [hlt]; exact hL.readHeight
  have e2 : heightOr0 m.heap an.rt = .ok (R.height : Int) := by rw [hrt]; exact hR.readHeight
  have hu := updateHeight_node ha e1 e2
  have hne : ∀ b, b ≠ a → (m.heap.set a
      { an with height := MAX (L.height : Int) (R.height : Int) + 1 })[b]? = m.heap[b]? :=
    fun b hb => get_set_diff (Ne.symm hb) _
  have gL : Good (m.heap.set a { an with height := MAX (L.height : Int) (R.height : Int) + 1 })
      L := Good.congrG _ _ _ (fun b hb => hne b (by intro e; subst e; exact haL hb)) hL
  have gR : Good (m.heap.set a { an with height := MAX (L.height : Int) (R.height : Int) + 1 })
      R := Good.congrG _ _ _ (fun b hb => hne b (by intro e; subst e; exact haR hb)) hR
  refine ⟨_, _, hu, get_set_same ha _, rfl, rfl, rfl, hne, pair_set_same ha rfl rfl, gL, gR,
    ?_, ?_⟩
  · refine CtxLinked.congrC up _ hup ?_ ?_
    · intro b hb
      exact hne b (by intro e; subst e; exact hau hb)
    · intro s hs2 hgs
      refine Good.congrG _ _ _ ?_ hgs
      intro b hb
      exact hne b (by intro e; subst e; exact hau (hs2 _ hb))
  · refine avlGetBalance_node (get_set_same ha _) ?_ ?_
    · have e3 := gL.readHeight
      rw [← hlt] at e3
      exact e3
    · have e4 := gR.readHeight
      rw [← hrt] at e4
      exact e4

theorem pairwise_plug_node {P : Nat → Nat → Prop} {c : Ctx} {L R : Shape} {a : Nat}
    (hp : (c.plug (.node L a R)).inorder.Pairwise P) :
    (∀ b ∈ L.inorder, P b a) ∧ (∀ b ∈ R.inorder, P a b) := by
  rw [Ctx.plug_inorder] at hp
  simp only [Shape.inorder] at hp
  have h1 := (List.pairwise_append.mp (List.pairwise_append.mp hp).1).2.1
  rw [List.pairwise_append] at h1
  obtain ⟨-, h2, h3⟩ := h1
  rw [List.pairwise_cons] at h2
  exact ⟨fun b hb => h3 b hb a (List.mem_cons_self _ _), h2.1⟩

theorem pair_trans {h h1 h2 : Heap K V}
    (h12 : ∀ b : Nat, (h2[b]?).map (fun n => (n.elem, n.info))
      = (h1[b]?).map (fun n => (n.elem, n.info)))
    (h01 : ∀ b : Nat, (h1[b]?).map (fun n => (n.elem, n.info))
      = (h[b]?).map (fun n => (n.elem, n.info))) (b : Nat) :
    (h2[b]?).map (fun n => (n.elem, n.info)) = (h[b]?).map (fun n => (n.elem, n.info)) :=
  (h12 b).trans (h01 b)
/-- The closing part of a round with a rotation: the turn of the loop at the
new top `g` of the rotated subtree recomputes its height and moves on. -/
theorem fix_finish {cmp : K → K → Int} {m : Mem K V} (m3 : Mem K V) {c up : Ctx} {f L R : Shape}
    {g y hold hold1 : Nat} {gn3 : TreeNode K V}
    (inv : FixInv cmp m c f y hold)
    (it1 : ∀ fuel, avlFixUpLoop (some y) (fuel + 1) m c.addr
      = avlFixUpLoop (some y) fuel m3 (some g))
    (h3g : m3.heap[g]? = some gn3) (gn3lt : gn3.lt = L.rootPtr) (gn3rt : gn3.rt = R.rootPtr)
    (gn3pt : gn3.pt = up.addr)
    (gL : Good m3.heap L) (gR : Good m3.heap R) (hgL : g ∉ L.inorder) (hgR : g ∉ R.inorder)
    (hgu : g ∉ up.before ++ up.after)
    (b1 : L.height ≤ R.height + 1) (b2 : R.height ≤ L.height + 1)
    (hp3 : ∀ b : Nat, (m3.heap[b]?).map (fun n => (n.elem, n.info))
      = (m.heap[b]?).map (fun n => (n.elem, n.info)))
    (hup3 : CtxLinked (Good m3.heap) m3.heap up (some g))
    (hroot : m3.tree.root = (up.plug (.node L g R)).rootPtr)
    (hsize : m3.tree.size = m.tree.size) (hcmp3 : m3.tree.compare = cmp)
    (hio : (up.plug (.node L g R)).inorder = (c.plug f).inorder)
    (hbal : CtxBal up hold1) (hy : y ∈ (Shape.node L g R).inorder)
    (hgrow : (Shape.node L g R).height = hold1) :
    FixStep cmp y m c f up hold1 := by
  have it2 := fun fuel => fix_settle (some y) fuel h3g gn3lt gn3rt gL gR hgL hgR b1 b2
  have hg := Good.set_root (p := { gn3 with height := ((Shape.node L g R).height : Int) })
    h3g gn3lt gn3rt rfl gL gR hgL hgR b1 b2
  have hp4 := pair_trans (pair_set_same
    (p := { gn3 with height := ((Shape.node L g R).height : Int) }) h3g rfl rfl) hp3
  refine ⟨⟨m3.heap.set g { gn3 with height := ((Shape.node L g R).height : Int) }, m3.tree⟩,
    .node L g R, 2, le_refl _, ?_, ?_, hio, hp4, hsize⟩
  · intro fuel
    refine (it1 (fuel + 1)).trans ?_
    refine (it2 fuel).trans ?_
    rw [gn3pt]
  · refine ⟨?_, hg, ⟨g, _, rfl, get_set_same h3g _, gn3pt⟩, hroot, ?_, hy, hbal,
      Or.inl hgrow, hcmp3⟩
    · refine CtxLinked.congrC up _ hup3 ?_ ?_
      · intro b hb
        exact get_set_diff (by intro e; subst e; exact hgu hb) _
      · intro s hs2 hgs
        refine Good.congrG _ _ _ ?_ hgs
        intro b hb
        exact get_set_diff (by intro e; subst e; exact hgu (hs2 _ hb)) _
    · rw [hio]
      exact pairwise_congr_heap hp4 inv.order
/-- A round at a node whose left subtree grew on its left side: a single right rotation. -/
theorem fix_left_LL {cmp : K → K → Int} (hc : StrictTotal cmp) {m : Mem K V} {a : Nat}
    {r : Shape} {up : Ctx} {l1 r1 : Shape} {k y hold : Nat}
    (inv : FixInv cmp m (.left a r up) (.node l1 k r1) y hold)
    (hy : y ∈ l1.inorder) (e1 : l1.height = r.height + 1) (e2 : r1.height = r.height)
    (e3 : hold = r.height + 1) :
    FixStep cmp y m (.left a r up) (.node l1 k r1) up (1 + max hold r.height) := by
  obtain ⟨an, ha, hlt, hrt, hpt, hr, hup⟩ := inv.ctx
  have hnd := pairwise_nodup hc inv.order
  obtain ⟨haf, har, hau, hfu, -, -, -, -, -⟩ := nodup_plug_node (c := up) hnd
  obtain ⟨hkl1, hkr1, hkc, -, -, -, -, -, -⟩ := nodup_plug_node (c := .left a r up) hnd
  simp only [Ctx.before, Ctx.after, List.mem_append, List.mem_cons, not_or] at hkc
  obtain ⟨hkb, ⟨hka, hkr⟩, hkaf⟩ := hkc
  have hya : y ≠ a := by
    intro e; apply haf; rw [← e]; simp [Shape.inorder, hy]
  obtain ⟨hU, anU, hu, hUa, ult, urt, upt, hne, hpU, gfU, grU, hupU, hbalU⟩ :=
    fix_update ha hlt hrt inv.good hr haf har hau hup
  obtain ⟨hlk, -⟩ := pairwise_plug_node (c := .left a r up) inv.order
  obtain ⟨yn, kn, hyn, hk, hcmp⟩ := hlk y hy
  have hkU : hU[k]? = some kn := (hne k hka).trans hk
  have hyU : hU[y]? = some yn := (hne y hya).trans hyn
  obtain ⟨⟨kn1, hk1, hklt, hkrt, ol1, or1⟩, ⟨-, -, -, cl1, cr1⟩, -, -, bl1, br1⟩ := gfU
  rw [hkU] at hk1
  cases hk1
  have gl1 : Good hU l1 := ⟨ol1, cl1, bl1⟩
  have gr1 : Good hU r1 := ⟨or1, cr1, br1⟩
  obtain ⟨h3, an3, kn3, hrot, h3a, an3pt, h3k, kn3lt, kn3rt, kn3pt, gl13, gra3, hp3, hup3,
      hbal3⟩ :=
    rotR_good (m := ⟨hU, m.tree⟩) hupU hUa (ult.trans hlt) (urt.trans hrt) (upt.trans hpt)
      hkU hklt hkrt gl1 gr1 grU hnd inv.root (by omega) (by omega)
  have hfh : ((Shape.node l1 k r1).height : Int) - (r.height : Int) = 2 := by
    simp [Shape.height]; omega
  rw [hfh] at hbalU
  have it1 := fun fuel => fixUp_step_LL (y := some y) (m := m) fuel hu hbalU (load_of_get hyU)
    (load_of_get hUa) (by rw [ult, hlt]; exact load_of_get hkU)
    (by rw [inv.cmpeq]; exact hcmp) hrot hbal3 (by omega) (load_of_get h3a)
  have hkra : k ∉ (Shape.node r1 a r).inorder := by
    simp [Shape.inorder, hkr1, hka, hkr]
  have hio : (up.plug (.node l1 k (.node r1 a r))).inorder
      = ((Ctx.left a r up).plug (.node l1 k r1)).inorder := by
    show _ = (up.plug (.node (.node l1 k r1) a r)).inorder
    rw [Ctx.plug_inorder, Ctx.plug_inorder]
    simp [Shape.inorder, List.append_assoc]
  exact fix_finish ⟨h3, { m.tree with root := (up.plug (.node l1 k (.node r1 a r))).rootPtr }⟩
    (R := .node r1 a r) inv (fun fuel => (it1 fuel).trans (by rw [an3pt]))
    h3k kn3lt kn3rt kn3pt gl13 gra3 hkl1 hkra (hfu k (by simp [Shape.inorder]))
    (by simp [Shape.height]; omega) (by simp [Shape.height]; omega)
    (pair_trans hp3 hpU) hup3 rfl rfl inv.cmpeq hio inv.bal.2.2 (by simp [Shape.inorder, hy])
    (by simp [Shape.height]; omega)
/-- A round at a node whose left subtree grew on its right side: a left rotation
below followed by a right rotation. -/
theorem fix_left_LR {cmp : K → K → Int} (hc : StrictTotal cmp) {m : Mem K V} {a : Nat}
    {r : Shape} {up : Ctx} {l1 gl gr : Shape} {k g y hold : Nat}
    (inv : FixInv cmp m (.left a r up) (.node l1 k (.node gl g gr)) y hold)
    (hy : y ∈ (Shape.node gl g gr).inorder) (e1 : l1.height = r.height)
    (e2 : max gl.height gr.height = r.height) (e3 : hold = r.height + 1) :
    FixStep cmp y m (.left a r up) (.node l1 k (.node gl g gr)) up (1 + max hold r.height) := by
  obtain ⟨-, -, -, hbg1, hbg2, -, -⟩ := inv.good.2.2
  have b1 : (Shape.node l1 k gl).height ≤ (Shape.node gr a r).height + 1 := by
    simp only [Shape.height]; omega
  have b2 : (Shape.node gr a r).height ≤ (Shape.node l1 k gl).height + 1 := by
    simp only [Shape.height]; omega
  have b3 : (Shape.node (.node l1 k gl) g (.node gr a r)).height = 1 + max hold r.height := by
    simp only [Shape.height]; omega
  have b4 : l1.height ≤ gl.height + 1 := by omega
  have b5 : gl.height ≤ l1.height + 1 := by omega
  have b6 : gr.height ≤ r.height + 1 := by omega
  have b7 : r.height ≤ gr.height + 1 := by omega
  have hfh : ((Shape.node l1 k (.node gl g gr)).height : Int) - (r.height : Int) = 2 := by
    simp [Shape.height]; omega
  have hy2 : y ∈ (Shape.node (.node l1 k gl) g (.node gr a r)).inorder := by
    simp only [Shape.inorder, List.mem_append, List.mem_cons] at hy
    rcases hy with h | h | h <;> simp [Shape.inorder, h]
  obtain ⟨an, ha, hlt, hrt, hpt, hr, hup⟩ := inv.ctx
  have hnd := pairwise_nodup hc inv.order
  obtain ⟨haf, har, hau, hfu, -, -, -, -, -⟩ := nodup_plug_node (c := up) hnd
  obtain ⟨hkl1, hkr1, hkc, -, -, -, -, -, -⟩ := nodup_plug_node (c := .left a r up) hnd
  simp only [Ctx.before, Ctx.after, List.mem_append, List.mem_cons, not_or] at hkc
  obtain ⟨hkb, ⟨hka, hkr⟩, hkaf⟩ := hkc
  obtain ⟨hggl, hggr, hgc, -, -, -, -, -, -⟩ :=
    nodup_plug_node (c := .right l1 k (.left a r up)) hnd
  simp only [Ctx.before, Ctx.after, List.mem_append, List.mem_cons, List.mem_singleton,
    not_or] at hgc
  obtain ⟨⟨hgb, hgl1, hgk⟩, ⟨hga, hgr⟩, hgaf⟩ := hgc
  have hya : y ≠ a := by
    intro e; apply haf; rw [← e]
    simp only [Shape.inorder, List.mem_append, List.mem_cons] at hy
    rcases hy with h | h | h <;> simp [Shape.inorder, h]
  obtain ⟨fa, fn, hfa, hfn, hfpt⟩ := inv.fpt
  cases hfa
  obtain ⟨hU, anU, hu, hUa, ult, urt, upt, hne, hpU, gfU, grU, hupU, hbalU⟩ :=
    fix_update ha hlt hrt inv.good hr haf har hau hup
  obtain ⟨-, hkk⟩ := pairwise_plug_node (c := .left a r up) inv.order
  obtain ⟨kn, yn, hk, hyn, hcmp⟩ := hkk y hy
  rw [hfn] at hk
  cases hk
  have hkU : hU[k]? = some fn := (hne k hka).trans hfn
  have hyU : hU[y]? = some yn := (hne y hya).trans hyn
  obtain ⟨⟨kn1, hk1, hklt, hkrt, ol1, gn, hgU, hglt, hgrt, ogl, ogr⟩, ⟨-, -, -, cl1, -, -, -, cgl, cgr⟩,
    -, -, bl1, bg1, bg2, bgl, bgr⟩ := gfU
  rw [hkU] at hk1
  cases hk1
  have gl1 : Good hU l1 := ⟨ol1, cl1, bl1⟩
  have ggl : Good hU gl := ⟨ogl, cgl, bgl⟩
  have ggr : Good hU gr := ⟨ogr, cgr, bgr⟩
  obtain ⟨h2, kn2, gn2, hrot1, h2k, kn2pt, h2g, gn2lt, gn2rt, gn2pt, gk2, ggr2, hp2, hup2⟩ :=
    rotL_good (m := ⟨hU, m.tree⟩) (c := .left a r up) (x := k) (k := g)
      ⟨anU, hUa, ult.trans hlt, urt.trans hrt, upt.trans hpt, grU, hupU⟩
      hkU hkrt hklt hfpt hgU hglt hgrt gl1 ggl ggr hnd inv.root b4 b5
  obtain ⟨an2, h2a, an2lt, an2rt, an2pt, gr2, hupC2⟩ := hup2
  have hio : (up.plug (.node (.node (.node l1 k gl) g gr) a r)).inorder
      = ((Ctx.left a r up).plug (.node l1 k (.node gl g gr))).inorder := by
    show _ = (up.plug (.node (.node l1 k (.node gl g gr)) a r)).inorder
    rw [Ctx.plug_inorder, Ctx.plug_inorder]
    simp [Shape.inorder, List.append_assoc]
  have hnd2 : (up.plug (.node (.node (.node l1 k gl) g gr) a r)).inorder.Nodup := by
    rw [hio]; exact hnd
  obtain ⟨h3, an3, gn3, hrot2, h3a, an3pt, h3g, gn3lt, gn3rt, gn3pt, gk3, gra3, hp3, hup3,
      hbal3⟩ :=
    rotR_good (m := ⟨h2, { m.tree with
        root := ((Ctx.left a r up).plug (.node (.node l1 k gl) g gr)).rootPtr }⟩)
      (L := .node l1 k gl)
      hupC2 h2a an2lt an2rt an2pt h2g gn2lt gn2rt gk2 ggr2 gr2 hnd2 rfl b6 b7
  rw [hfh] at hbalU
  have hcmp2 : m.tree.compare yn.elem fn.elem ≠ -1 := by
    rw [inv.cmpeq, (hc.swap _ _).mpr hcmp]; decide
  have it1 := fun fuel => fixUp_step_LR (y := some y) (m := m) fuel hu hbalU (load_of_get hyU)
    (load_of_get hUa) (by rw [ult, hlt]; exact load_of_get hkU) hcmp2
    (by rw [ult, hlt]; exact hrot1) hrot2 hbal3 (by omega) (load_of_get h3a)
  have hgL : g ∉ (Shape.node l1 k gl).inorder := by
    simp [Shape.inorder, hgl1, hgk, hggl]
  have hgR : g ∉ (Shape.node gr a r).inorder := by
    simp [Shape.inorder, hggr, hga, hgr]
  have hio2 : (up.plug (.node (.node l1 k gl) g (.node gr a r))).inorder
      = ((Ctx.left a r up).plug (.node l1 k (.node gl g gr))).inorder := by
    show _ = (up.plug (.node (.node l1 k (.node gl g gr)) a r)).inorder
    rw [Ctx.plug_inorder, Ctx.plug_inorder]
    simp [Shape.inorder, List.append_assoc]
  exact fix_finish
    ⟨h3, { m.tree with root := (up.plug (.node (.node l1 k gl) g (.node gr a r))).rootPtr }⟩
    (L := .node l1 k gl) (R := .node gr a r) inv (fun fuel => (it1 fuel).trans (by rw [an3pt]))
    h3g gn3lt gn3rt gn3pt gk3 gra3 hgL hgR (hfu g (by simp [Shape.inorder]))
    b1 b2 (pair_trans (pair_trans hp3 hp2) hpU) hup3 rfl rfl inv.cmpeq hio2 inv.bal.2.2 hy2 b3
/-- A round of the walk at a node that has the repaired subtree on its left. -/
theorem fix_left {cmp : K → K → Int} (hc : StrictTotal cmp) {m : Mem K V} {a : Nat}
    {r : Shape} {up : Ctx} {f : Shape} {y hold : Nat}
    (inv : FixInv cmp m (.left a r up) f y hold) :
    FixStep cmp y m (.left a r up) f up (1 + max hold r.height) := by
  by_cases hb : f.height ≤ r.height + 1
  · exact fix_left_plain hc inv hb
  · obtain ⟨hbal1, hbal2, -⟩ := inv.bal
    rcases inv.grow with e | ⟨e, hgr⟩
    · omega
    · cases f with
      | nil => simp [Shape.height] at hb
      | node l1 k r1 =>
        simp only [Shape.height] at hb e
        rcases hgr with ⟨rfl, rfl⟩ | ⟨hy, hh⟩ | ⟨hy, hh⟩
        · simp [Shape.height] at hb e
        · exact fix_left_LL hc inv hy (by omega) (by omega) (by omega)
        · cases r1 with
          | nil => simp [Shape.inorder] at hy
          | node gl g gr =>
            simp only [Shape.height] at hb e hh
            exact fix_left_LR hc inv hy (by omega) (by omega) (by omega)
/-- A round at a node whose right subtree holds the new node and no rotation is due. -/
theorem fix_right_plain {cmp : K → K → Int} (hc : StrictTotal cmp) {m : Mem K V} {a : Nat}
    {l : Shape} {up : Ctx} {f : Shape} {y hold : Nat}
    (inv : FixInv cmp m (.right l a up) f y hold)
    (hb2 : f.height ≤ l.height + 1) :
    FixStep cmp y m (.right l a up) f up (1 + max l.height hold) := by
  obtain ⟨an, ha, hlt, hrt, hpt, hl, hup⟩ := inv.ctx
  have hnd := pairwise_nodup hc inv.order
  obtain ⟨hal, haf, hau, -, -, -, -, -, -⟩ := nodup_plug_node (c := up) hnd
  obtain ⟨hbal1, hbal2, hbal3⟩ := inv.bal
  have hb1 : l.height ≤ f.height + 1 := by
    rcases inv.grow with e | ⟨e, -⟩ <;> omega
  have hs := fun fuel => fix_settle (some y) fuel ha hlt hrt hl inv.good hal haf hb1 hb2
  have hg := Good.set_root (p := { an with height := ((Shape.node l a f).height : Int) })
    ha hlt hrt rfl hl inv.good hal haf hb1 hb2
  have hsame := pair_set_same (p := { an with height := ((Shape.node l a f).height : Int) })
    ha rfl rfl
  refine ⟨⟨m.heap.set a { an with height := ((Shape.node l a f).height : Int) }, m.tree⟩,
    .node l a f, 1, by omega, fun fuel => by rw [← hpt]; exact hs fuel, ?_, rfl, hsame, rfl⟩
  refine ⟨?_, hg, ⟨a, _, rfl, get_set_same ha _, hpt⟩, inv.root,
    pairwise_congr_heap hsame inv.order, ?_, hbal3, ?_, inv.cmpeq⟩
  · refine CtxLinked.congrC up _ hup ?_ ?_
    · intro b hb
      exact get_set_diff (by intro e; subst e; exact hau hb) _
    · intro s hs2 hgs
      refine Good.congrG _ _ _ ?_ hgs
      intro b hb
      exact get_set_diff (by intro e; subst e; exact hau (hs2 _ hb)) _
  · simp [Shape.inorder, inv.ymem]
  · rcases inv.grow with e | ⟨e, hgr⟩
    · left; simp [Shape.height, e]
    · by_cases h3 : l.height ≤ hold
      · right
        refine ⟨by simp [Shape.height]; omega, Or.inr (Or.inr ⟨inv.ymem, by omega⟩)⟩
      · left; simp [Shape.height]; omega

/-- A round at a node whose right subtree grew on its right side: a single left rotation. -/
theorem fix_right_RR {cmp : K → K → Int} (hc : StrictTotal cmp) {m : Mem K V} {a : Nat}
    {l : Shape} {up : Ctx} {l1 r1 : Shape} {k y hold : Nat}
    (inv : FixInv cmp m (.right l a up) (.node l1 k r1) y hold)
    (hy : y ∈ r1.inorder) (e1 : r1.height = l.height + 1) (e2 : l1.height = l.height)
    (e3 : hold = l.height + 1) :
    FixStep cmp y m (.right l a up) (.node l1 k r1) up (1 + max l.height hold) := by
  obtain ⟨an, ha, hlt, hrt, hpt, hl, hup⟩ := inv.ctx
  have hnd := pairwise_nodup hc inv.order
  obtain ⟨hal, haf, hau, -, hfu, -, -, -, -⟩ := nodup_plug_node (c := up) hnd
  obtain ⟨hkl1, hkr1, hkc, -, -, -, -, -, -⟩ := nodup_plug_node (c := .right l a up) hnd
  simp only [Ctx.before, Ctx.after, List.mem_append, List.mem_cons, List.mem_singleton,
    not_or] at hkc
  obtain ⟨⟨hkb, hkl, hka, -⟩, hkaf⟩ := hkc
  have hya : y ≠ a := by
    intro e; apply haf; rw [← e]; simp [Shape.inorder, hy]
  obtain ⟨hU, anU, hu, hUa, ult, urt, upt, hne, hpU, glU, gfU, hupU, hbalU⟩ :=
    fix_update ha hlt hrt hl inv.good hal haf hau hup
  obtain ⟨-, hkk⟩ := pairwise_plug_node (c := .right l a up) inv.order
  obtain ⟨kn, yn, hk, hyn, hcmp⟩ := hkk y hy
  have hkU : hU[k]? = some kn := (hne k hka).trans hk
  have hyU : hU[y]? = some yn := (hne y hya).trans hyn
  obtain ⟨⟨kn1, hk1, hklt, hkrt, ol1, or1⟩, ⟨-, -, -, cl1, cr1⟩, -, -, bl1, br1⟩ := gfU
  rw [hkU] at hk1
  cases hk1
  have gl1 : Good hU l1 := ⟨ol1, cl1, bl1⟩
  have gr1 : Good hU r1 := ⟨or1, cr1, br1⟩
  obtain ⟨h3, an3, kn3, hrot, h3a, an3pt, h3k, kn3lt, kn3rt, kn3pt, gla3, gr13, hp3, hup3⟩ :=
    rotL_good (m := ⟨hU, m.tree⟩) hupU hUa (urt.trans hrt) (ult.trans hlt) (upt.trans hpt)
      hkU hklt hkrt glU gl1 gr1 hnd inv.root (by omega) (by omega)
  have hfh : (l.height : Int) - ((Shape.node l1 k r1).height : Int) = -2 := by
    simp [Shape.height]; omega
  rw [hfh] at hbalU
  have it1 := fun fuel => fixUp_step_RR (y := some y) (m := m) fuel hu hbalU (load_of_get hyU)
    (load_of_get hUa) (by rw [urt, hrt]; exact load_of_get hkU)
    (by rw [inv.cmpeq]; exact (hc.swap _ _).mpr hcmp) hrot (load_of_get h3a)
  have hkla : k ∉ (Shape.node l a l1).inorder := by
    simp [Shape.inorder, hkl1, hka, hkl]
  have hio : (up.plug (.node (.node l a l1) k r1)).inorder
      = ((Ctx.right l a up).plug (.node l1 k r1)).inorder := by
    show _ = (up.plug (.node l a (.node l1 k r1))).inorder
    rw [Ctx.plug_inorder, Ctx.plug_inorder]
    simp [Shape.inorder, List.append_assoc]
  exact fix_finish ⟨h3, { m.tree with root := (up.plug (.node (.node l a l1) k r1)).rootPtr }⟩
    (L := .node l a l1) inv (fun fuel => (it1 fuel).trans (by rw [an3pt]))
    h3k kn3lt kn3rt kn3pt gla3 gr13 hkla hkr1 (hfu k (by simp [Shape.inorder]))
    (by simp [Shape.height]; omega) (by simp [Shape.height]; omega)
    (pair_trans hp3 hpU) hup3 rfl rfl inv.cmpeq hio inv.bal.2.2 (by simp [Shape.inorder, hy])
    (by simp [Shape.height]; omega)
/-- A round at a node whose right subtree grew on its left side: a right rotation
below followed by a left rotation. -/
theorem fix_right_RL {cmp : K → K → Int} (hc : StrictTotal cmp) {m : Mem K V} {a : Nat}
    {l : Shape} {up : Ctx} {gl gr r1 : Shape} {k g y hold : Nat}
    (inv : FixInv cmp m (.right l a up) (.node (.node gl g gr) k r1) y hold)
    (hy : y ∈ (Shape.node gl g gr).inorder) (e1 : r1.height = l.height)
    (e2 : max gl.height gr.height = l.height) (e3 : hold = l.height + 1) :
    FixStep cmp y m (.right l a up) (.node (.node gl g gr) k r1) up
      (1 + max l.height hold) := by
  obtain ⟨-, -, ⟨hbg1, hbg2, -, -⟩, -⟩ := inv.good.2.2
  have b1 : (Shape.node l a gl).height ≤ (Shape.node gr k r1).height + 1 := by
    simp only [Shape.height]; omega
  have b2 : (Shape.node gr k r1).height ≤ (Shape.node l a gl).height + 1 := by
    simp only [Shape.height]; omega
  have b3 : (Shape.node (.node l a gl) g (.node gr k r1)).height = 1 + max l.height hold := by
    simp only [Shape.height]; omega
  have b4 : gr.height ≤ r1.height + 1 := by omega
  have b5 : r1.height ≤ gr.height + 1 := by omega
  have b6 : l.height ≤ gl.height + 1 := by omega
  have b7 : gl.height ≤ l.height + 1 := by omega
  have hfh : (l.height : Int) - ((Shape.node (.node gl g gr) k r1).height : Int) = -2 := by
    simp [Shape.height]; omega
  have hy2 : y ∈ (Shape.node (.node l a gl) g (.node gr k r1)).inorder := by
    simp only [Shape.inorder, List.mem_append, List.mem_cons] at hy
    rcases hy with h | h | h <;> simp [Shape.inorder, h]
  obtain ⟨an, ha, hlt, hrt, hpt, hl, hup⟩ := inv.ctx
  have hnd := pairwise_nodup hc inv.order
  obtain ⟨hal, haf, hau, -, hfu, -, -, -, -⟩ := nodup_plug_node (c := up) hnd
  obtain ⟨hkl1, hkr1, hkc, -, -, -, -, -, -⟩ := nodup_plug_node (c := .right l a up) hnd
  simp only [Ctx.before, Ctx.after, List.mem_append, List.mem_cons, List.mem_singleton,
    not_or] at hkc
  obtain ⟨⟨hkb, hkl, hka, -⟩, hkaf⟩ := hkc
  obtain ⟨hggl, hggr, hgc, -, -, -, -, -, -⟩ :=
    nodup_plug_node (c := .left k r1 (.right l a up)) hnd
  simp only [Ctx.before, Ctx.after, List.mem_append, List.mem_cons, List.mem_singleton,
    not_or] at hgc
  obtain ⟨⟨hgb, hgl, hga, -⟩, ⟨hgk, hgr1⟩, hgaf⟩ := hgc
  have hya : y ≠ a := by
    intro e; apply haf; rw [← e]
    simp only [Shape.inorder, List.mem_append, List.mem_cons] at hy
    rcases hy with h | h | h <;> simp [Shape.inorder, h]
  obtain ⟨fa, fn, hfa, hfn, hfpt⟩ := inv.fpt
  cases hfa
  obtain ⟨hU, anU, hu, hUa, ult, urt, upt, hne, hpU, glU, gfU, hupU, hbalU⟩ :=
    fix_update ha hlt hrt hl inv.good hal haf hau hup
  obtain ⟨hkk, -⟩ := pairwise_plug_node (c := .right l a up) inv.order
  obtain ⟨yn, kn, hyn, hk, hcmp⟩ := hkk y hy
  rw [hfn] at hk
  cases hk
  have hkU : hU[k]? = some fn := (hne k hka).trans hfn
  have hyU : hU[y]? = some yn := (hne y hya).trans hyn
  obtain ⟨⟨kn1, hk1, hklt, hkrt, ⟨gn, hgU, hglt, hgrt, ogl, ogr⟩, or1⟩,
    ⟨-, -, -, ⟨-, -, -, cgl, cgr⟩, cr1⟩, -, -, ⟨bg1, bg2, bgl, bgr⟩, br1⟩ := gfU
  rw [hkU] at hk1
  cases hk1
  have gr1 : Good hU r1 := ⟨or1, cr1, br1⟩
  have ggl : Good hU gl := ⟨ogl, cgl, bgl⟩
  have ggr : Good hU gr := ⟨ogr, cgr, bgr⟩
  obtain ⟨h2, kn2, gn2, hrot1, h2k, kn2pt, h2g, gn2lt, gn2rt, gn2pt, ggl2, gk2, hp2, hup2, -⟩ :=
    rotR_good (m := ⟨hU, m.tree⟩) (c := .right l a up) (a := k) (k := g)
      ⟨anU, hUa, ult.trans hlt, urt.trans hrt, upt.trans hpt, glU, hupU⟩
      hkU hklt hkrt hfpt hgU hglt hgrt ggl ggr gr1 hnd inv.root b4 b5
  obtain ⟨an2, h2a, an2lt, an2rt, an2pt, gl2, hupC2⟩ := hup2
  have hio : (up.plug (.node l a (.node gl g (.node gr k r1)))).inorder
      = ((Ctx.right l a up).plug (.node (.node gl g gr) k r1)).inorder := by
    show _ = (up.plug (.node l a (.node (.node gl g gr) k r1))).inorder
    rw [Ctx.plug_inorder, Ctx.plug_inorder]
    simp [Shape.inorder, List.append_assoc]
  have hnd2 : (up.plug (.node l a (.node gl g (.node gr k r1)))).inorder.Nodup := by
    rw [hio]; exact hnd
  obtain ⟨h3, an3, gn3, hrot2, h3a, an3pt, h3g, gn3lt, gn3rt, gn3pt, gla3, gk3, hp3, hup3⟩ :=
    rotL_good (m := ⟨h2, { m.tree with
        root := ((Ctx.right l a up).plug (.node gl g (.node gr k r1))).rootPtr }⟩)
      (R := .node gr k r1)
      hupC2 h2a an2rt an2lt an2pt h2g gn2lt gn2rt gl2 ggl2 gk2 hnd2 rfl b6 b7
  rw [hfh] at hbalU
  have hcmp2 : m.tree.compare yn.elem fn.elem ≠ 1 := by
    rw [inv.cmpeq, hcmp]; decide
  have it1 := fun fuel => fixUp_step_RL (y := some y) (m := m) fuel hu hbalU (load_of_get hyU)
    (load_of_get hUa) (by rw [urt, hrt]; exact load_of_get hkU) hcmp2
    (by rw [urt, hrt]; exact hrot1) hrot2 (load_of_get h3a)
  have hgL : g ∉ (Shape.node l a gl).inorder := by
    simp [Shape.inorder, hgl, hga, hggl]
  have hgR : g ∉ (Shape.node gr k r1).inorder := by
    simp [Shape.inorder, hggr, hgk, hgr1]
  have hio2 : (up.plug (.node (.node l a gl) g (.node gr k r1))).inorder
      = ((Ctx.right l a up).plug (.node (.node gl g gr) k r1)).inorder := by
    show _ = (up.plug (.node l a (.node (.node gl g gr) k r1))).inorder
    rw [Ctx.plug_inorder, Ctx.plug_inorder]
    simp [Shape.inorder, List.append_assoc]
  exact fix_finish
    ⟨h3, { m.tree with root := (up.plug (.node (.node l a gl) g (.node gr k r1))).rootPtr }⟩
    (L := .node l a gl) (R := .node gr k r1) inv (fun fuel => (it1 fuel).trans (by rw [an3pt]))
    h3g gn3lt gn3rt gn3pt gla3 gk3 hgL hgR (hfu g (by simp [Shape.inorder]))
    b1 b2 (pair_trans (pair_trans hp3 hp2) hpU) hup3 rfl rfl inv.cmpeq hio2 inv.bal.2.2 hy2 b3

/-- A round of the walk at a node that has the repaired subtree on its right. -/
theorem fix_right {cmp : K → K → Int} (hc : StrictTotal cmp) {m : Mem K V} {a : Nat}
    {l : Shape} {up : Ctx} {f : Shape} {y hold : Nat}
    (inv : FixInv cmp m (.right l a up) f y hold) :
    FixStep cmp y m (.right l a up) f up (1 + max l.height hold) := by
  by_cases hb : f.height ≤ l.height + 1
  · exact fix_right_plain hc inv hb
  · obtain ⟨hbal1, hbal2, -⟩ := inv.bal
    rcases inv.grow with e | ⟨e, hgr⟩
    · omega
    · cases f with
      | nil => simp [Shape.height] at hb
      | node l1 k r1 =>
        simp only [Shape.height] at hb e
        rcases hgr with ⟨rfl, rfl⟩ | ⟨hy, hh⟩ | ⟨hy, hh⟩
        · simp [Shape.height] at hb e
        · cases l1 with
          | nil => simp [Shape.inorder] at hy
          | node gl g gr =>
            simp only [Shape.height] at hb e hh
            exact fix_right_RL hc inv hy (by omega) (by omega) (by omega)
        · exact fix_right_RR hc inv hy (by omega) (by omega) (by omega)
theorem avlFixUpLoop_none (y : Ptr) (fuel : Nat) (m : Mem K V) :
    avlFixUpLoop y fuel m none = .ok m := by
  cases fuel <;> rfl

/-- The whole walk of `avlFixUp`: with fuel of twice the length of the path it
returns, and it leaves a tree in good standing that holds the same addresses
in the same order, with the same keys and values. -/
theorem fix_loop {cmp : K → K → Int} (hc : StrictTotal cmp) {y : Nat} (c : Ctx) :
    ∀ (m : Mem K V) (f : Shape) (hold : Nat), FixInv cmp m c f y hold →
      ∃ (m1 : Mem K V) (s1 : Shape) (hold1 : Nat),
        (∀ fuel, 2 * c.depth ≤ fuel → avlFixUpLoop (some y) fuel m c.addr = .ok m1) ∧
        FixInv cmp m1 .top s1 y hold1 ∧ s1.inorder = (c.plug f).inorder ∧
        (∀ b : Nat, (m1.heap[b]?).map (fun n => (n.elem, n.info))
          = (m.heap[b]?).map (fun n => (n.elem, n.info))) ∧
        m1.tree.size = m.tree.size := by
  induction c with
  | top =>
    intro m f hold inv
    exact ⟨m, f, hold, fun fuel _ => avlFixUpLoop_none _ _ _, inv, rfl, fun _ => rfl, rfl⟩
  | left a r up ih =>
    intro m f hold inv
    obtain ⟨m1, f1, k, hk, hstep, inv1, hio, hp, hsz⟩ := fix_left hc inv
    obtain ⟨m2, s2, hold2, hrun, inv2, hio2, hp2, hsz2⟩ := ih m1 f1 _ inv1
    refine ⟨m2, s2, hold2, ?_, inv2, hio2.trans hio, pair_trans hp2 hp, hsz2.trans hsz⟩
    intro fuel hf
    simp only [Ctx.depth] at hf
    obtain ⟨f0, rfl⟩ : ∃ f0, fuel = f0 + k := ⟨fuel - k, by omega⟩
    rw [hstep f0]
    exact hrun f0 (by omega)
  | right l a up ih =>
    intro m f hold inv
    obtain ⟨m1, f1, k, hk, hstep, inv1, hio, hp, hsz⟩ := fix_right hc inv
    obtain ⟨m2, s2, hold2, hrun, inv2, hio2, hp2, hsz2⟩ := ih m1 f1 _ inv1
    refine ⟨m2, s2, hold2, ?_, inv2, hio2.trans hio, pair_trans hp2 hp, hsz2.trans hsz⟩
    intro fuel hf
    simp only [Ctx.depth] at hf
    obtain ⟨f0, rfl⟩ : ∃ f0, fuel = f0 + k := ⟨fuel - k, by omega⟩
    rw [hstep f0]
    exact hrun f0 (by omega)

theorem Ctx.bal_of_plug (c : Ctx) :
    ∀ t : Shape, (c.plug t).Balanced → CtxBal c t.height ∧ t.Balanced := by
  induction c with
  | top => intro t h; exact ⟨trivial, h⟩
  | left a r up ih =>
    intro t h
    obtain ⟨h1, h2, h3, h4, -⟩ := ih _ h
    exact ⟨⟨h2, h3, h1⟩, h4⟩
  | right l a up ih =>
    intro t h
    obtain ⟨h1, h2, h3, -, h4⟩ := ih _ h
    exact ⟨⟨h3, h2, h1⟩, h4⟩

theorem Heights.ofCached {h : Heap K V} (s : Shape) (ho : Owned h s) (hcc : Cached h s) :
    Heights h s := by
  induction s with
  | nil => trivial
  | node l a r ihl ihr =>
    obtain ⟨n, hn, -, -, ol, or1⟩ := ho
    obtain ⟨n1, hn1, hh, cl, cr⟩ := hcc
    rw [hn] at hn1
    cases hn1
    have hl := ihl ol cl
    have hr := ihr or1 cr
    refine ⟨n, hn, ?_, hl, hr⟩
    rw [hh, hl.hgt_eq, hr.hgt_eq]
    simp [Shape.height]

theorem Heights.toCached {h : Heap K V} (s : Shape) (hh : Heights h s) : Cached h s := by
  induction s with
  | nil => trivial
  | node l a r ihl ihr =>
    obtain ⟨n, hn, hnh, hl, hr⟩ := hh
    refine ⟨n, hn, ?_, ihl hl, ihr hr⟩
    rw [hnh, hl.hgt_eq, hr.hgt_eq]
    simp [Shape.height]

theorem Linked.congrL {h h1 : Heap K V} (s : Shape) :
    ∀ par, Linked h par s → (∀ b ∈ s.inorder, h1[b]? = h[b]?) → Linked h1 par s := by
  induction s with
  | nil => intro par _ _; trivial
  | node l a r ihl ihr =>
    intro par hl hsame
    obtain ⟨n, hn, hpt, hlt, hrt, ll, lr⟩ := hl
    refine ⟨n, (hsame a (by simp [Shape.inorder])).trans hn, hpt, hlt, hrt,
      ihl _ ll (fun b hb => hsame b (by simp [Shape.inorder, hb])),
      ihr _ lr (fun b hb => hsame b (by simp [Shape.inorder, hb]))⟩
theorem Good.children {h : Heap K V} {l r : Shape} {a : Nat} (hg : Good h (.node l a r)) :
    Good h l ∧ Good h r := by
  obtain ⟨⟨-, -, -, -, ol, or1⟩, ⟨-, -, -, cl, cr⟩, -, -, bl, br⟩ := hg
  exact ⟨⟨ol, cl, bl⟩, ⟨or1, cr, br⟩⟩

theorem insert_attach {h0 : Heap K V} {y a : Nat} {yn an q : TreeNode K V} {c d : Ctx}
    {r : Shape} (hy : h0[y]? = some yn) (ha : h0[a]? = some an) (hya : y ≠ a)
    (hyc : y ∉ d.before ++ d.after) (hac : a ∉ c.before ++ c.after)
    (hsub : ∀ b ∈ c.before ++ c.after, b ∈ d.before ++ d.after)
    (hrc : ∀ b ∈ r.inorder, b ∈ d.before ++ d.after) (har : a ∉ r.inorder)
    (he : q.elem = an.elem) (hi : q.info = an.info)
    (hr : Good h0 r) (hup : CtxLinked (Good h0) h0 c (some a)) :
    Good ((h0.set a q).set y { yn with pt := some a }) r ∧
    CtxLinked (Good ((h0.set a q).set y { yn with pt := some a }))
      ((h0.set a q).set y { yn with pt := some a }) c (some a) ∧
    ((h0.set a q).set y { yn with pt := some a })[a]? = some q ∧
    ((h0.set a q).set y { yn with pt := some a })[y]? = some { yn with pt := some a } ∧
    (∀ b : Nat, (((h0.set a q).set y { yn with pt := some a })[b]?).map
        (fun n => (n.elem, n.info)) = (h0[b]?).map (fun n => (n.elem, n.info))) := by
  have hy1 : (h0.set a q)[y]? = some yn := (get_set_diff (Ne.symm hya) _).trans hy
  have hne : ∀ b, b ≠ a → b ≠ y →
      ((h0.set a q).set y { yn with pt := some a })[b]? = h0[b]? := by
    intro b hba hby
    exact (get_set_diff (Ne.symm hby) _).trans (get_set_diff (Ne.symm hba) _)
  refine ⟨?_, ?_, ?_, get_set_same hy1 _, ?_⟩
  · refine Good.congrG _ _ _ ?_ hr
    intro b hb
    exact hne b (by intro e; subst e; exact har hb) (by intro e; subst e; exact hyc (hrc _ hb))
  · refine CtxLinked.congrC c _ hup ?_ ?_
    · intro b hb
      exact hne b (by intro e; subst e; exact hac hb)
        (by intro e; subst e; exact hyc (hsub _ hb))
    · intro s hs2 hgs
      refine Good.congrG _ _ _ ?_ hgs
      intro b hb
      exact hne b (by intro e; subst e; exact hac (hs2 _ hb))
        (by intro e; subst e; exact hyc (hsub _ (hs2 _ hb)))
  · exact (get_set_diff hya _).trans (get_set_same ha _)
  · exact pair_trans (pair_set_same hy1 rfl rfl) (pair_set_same ha he hi)
/-- The descent of `insert` for a key stored nowhere in an ordered tree: it ends
by attaching the new node `y` at a leaf position, whose path is `c1`; the keys
before that position are less than the new key and those after it greater. -/
theorem insert_descend {cmp : K → K → Int} (hc : StrictTotal cmp) {h0 : Heap K V} {elem : K}
    {y : Nat} {yn : TreeNode K V} (hy : h0[y]? = some yn) (t : Shape) :
    ∀ c : Ctx, t ≠ .nil → Linked h0 c.addr t → CtxLinked (Good h0) h0 c t.rootPtr →
      Good h0 t → (c.plug t).inorder.Pairwise (KeyLt cmp h0) → y ∉ (c.plug t).inorder →
      (∀ b ∈ t.inorder, ∀ n, h0[b]? = some n → cmp elem n.elem ≠ 0) →
      (∀ b ∈ c.before, ∀ n, h0[b]? = some n → cmp n.elem elem = -1) →
      (∀ b ∈ c.after, ∀ n, h0[b]? = some n → cmp elem n.elem = -1) →
      ∃ (c1 : Ctx) (h2 : Heap K V), c1.plug .nil = c.plug t ∧ c1 ≠ .top ∧
        (∀ fuel, t.height ≤ fuel →
          insertLoop cmp elem (some y) fuel h0 t.rootPtr = .ok (some h2)) ∧
        CtxLinked (Good h2) h2 c1 (some y) ∧ h2[y]? = some { yn with pt := c1.addr } ∧
        (∀ b : Nat, (h2[b]?).map (fun n => (n.elem, n.info))
          = (h0[b]?).map (fun n => (n.elem, n.info))) ∧
        (∀ b ∈ c1.before, ∀ n, h0[b]? = some n → cmp n.elem elem = -1) ∧
        (∀ b ∈ c1.after, ∀ n, h0[b]? = some n → cmp elem n.elem = -1) := by
  induction t with
  | nil => intro c h; exact absurd rfl h
  | node l a r ihl ihr =>
    intro c _ hlink hup hgood hord hyS hkey hbefore hafter
    obtain ⟨an, ha, hpt, hlt, hrt, ll, lr⟩ := hlink
    obtain ⟨gl, gr⟩ := hgood.children
    have hnd := pairwise_nodup hc hord
    obtain ⟨hal, har, hac, hlc, hrc, hlr, hcnd, -, -⟩ := nodup_plug_node hnd
    obtain ⟨pl, pr⟩ := pairwise_plug_node hord
    have hne0 := hkey a (by simp [Shape.inorder]) an ha
    have hyS2 := hyS
    rw [Ctx.plug_inorder] at hyS2
    simp only [Shape.inorder, List.mem_append, List.mem_cons, not_or] at hyS2
    obtain ⟨⟨hyb, hyl, hya, hyr⟩, hyaf⟩ := hyS2
    by_cases hlt1 : cmp elem an.elem = -1
    · have haft : ∀ b ∈ (Ctx.left a r c).after, ∀ n, h0[b]? = some n → cmp elem n.elem = -1 := by
        intro b hb n hn
        simp only [Ctx.after, List.mem_append, List.mem_cons] at hb
        rcases hb with (rfl | hb) | hb
        · rw [ha] at hn; cases hn; exact hlt1
        · obtain ⟨na, nb, h1, h2, h3⟩ := pr b hb
          rw [ha] at h1; cases h1
          rw [hn] at h2; cases h2
          exact hc.trans _ _ _ hlt1 h3
        · exact hafter b hb n hn
      cases l with
      | nil =>
        obtain ⟨g1, g2, g3, g4, g5⟩ := insert_attach (q := { an with lt := some y })
          (c := c) (d := .left a r c) (r := r) hy ha hya
          (by simp [Ctx.before, Ctx.after, hyb, hya, hyr, hyaf]) hac
          (by intro b hb; simp only [Ctx.before, Ctx.after, List.mem_append, List.mem_cons] at hb ⊢; tauto)
          (by intro b hb; simp [Ctx.after, hb]) har rfl rfl gr hup
        refine ⟨.left a r c, (h0.set a { an with lt := some y }).set y { yn with pt := some a },
          rfl, by simp, ?_, ⟨_, g3, rfl, hrt, hpt, g1, g2⟩, g4, g5, hbefore, haft⟩
        intro fuel hf
        obtain ⟨f0, rfl⟩ : ∃ f0, fuel = f0 + 1 :=
          ⟨fuel - 1, by simp [Shape.height] at hf; omega⟩
        have hy1 : (h0.set a { an with lt := some y })[y]? = some yn :=
          (get_set_diff (Ne.symm hya) _).trans hy
        have hlt0 : an.lt = none := hlt
        simp [insertLoop, Shape.rootPtr, load_of_get ha, hne0, hlt1, hlt0, store_of_get ha,
          ok_bind, store_of_get hy1]
      | node l1 la l2 =>
        obtain ⟨c1, h2, e1, e2, hrun, hctx, hy2, hp, hb, haf⟩ :=
          ihl (.left a r c) (by simp) ll ⟨an, ha, hlt, hrt, hpt, gr, hup⟩ gl hord hyS
            (fun b hb => hkey b (by simp only [Shape.inorder, List.mem_append] at hb ⊢; tauto))
            hbefore haft
        refine ⟨c1, h2, e1, e2, ?_, hctx, hy2, hp, hb, haf⟩
        intro fuel hf
        obtain ⟨f0, rfl⟩ : ∃ f0, fuel = f0 + 1 :=
          ⟨fuel - 1, by simp [Shape.height] at hf; omega⟩
        have hlt0 : an.lt = some la := hlt
        show insertLoop cmp elem (some y) (f0 + 1) h0 (some a) = _
        rw [insertLoop]
        simp only [load_of_get ha, ok_bind, hne0, hlt1, hlt0, if_false, if_true]
        simp only [Shape.height] at hf
        exact hrun f0 (by simp only [Shape.height]; omega)
    · have hgt1 : cmp elem an.elem = 1 := by
        rcases hc.range elem an.elem with h | h | h
        · exact absurd h hlt1
        · exact absurd h hne0
        · exact h
      have hlt2 : cmp an.elem elem = -1 := (hc.swap _ _).mp hgt1
      have hbef : ∀ b ∈ (Ctx.right l a c).before, ∀ n, h0[b]? = some n →
          cmp n.elem elem = -1 := by
        intro b hb n hn
        simp only [Ctx.before, List.mem_append, List.mem_singleton] at hb
        rcases hb with hb | hb | rfl
        · exact hbefore b hb n hn
        · obtain ⟨na, nb, h1, h2, h3⟩ := pl b hb
          rw [ha] at h2; cases h2
          rw [hn] at h1; cases h1
          exact hc.trans _ _ _ h3 hlt2
        · rw [ha] at hn; cases hn; exact hlt2
      cases r with
      | nil =>
        obtain ⟨g1, g2, g3, g4, g5⟩ := insert_attach (q := { an with rt := some y })
          (c := c) (d := .right l a c) (r := l) hy ha hya
          (by simp [Ctx.before, Ctx.after, hyb, hya, hyl, hyaf]) hac
          (by intro b hb; simp only [Ctx.before, Ctx.after, List.mem_append, List.mem_cons] at hb ⊢; tauto)
          (by intro b hb; simp [Ctx.before, hb]) hal rfl rfl gl hup
        refine ⟨.right l a c, (h0.set a { an with rt := some y }).set y { yn with pt := some a },
          rfl, by simp, ?_, ⟨_, g3, hlt, rfl, hpt, g1, g2⟩, g4, g5, hbef, hafter⟩
        intro fuel hf
        obtain ⟨f0, rfl⟩ : ∃ f0, fuel = f0 + 1 :=
          ⟨fuel - 1, by simp [Shape.height] at hf; omega⟩
        have hy1 : (h0.set a { an with rt := some y })[y]? = some yn :=
          (get_set_diff (Ne.symm hya) _).trans hy
        have hrt0 : an.rt = none := hrt
        simp [insertLoop, Shape.rootPtr, load_of_get ha, hne0, hlt1, hgt1, hrt0, store_of_get ha,
          ok_bind, store_of_get hy1]
      | node r1 ra r2 =>
        obtain ⟨c1, h2, e1, e2, hrun, hctx, hy2, hp, hb, haf⟩ :=
          ihr (.right l a c) (by simp) lr ⟨an, ha, hlt, hrt, hpt, gl, hup⟩ gr hord hyS
            (fun b hb => hkey b
              (by simp only [Shape.inorder, List.mem_append, List.mem_cons] at hb ⊢; tauto))
            hbef hafter
        refine ⟨c1, h2, e1, e2, ?_, hctx, hy2, hp, hb, haf⟩
        intro fuel hf
        obtain ⟨f0, rfl⟩ : ∃ f0, fuel = f0 + 1 :=
          ⟨fuel - 1, by simp [Shape.height] at hf; omega⟩
        have hrt0 : an.rt = some ra := hrt
        show insertLoop cmp elem (some y) (f0 + 1) h0 (some a) = _
        rw [insertLoop]
        simp only [load_of_get ha, ok_bind, hne0, hlt1, hgt1, hrt0, if_false, if_true,
          true_and, reduceCtorEq]
        simp only [Shape.height] at hf
        exact hrun f0 (by simp only [Shape.height]; omega)
/-- In a tree with ordered keys `search` finds every node by its key. -/
theorem searchLoop_finds {cmp : K → K → Int} (hc : StrictTotal cmp) {h : Heap K V} (s : Shape) :
    Owned h s → s.inorder.Pairwise (KeyLt cmp h) → ∀ b ∈ s.inorder, ∀ n, h[b]? = some n →
      ∀ fuel, s.height ≤ fuel → searchLoop cmp h n.elem fuel s.rootPtr = .ok (some b) := by
  induction s with
  | nil => intro _ _ b hb; simp [Shape.inorder] at hb
  | node l a r ihl ihr =>
    intro ho hp b hb n hn fuel hf
    obtain ⟨an, ha, hlt, hrt, ol, or1⟩ := ho
    obtain ⟨pl, pr⟩ := pairwise_plug_node (c := .top) hp
    simp only [Shape.inorder] at hp
    rw [List.pairwise_append] at hp
    obtain ⟨hpl, hpr, -⟩ := hp
    rw [List.pairwise_cons] at hpr
    obtain ⟨f0, rfl⟩ : ∃ f0, fuel = f0 + 1 := ⟨fuel - 1, by simp [Shape.height] at hf; omega⟩
    simp only [Shape.height] at hf
    show searchLoop cmp h n.elem (f0 + 1) (some a) = _
    rw [searchLoop]
    simp only [Shape.inorder, List.mem_append, List.mem_cons] at hb
    rcases hb with hb | rfl | hb
    · obtain ⟨nb, na, h1, h2, h3⟩ := pl b hb
      rw [hn] at h1; cases h1
      rw [ha] at h2; cases h2
      have h4 : cmp an.elem n.elem = 1 := (hc.swap _ _).mpr h3
      simp only [load_of_get ha, ok_bind, h4, if_true]
      rw [hlt]
      simpa using ihl ol hpl b hb n hn f0 (by omega)
    · rw [ha] at hn; cases hn
      simp only [load_of_get ha, ok_bind, (hc.eq_iff n.elem n.elem).mpr rfl, if_true]
      rfl
    · obtain ⟨na, nb, h1, h2, h3⟩ := pr b hb
      rw [hn] at h2; cases h2
      rw [ha] at h1; cases h1
      simp only [load_of_get ha, ok_bind, h3]
      rw [hrt]
      simpa using ihr or1 hpr.2 b hb n hn f0 (by omega)

theorem Ordered.of_pairwise {cmp : K → K → Int} (hc : StrictTotal cmp) {h : Heap K V}
    (s : Shape) (hp : s.inorder.Pairwise (KeyLt cmp h)) : Ordered cmp h s := by
  induction s with
  | nil => trivial
  | node l a r ihl ihr =>
    obtain ⟨pl, pr⟩ := pairwise_plug_node (c := .top) hp
    simp only [Shape.inorder] at hp
    rw [List.pairwise_append] at hp
    obtain ⟨hpl, hpr, -⟩ := hp
    rw [List.pairwise_cons] at hpr
    refine ⟨pl, ?_, ihl hpl, ihr hpr.2⟩
    intro b hb
    obtain ⟨na, nb, h1, h2, h3⟩ := pr b hb
    exact ⟨nb, na, h2, h1, (hc.swap _ _).mpr h3⟩

theorem KeyLt.appendHeap {cmp : K → K → Int} {h : Heap K V} {a b : Nat} (hab : KeyLt cmp h a b)
    (xs : Heap K V) : KeyLt cmp (h ++ xs) a b := by
  obtain ⟨na, nb, ha, hb, hlt⟩ := hab
  exact ⟨na, nb, get_append ha _, get_append hb _, hlt⟩

theorem pairwise_insert_mid {R : Nat → Nat → Prop} {A B : List Nat} {y : Nat}
    (hp : (A ++ B).Pairwise R) (hA : ∀ a ∈ A, R a y) (hB : ∀ b ∈ B, R y b) :
    (A ++ y :: B).Pairwise R := by
  rw [List.pairwise_append] at hp ⊢
  obtain ⟨h1, h2, h3⟩ := hp
  refine ⟨h1, List.pairwise_cons.mpr ⟨hB, h2⟩, ?_⟩
  intro a ha b hb
  rcases List.mem_cons.mp hb with rfl | hb
  · exact hA a ha
  · exact h3 a ha b hb

theorem Good.leaf {h : Heap K V} {y : Nat} {n : TreeNode K V} (hn : h[y]? = some n)
    (hlt : n.lt = none) (hrt : n.rt = none) (hh : n.height = 1) :
    Good h (.node .nil y .nil) :=
  ⟨⟨n, hn, hlt, hrt, trivial, trivial⟩, ⟨n, hn, by rw [hh]; rfl, trivial, trivial⟩,
    by simp [Shape.Balanced, Shape.height]⟩
theorem createTreeNode_eq (m : Mem K V) (k : K) (v : V) :
    createTreeNode m k v
      = (⟨m.heap ++ [nodeOf (m.tree.createElement k) (m.tree.createInfo v) none none none 1],
          m.tree⟩, some m.heap.length) := rfl

theorem pair_node {h h1 : Heap K V}
    (hp : ∀ b : Nat, (h1[b]?).map (fun n => (n.elem, n.info))
      = (h[b]?).map (fun n => (n.elem, n.info)))
    {b : Nat} {n : TreeNode K V} (hn : h[b]? = some n) :
    ∃ n1 : TreeNode K V, h1[b]? = some n1 ∧ n1.elem = n.elem ∧ n1.info = n.info := by
  have e := hp b
  rw [hn] at e
  cases h1b : h1[b]? with
  | none => rw [h1b] at e; cases e
  | some n1 =>
    rw [h1b] at e
    simp only [Option.map_some', Option.some.injEq, Prod.mk.injEq] at e
    exact ⟨n1, rfl, e.1, e.2⟩

theorem get_append_new (h : Heap K V) (n : TreeNode K V) : (h ++ [n])[h.length]? = some n := by
  simp

/-- What `insert` of a new key does to a well-formed map: the common ground of
C11 and C16. -/
theorem insert_core {m : Mem K V} (hc : StrictTotal m.tree.compare) (s : Shape) (k : K) (v : V)
    (hce : m.tree.createElement k = k)
    (hroot : m.tree.root = s.rootPtr) (hlink : Linked m.heap none s)
    (hord : Ordered m.tree.compare m.heap s) (hbal : s.Balanced) (hcached : Cached m.heap s)
    (hnew : ∀ b ∈ s.inorder, ∀ n, m.heap[b]? = some n → n.elem ≠ k) :
    ∃ (m1 : Mem K V) (s1 : Shape) (yn : TreeNode K V),
      (∀ fuel, 2 * s.size ≤ fuel → insert fuel m k v = .ok m1) ∧
      m1.tree.root = s1.rootPtr ∧ Good m1.heap s1 ∧
      s1.inorder.Pairwise (KeyLt m.tree.compare m1.heap) ∧
      (∀ b, b ∈ s1.inorder ↔ b = m.heap.length ∨ b ∈ s.inorder) ∧ s1.size = s.size + 1 ∧
      m1.heap[m.heap.length]? = some yn ∧ yn.elem = k ∧ yn.info = m.tree.createInfo v ∧
      (∀ (b : Nat) (n : TreeNode K V), m.heap[b]? = some n →
        ∃ n1 : TreeNode K V, m1.heap[b]? = some n1 ∧ n1.elem = n.elem ∧ n1.info = n.info) ∧
      m1.tree.size = m.tree.size + 1 ∧ m1.tree.compare = m.tree.compare ∧
      (s = .nil → m1.tree.root = some m.heap.length ∧ yn.height = 1) := by
  have hy := get_append_new m.heap (nodeOf (m.tree.createElement k) (m.tree.createInfo v)
    none none none 1)
  cases s with
  | nil =>
    have hr0 : m.tree.root = none := hroot
    refine ⟨⟨(m.heap ++ [nodeOf (m.tree.createElement k) (m.tree.createInfo v)
        none none none 1]).set m.heap.length
          (nodeOf (m.tree.createElement k) (m.tree.createInfo v) none none none 1),
        { m.tree with root := some m.heap.length, size := m.tree.size + 1 }⟩,
      .node .nil m.heap.length .nil, _, ?_, rfl,
      Good.leaf (get_set_same hy _) rfl rfl rfl, by simp [Shape.inorder],
      by simp [Shape.inorder], rfl, get_set_same hy _, hce, rfl, ?_, rfl, rfl,
      fun _ => ⟨rfl, rfl⟩⟩
    · intro fuel _
      simp only [insert, createTreeNode, hr0, ne_eq, not_true_eq_false, if_false]
      simp only [nodeOf] at hy ⊢
      rw [store_of_get hy]
      rfl
    · intro b n hn
      refine ⟨n, ?_, rfl, rfl⟩
      rw [get_set_diff (by intro e; subst e; exact absurd (lt_length_of_get hn) (lt_irrefl _))]
      exact get_append hn _
  | node l a r =>
    have ho := Linked.owned _ _ hlink
    obtain ⟨h0, hh0⟩ : ∃ h0 : Heap K V, h0 = m.heap ++ [nodeOf (m.tree.createElement k)
      (m.tree.createInfo v) none none none 1] := ⟨_, rfl⟩
    rw [← hh0] at hy
    have happ : ∀ (b : Nat) (n : TreeNode K V), m.heap[b]? = some n → h0[b]? = some n := by
      intro b n hn
      rw [hh0]
      exact get_append hn _
    have hold : ∀ b ∈ (Shape.node l a r).inorder, h0[b]? = m.heap[b]? := by
      intro b hb
      obtain ⟨n, hn⟩ := Owned.node_of_mem _ ho hb
      rw [hn]
      exact happ b n hn
    have hlink0 := Linked.congrL _ none hlink hold
    have hgood0 : Good h0 (.node l a r) :=
      Good.congrG _ _ _ hold ⟨ho, Heights.ofCached _ ho hcached, hbal⟩
    have hp0 : (Shape.node l a r).inorder.Pairwise (KeyLt m.tree.compare h0) := by
      refine (Ordered.pairwise hc _ hord).imp ?_
      intro x z hxz
      rw [hh0]
      exact hxz.appendHeap _
    have hyS : m.heap.length ∉ (Shape.node l a r).inorder := by
      intro hb
      obtain ⟨n, hn⟩ := Owned.node_of_mem _ ho hb
      exact absurd (lt_length_of_get hn) (lt_irrefl _)
    have hkey : ∀ b ∈ (Shape.node l a r).inorder, ∀ n, h0[b]? = some n →
        m.tree.compare k n.elem ≠ 0 := by
      intro b hb n hn e
      rw [hold b hb] at hn
      exact hnew b hb n hn ((hc.eq_iff _ _).mp e).symm
    obtain ⟨c1, h2, e1, e2, hrun, hctx, hy2, hp, hb, haf⟩ :=
      insert_descend hc hy (.node l a r) .top (by simp) hlink0 trivial hgood0 hp0 hyS hkey
        (by simp [Ctx.before]) (by simp [Ctx.after])
    have e1' : c1.plug .nil = .node l a r := e1
    have hS : (Shape.node l a r).inorder = c1.before ++ c1.after := by
      rw [← e1', Ctx.plug_inorder]
      simp [Shape.inorder]
    have inv : FixInv m.tree.compare ⟨h2, { m.tree with size := m.tree.size + 1 }⟩ c1
        (.node .nil m.heap.length .nil) m.heap.length 0 := by
      refine ⟨hctx, Good.leaf hy2 rfl rfl rfl, ⟨_, _, rfl, hy2, rfl⟩, ?_, ?_,
        by simp [Shape.inorder], ?_, Or.inr ⟨rfl, Or.inl ⟨rfl, rfl⟩⟩, rfl⟩
      · show m.tree.root = _
        rw [hroot, ← e1']
        exact Ctx.plug_rootPtr_indep c1 _ _ e2
      · rw [Ctx.plug_inorder]
        simp only [Shape.inorder, List.nil_append]
        rw [List.append_assoc]
        show List.Pairwise _ (c1.before ++ m.heap.length :: c1.after)
        refine pairwise_congr_heap hp (pairwise_insert_mid (by rw [← hS]; exact hp0) ?_ ?_)
        · intro b hbm
          obtain ⟨n, hn⟩ := Owned.node_of_mem (b := b) _ hgood0.1 (by rw [hS]; simp [hbm])
          exact ⟨n, _, hn, hy, by rw [← hb b hbm n hn]; simp [nodeOf, hce]⟩
        · intro b hbm
          obtain ⟨n, hn⟩ := Owned.node_of_mem (b := b) _ hgood0.1 (by rw [hS]; simp [hbm])
          exact ⟨_, n, hy, hn, by rw [← haf b hbm n hn]; simp [nodeOf, hce]⟩
      · exact (Ctx.bal_of_plug c1 .nil (by rw [e1']; exact hbal)).1
    obtain ⟨m2, s1, hold1, hrun2, inv2, hio, hp2, hsz⟩ := fix_loop hc c1 _ _ _ inv
    obtain ⟨yn, hyn, hye, hyi⟩ := pair_node (pair_trans hp2 hp) hy
    refine ⟨m2, s1, yn, ?_, inv2.root, inv2.good, inv2.order, ?_, ?_, hyn, ?_, ?_, ?_, hsz,
      inv2.cmpeq, fun e => by cases e⟩
    · intro fuel hf
      have hd := Ctx.depth_le c1 .nil
      rw [e1'] at hd
      have hh := Shape.height_le_size (.node l a r)
      have hr1 : m.tree.root = some a := hroot
      have hrun1 := hrun fuel (by omega)
      simp only [insert, createTreeNode_eq, ← hh0, hr1, ne_eq, reduceCtorEq, not_false_eq_true,
        if_true]
      rw [show insertLoop m.tree.compare k (some m.heap.length) fuel h0 (some a)
        = .ok (some h2) from hrun1]
      simp only [ok_bind, avlFixUp, load_of_get hy2]
      have hd2 : c1.depth ≤ (Shape.node l a r).size :=
        Nat.le_trans (Nat.le_add_right _ _) hd
      have hfd : 2 * c1.depth ≤ fuel := by omega
      have hrun3 := hrun2 fuel hfd
      simp only [hr1] at hrun3
      exact hrun3
    · intro b
      rw [hio, Ctx.plug_inorder, hS]
      simp only [Shape.inorder, List.mem_append, List.mem_cons, List.not_mem_nil]
      tauto
    · rw [← Shape.inorder_length, ← Shape.inorder_length, hio, Ctx.plug_inorder, hS]
      simp [Shape.inorder]
      omega
    · rw [hye]; simp [nodeOf, hce]
    · rw [hyi]; rfl
    · intro b n hn
      exact pair_node (pair_trans hp2 hp) (happ b n hn)
theorem cached213 : Cached heap213 shape213 :=
  ⟨_, rfl, rfl, ⟨_, rfl, rfl, trivial, trivial⟩, ⟨_, rfl, rfl, trivial, trivial⟩⟩

theorem balanced213 : shape213.Balanced := by
  simp [shape213, Shape.Balanced, Shape.height]

theorem absent213 : ∀ b ∈ shape213.inorder, ∀ n, mem213.heap[b]? = some n → n.elem ≠ 4 := by
  intro b hb n hn
  simp only [shape213, Shape.inorder, List.nil_append, List.mem_append, List.mem_cons,
    List.mem_singleton, List.not_mem_nil, or_false] at hb
  rcases hb with rfl | rfl | rfl <;>
    · simp only [mem213, heap213] at hn
      cases hn
      decide

/-- C11: insert of a new key.  Let the map hold a tree `s` under its root with
ordered keys (invariant 1), balanced (invariant 2), with parent links that
mirror the child links (invariant 3) and correct cached heights, let the
comparator be a strict total order, and let `k` be a key stored in no node of
`s` that the key constructor returns as it is.  Then `insert k v` returns,
given fuel of at least twice the number of nodes, and afterwards: `search k`
returns the newly allocated node, whose key is `k` and whose value is the one
constructed from `v`; every key stored before is found by `search` at the node
it was found at before, which still holds the same key and value; `size` is
one more; and if the map was empty the new node is the root and has height 1. -/
theorem insert_new_key (m : Mem K V) (s : Shape) (k : K) (v : V)
    (hc : StrictTotal m.tree.compare) (hce : m.tree.createElement k = k)
    (hroot : m.tree.root = s.rootPtr) (hlink : Linked m.heap none s)
    (hord : Ordered m.tree.compare m.heap s) (hbal : s.Balanced) (hcached : Cached m.heap s)
    (hnew : ∀ b ∈ s.inorder, ∀ n, m.heap[b]? = some n → n.elem ≠ k) :
    ∃ (m1 : Mem K V) (yn : TreeNode K V),
      (∀ fuel, 2 * s.size ≤ fuel → insert fuel m k v = .ok m1) ∧
      m1.heap[m.heap.length]? = some yn ∧ yn.elem = k ∧ yn.info = m.tree.createInfo v ∧
      (∀ fuel, s.size + 1 ≤ fuel → search fuel m1 k = .ok (some m.heap.length)) ∧
      (∀ b ∈ s.inorder, ∀ n : TreeNode K V, m.heap[b]? = some n →
        (∃ n1 : TreeNode K V, m1.heap[b]? = some n1 ∧ n1.elem = n.elem ∧ n1.info = n.info) ∧
        ∀ fuel, s.size + 1 ≤ fuel →
          search fuel m n.elem = .ok (some b) ∧ search fuel m1 n.elem = .ok (some b)) ∧
      m1.tree.size = m.tree.size + 1 ∧
      (s = .nil → m1.tree.root = some m.heap.length ∧ yn.height = 1) := by
  obtain ⟨m1, s1, yn, hrun, hroot1, hgood, hpw, hmem, hsize, hyn, hye, hyi, hkeep, hsz, hcmp,
    hempty⟩ := insert_core hc s k v hce hroot hlink hord hbal hcached hnew
  have hh1 := Shape.height_le_size s1
  have hh := Shape.height_le_size s
  refine ⟨m1, yn, hrun, hyn, hye, hyi, ?_, ?_, hsz, hempty⟩
  · intro fuel hf
    have := searchLoop_finds hc s1 hgood.1 hpw m.heap.length ((hmem _).mpr (Or.inl rfl)) yn hyn
      fuel (by omega)
    rw [hye] at this
    simpa only [search, hcmp, hroot1] using this
  · intro b hb n hn
    obtain ⟨n1, hn1, he1, hi1⟩ := hkeep b n hn
    refine ⟨⟨n1, hn1, he1, hi1⟩, fun fuel hf => ⟨?_, ?_⟩⟩
    · have := searchLoop_finds hc s (Linked.owned _ _ hlink) (Ordered.pairwise hc s hord) b hb
        n hn fuel (by omega)
      simpa only [search, hroot] using this
    · have := searchLoop_finds hc s1 hgood.1 hpw b ((hmem _).mpr (Or.inr hb)) n1 hn1
        fuel (by omega)
      rw [he1] at this
      simpa only [search, hcmp, hroot1] using this

/-- C11 on a concrete map: inserting the new key 4 into the map built from 2, 1, 3. -/
theorem insert_new_key_witness :
    StrictTotal mem213.tree.compare ∧ Linked mem213.heap none shape213 ∧
    Ordered mem213.tree.compare mem213.heap shape213 ∧ shape213.Balanced ∧
    Cached mem213.heap shape213 ∧
    ∃ (m1 : Mem Int Unit) (yn : TreeNode Int Unit),
      (∀ fuel, 2 * shape213.size ≤ fuel → insert fuel mem213 4 () = .ok m1) ∧
      m1.heap[mem213.heap.length]? = some yn ∧ yn.elem = 4 ∧
      yn.info = mem213.tree.createInfo () ∧
      (∀ fuel, shape213.size + 1 ≤ fuel → search fuel m1 4 = .ok (some mem213.heap.length)) ∧
      (∀ b ∈ shape213.inorder, ∀ n : TreeNode Int Unit, mem213.heap[b]? = some n →
        (∃ n1 : TreeNode Int Unit,
          m1.heap[b]? = some n1 ∧ n1.elem = n.elem ∧ n1.info = n.info) ∧
        ∀ fuel, shape213.size + 1 ≤ fuel →
          search fuel mem213 n.elem = .ok (some b) ∧ search fuel m1 n.elem = .ok (some b)) ∧
      m1.tree.size = mem213.tree.size + 1 ∧
      (shape213 = .nil → m1.tree.root = some mem213.heap.length ∧ yn.height = 1) :=
  ⟨cmpInt_strictTotal, linked213, ordered213, balanced213, cached213,
    insert_new_key mem213 shape213 4 () cmpInt_strictTotal rfl rfl linked213 ordered213
      balanced213 cached213 absent213⟩

/-- C16: fix-up restores balance after one insertion.  Under the hypotheses of
C11 (a tree `s` under the root with ordered keys, balance, mirrored parent
links and correct cached heights, a strict total comparator, and a key `k`
stored in no node), `insert k v` returns, given fuel of at least twice the
number of nodes, and afterwards the nodes reachable from the root along the
child links form a tree `s1`, made of the nodes of `s` and the new node, in
which the heights of the two subtrees of every node differ by at most 1,
every node caches 1 + the maximum of the cached heights of its children, and
the keys are in BST order. -/
theorem insert_restores_avl (m : Mem K V) (s : Shape) (k : K) (v : V)
    (hc : StrictTotal m.tree.compare) (hce : m.tree.createElement k = k)
    (hroot : m.tree.root = s.rootPtr) (hlink : Linked m.heap none s)
    (hord : Ordered m.tree.compare m.heap s) (hbal : s.Balanced) (hcached : Cached m.heap s)
    (hnew : ∀ b ∈ s.inorder, ∀ n, m.heap[b]? = some n → n.elem ≠ k) :
    ∃ (m1 : Mem K V) (s1 : Shape),
      (∀ fuel, 2 * s.size ≤ fuel → insert fuel m k v = .ok m1) ∧
      m1.tree.root = s1.rootPtr ∧ Owned m1.heap s1 ∧
      (∀ b, b ∈ s1.inorder ↔ b = m.heap.length ∨ b ∈ s.inorder) ∧
      s1.Balanced ∧ Cached m1.heap s1 ∧ Heights m1.heap s1 ∧
      Ordered m1.tree.compare m1.heap s1 := by
  obtain ⟨m1, s1, yn, hrun, hroot1, hgood, hpw, hmem, -, -, -, -, -, -, hcmp, -⟩ :=
    insert_core hc s k v hce hroot hlink hord hbal hcached hnew
  exact ⟨m1, s1, hrun, hroot1, hgood.1, hmem, hgood.2.2, Heights.toCached _ hgood.2.1,
    hgood.2.1, by rw [hcmp]; exact Ordered.of_pairwise hc _ hpw⟩

theorem ordered21435 : Ordered cmpInt tree21435.heap shape21435 := by
  refine Ordered.of_pairwise cmpInt_strictTotal _ ?_
  simp only [shape21435, Shape.inorder, List.nil_append, List.cons_append,
    List.pairwise_cons, List.mem_cons, List.mem_singleton, List.not_mem_nil, forall_eq_or_imp,
    forall_eq, List.Pairwise.nil, and_true, IsEmpty.forall_iff, implies_true]
  refine ⟨⟨?_, ?_, ?_, ?_⟩, ⟨?_, ?_, ?_⟩, ⟨?_, ?_⟩, ?_⟩ <;> exact ⟨_, _, rfl, rfl, rfl⟩

theorem cached21435 : Cached tree21435.heap shape21435 :=
  ⟨_, rfl, rfl, ⟨_, rfl, rfl, trivial, trivial⟩,
    ⟨_, rfl, rfl, ⟨_, rfl, rfl, trivial, trivial⟩, ⟨_, rfl, rfl, trivial, trivial⟩⟩⟩

theorem balanced21435 : shape21435.Balanced := by
  simp [shape21435, Shape.Balanced, Shape.height]

theorem absent21435 :
    ∀ b ∈ shape21435.inorder, ∀ n, tree21435.heap[b]? = some n → n.elem ≠ 6 := by
  intro b hb n hn
  simp only [shape21435, Shape.inorder, List.nil_append, List.mem_append, List.mem_cons,
    List.mem_singleton, List.not_mem_nil, or_false] at hb
  rcases hb with rfl | rfl | rfl | rfl | rfl <;>
    · simp only [tree21435] at hn
      cases hn
      decide

/-- C16 on a concrete map where the walk rotates: inserting the new key 6 into
the balanced tree with keys 2, 1, 4, 3, 5 makes the root right-heavy, and the
walk answers with a left rotation at the root. -/
theorem insert_restores_avl_witness :
    StrictTotal tree21435.tree.compare ∧ Linked tree21435.heap none shape21435 ∧
    Ordered tree21435.tree.compare tree21435.heap shape21435 ∧ shape21435.Balanced ∧
    Cached tree21435.heap shape21435 ∧
    ∃ (m1 : Mem Int Unit) (s1 : Shape),
      (∀ fuel, 2 * shape21435.size ≤ fuel → insert fuel tree21435 6 () = .ok m1) ∧
      m1.tree.root = s1.rootPtr ∧ Owned m1.heap s1 ∧
      (∀ b, b ∈ s1.inorder ↔ b = tree21435.heap.length ∨ b ∈ shape21435.inorder) ∧
      s1.Balanced ∧ Cached m1.heap s1 ∧ Heights m1.heap s1 ∧
      Ordered m1.tree.compare m1.heap s1 :=
  ⟨cmpInt_strictTotal, linked21435, ordered21435, balanced21435, cached21435,
    insert_restores_avl tree21435 shape21435 6 () cmpInt_strictTotal rfl rfl linked21435
      ordered21435 balanced21435 cached21435 absent21435⟩

end TreeMap
